import Mathlib

/-!
# K2Node_CreateBlueprintMessage: dynamic token pins and node expansion

A shallow embedding of `Source/BlueprintMessageEditor/K2Node_CreateBlueprintMessage.cpp`.

The node lives inside the Unreal editor's graph object model.  Pins are heap objects
referred to by pointer, so the embedding keeps an explicit pin store (`PinStore`) that maps
pin addresses to pin records, and every node holds its `Pins` array as a list of addresses.
The functions of the source file are transcribed one by one over this store; the engine calls
they make (`CreatePin`, `FString::Replace`, `MakeLinkTo`, ...) are given small models in the
section "Engine primitives", each with a comment saying which engine behaviour it stands for.

Conventions
* A pin pointer (`UEdGraphPin*`) is a natural number, the address of the pin in the store;
  the null pointer is `none` where it can occur.
* `FName` and `FString` are both `String`; `NAME_None` is the string `"None"`.
* `int32` values are `Int`; `++` and `--` go through `wrapInt32`.
* A failed `check(...)` / `FindPinChecked` is the result `none`.
* `Modify()`, `FScopedTransaction` (undo bookkeeping) do not touch the modelled state.
-/

namespace BlueprintMessage

/-! ## Data model -/

/-- Pin direction, `EEdGraphPinDirection`. -/
inductive EEdGraphPinDirection
  | EGPD_Input
  | EGPD_Output
  deriving DecidableEq, Repr

/-- Container kind of a pin type, `EPinContainerType`. -/
inductive EPinContainerType
  | None
  | Array
  deriving DecidableEq, Repr

/-- Objects a pin type can point to through `PinSubCategoryObject`. -/
inductive UObjectRef
  | FBlueprintMessageToken_StaticStruct
  | other (id : Nat)
  deriving DecidableEq, Repr

/-- The part of `FEdGraphPinType` set by `CreatePin`. -/
structure FEdGraphPinType where
  PinCategory : String
  PinSubCategory : String
  PinSubCategoryObject : Option UObjectRef
  ContainerType : EPinContainerType
  bIsReference : Bool
  deriving DecidableEq, Repr

/-- A pin object, `UEdGraphPin`. -/
structure UEdGraphPin where
  PinName : String
  PinFriendlyName : String
  Direction : EEdGraphPinDirection
  PinType : FEdGraphPinType
  ParentPin : Option Nat
  SubPins : List Nat
  LinkedTo : List Nat
  DefaultValue : String
  AutogeneratedDefaultValue : String
  bWasTrashed : Bool
  deriving DecidableEq, Repr

/-- Reference to a member function, `FMemberReference` set by `SetExternalMember`. -/
structure FMemberReference where
  MemberName : String
  MemberParent : String
  deriving DecidableEq, Repr

/-- Node classes that occur in this file. -/
inductive NodeClass
  | K2Node_CreateBlueprintMessage
  | K2Node_CallFunction
  | K2Node_MakeArray
  deriving DecidableEq, Repr

/-- A graph node: the fields of `UK2Node_CallFunction` / `UK2Node_MakeArray` /
`UK2Node_CreateBlueprintMessage` that the source file reads or writes. -/
structure UK2Node where
  Class : NodeClass
  FunctionReference : FMemberReference
  NumInputs : Int
  Pins : List Nat
  deriving DecidableEq, Repr

/-- The pin heap: contents of every pin address and the next address to hand out. -/
structure PinStore where
  pin : Nat → UEdGraphPin
  nextPin : Nat

/-- Everything the member functions of the node can see or change. -/
structure State where
  store : PinStore
  /-- The node itself (`this`). -/
  node : UK2Node
  /-- The flag `GetBlueprint()->bBeingCompiled`. -/
  bBeingCompiled : Bool
  /-- Number of calls of `FBlueprintEditorUtils::MarkBlueprintAsStructurallyModified`. -/
  structurallyModified : Nat
  /-- Nodes created through `CompilerContext.SpawnIntermediateNode`, oldest first. -/
  intermediate : List UK2Node
  /-- Number of errors written to `CompilerContext.MessageLog`. -/
  errors : Nat

/-! ## Engine primitives -/

def INT32_MAX : Int := 2147483647

def INT32_MIN : Int := -2147483648

/-- Two's complement reduction of an integer to the `int32` range. -/
def wrapInt32 (x : Int) : Int := (x + 2147483648) % 4294967296 - 2147483648

def NAME_None : String := "None"

def PC_Struct : String := "struct"

def PC_Wildcard : String := "wildcard"

def PC_Exec : String := "exec"

def PN_Execute : String := "execute"

def PN_Then : String := "then"

def PN_ReturnValue : String := "ReturnValue"

def PN_Self : String := "self"

/-- Overwrite the pin object at address `p`. -/
def setPin (σ : PinStore) (p : Nat) (v : UEdGraphPin) : PinStore :=
  { σ with pin := fun q => if q = p then v else σ.pin q }

/-- `TChar::ToUpper`: ASCII lower-case letters are moved to upper case, every other code
stays. -/
def ToUpper (c : Char) : Nat :=
  if 97 ≤ c.toNat ∧ c.toNat ≤ 122 then c.toNat - 32 else c.toNat

/-- Does `pat` occur at the front of `s`, ignoring ASCII case (`Strnicmp` over the length of
`pat`)? -/
def startsWithIgnoreCase : List Char → List Char → Bool
  | [], _ => true
  | _ :: _, [] => false
  | p :: ps, c :: cs => ToUpper p == ToUpper c && startsWithIgnoreCase ps cs

/-- The scan of `FString::Replace`: walk through the text; `skip` counts the characters of a
match that are still to be dropped.  At a position where `From` matches, `To` is emitted and
the scan resumes behind the match. -/
def replaceScan (From To : List Char) : List Char → Nat → List Char
  | [], _ => []
  | _ :: cs, skip + 1 => replaceScan From To cs skip
  | c :: cs, 0 =>
    if startsWithIgnoreCase From (c :: cs) then To ++ replaceScan From To cs (From.length - 1)
    else c :: replaceScan From To cs 0

/-- `FString::Replace(From, To)` and `FString::ReplaceInline(From, To)` with the default
`ESearchCase::IgnoreCase`: every occurrence of `From`, found left to right without overlap,
is replaced by `To`; an empty text or an empty `From` gives the text back. -/
def Replace (Text From To : String) : String :=
  if Text.data = [] ∨ From.data = [] then Text
  else String.mk (replaceScan From.data To.data Text.data 0)

/-- `FString::InsertAt(Index, Characters)`. -/
def InsertAt (Text : String) (Index : Nat) (Characters : String) : String :=
  String.mk (Text.data.take Index ++ Characters.data ++ Text.data.drop Index)

/-- Arguments of `CreatePin` that the callers in this file set, `FCreatePinParams`. -/
structure FCreatePinParams where
  ContainerType : EPinContainerType := EPinContainerType.None
  bIsReference : Bool := false
  deriving DecidableEq, Repr

/-- `UEdGraphNode::CreatePin(Dir, PinCategory, PinSubCategory, PinSubCategoryObject, PinName,
PinParams)`: allocate a pin object, fill in name, direction and type, and add its address at
the end of the node's `Pins`.  Returns the store, the node and the new address. -/
def CreatePin (σ : PinStore) (n : UK2Node) (Dir : EEdGraphPinDirection)
    (PinCategory PinSubCategory : String) (PinSubCategoryObject : Option UObjectRef)
    (PinName : String) (PinParams : FCreatePinParams) : PinStore × UK2Node × Nat :=
  let NewPin : UEdGraphPin :=
    { PinName := PinName
      PinFriendlyName := ""
      Direction := Dir
      PinType :=
        { PinCategory := PinCategory
          PinSubCategory := PinSubCategory
          PinSubCategoryObject := PinSubCategoryObject
          ContainerType := PinParams.ContainerType
          bIsReference := PinParams.bIsReference }
      ParentPin := none
      SubPins := []
      LinkedTo := []
      DefaultValue := ""
      AutogeneratedDefaultValue := ""
      bWasTrashed := false }
  ({ pin := (setPin σ σ.nextPin NewPin).pin, nextPin := σ.nextPin + 1 },
   { n with Pins := n.Pins ++ [σ.nextPin] },
   σ.nextPin)

/-- `UEdGraphSchema_K2::SetPinAutogeneratedDefaultValueBasedOnType` for a pin of a struct type
without a special default (as the message token): the autogenerated default is the empty
string and the pin is reset to it. -/
def SetPinAutogeneratedDefaultValueBasedOnType (σ : PinStore) (Pin : Nat) : PinStore :=
  let Old := σ.pin Pin
  setPin σ Pin { Old with AutogeneratedDefaultValue := "", DefaultValue := "" }

/-- One pin that `UK2Node_CallFunction::AllocateDefaultPins` creates for a function. -/
structure PinDecl where
  Direction : EEdGraphPinDirection
  PinCategory : String
  PinSubCategory : String
  PinSubCategoryObject : Option UObjectRef
  PinName : String
  PinParams : FCreatePinParams
  deriving DecidableEq, Repr

/-- The pins a function call node gets for each function.  The signatures live in
`BlueprintMessage.h` and the engine's reflection data, so the table is a parameter. -/
abbrev FunctionPins := FMemberReference → List PinDecl

/-- Create the pins of a declaration list, in order. -/
def createDeclaredPins : List PinDecl → PinStore → UK2Node → PinStore × UK2Node
  | [], σ, n => (σ, n)
  | d :: ds, σ, n =>
    let r := CreatePin σ n d.Direction d.PinCategory d.PinSubCategory d.PinSubCategoryObject
      d.PinName d.PinParams
    createDeclaredPins ds r.1 r.2.1

/-- `UK2Node_CallFunction::AllocateDefaultPins` (`Super::AllocateDefaultPins`): the pins of
the referenced function are created in declaration order. -/
def CallFunction_AllocateDefaultPins (F : FunctionPins) (σ : PinStore) (n : UK2Node) :
    PinStore × UK2Node :=
  createDeclaredPins (F n.FunctionReference) σ n

/-- `UEdGraphPin::MarkAsGarbage`: the pin object is flagged as trashed.  (The engine's further
clean-up of the dead object is not part of the model.) -/
def MarkAsGarbage (σ : PinStore) (p : Nat) : PinStore :=
  let Old := σ.pin p
  setPin σ p { Old with bWasTrashed := true }

/-! ### Links, lookup by name and the compiler context -/

/-- `UEdGraphNode::FindPin(PinName)`: the first pin of the node with that name; `none` is the
null pointer.  For `FindPinChecked` a null result is a failed `check`. -/
def FindPin (pin : Nat → UEdGraphPin) (n : UK2Node) (PinName : String) : Option Nat :=
  n.Pins.find? (fun p => (pin p).PinName == PinName)

/-- `UEdGraphPin::MakeLinkTo(ToPin)`, called on pin `A`: nothing happens for a null `ToPin`;
otherwise, unless `A` already links to `ToPin`, each pin is added to the other's
`LinkedTo`. -/
def MakeLinkTo (σ : PinStore) (A : Nat) : Option Nat → PinStore
  | none => σ
  | some B =>
    if (σ.pin A).LinkedTo.contains B then σ
    else
      let OldA := σ.pin A
      let σ1 := setPin σ A { OldA with LinkedTo := OldA.LinkedTo ++ [B] }
      let OldB := σ1.pin B
      setPin σ1 B { OldB with LinkedTo := OldB.LinkedTo ++ [A] }

/-- `UEdGraphPin::BreakLinkTo(ToPin)`, called on pin `A` with `ToPin = B`: if `A` links to
`B`, each pin is removed from the other's `LinkedTo`. -/
def BreakLinkTo (σ : PinStore) (A B : Nat) : PinStore :=
  if (σ.pin A).LinkedTo.contains B then
    let OldA := σ.pin A
    let σ1 := setPin σ A { OldA with LinkedTo := OldA.LinkedTo.filter (fun x => x != B) }
    let OldB := σ1.pin B
    setPin σ1 B { OldB with LinkedTo := OldB.LinkedTo.filter (fun x => x != A) }
  else σ

/-- `UEdGraphPin::BreakAllPinLinks()`: `BreakLinkTo` for every entry of a copy of
`LinkedTo`. -/
def BreakAllPinLinks (σ : PinStore) (A : Nat) : PinStore :=
  (σ.pin A).LinkedTo.foldl (fun h ToPin => BreakLinkTo h A ToPin) σ

/-- `UEdGraphNode::BreakAllNodeLinks()`: `BreakAllPinLinks` for every pin of the node. -/
def BreakAllNodeLinks (σ : PinStore) (n : UK2Node) : PinStore :=
  n.Pins.foldl (fun h Pin => BreakAllPinLinks h Pin) σ

/-- Body of the loop "Try and make each new connection" of `MovePinLinks`: the link to
`NewLink` is made from `MoveToPin` when the schema allows it; otherwise the response, kept in
the second component, turns to a refusal. -/
def makeNewLink (CanCreateConnection : UEdGraphPin → UEdGraphPin → Bool) (MoveToPin : Nat)
    (acc : PinStore × Bool) (NewLink : Nat) : PinStore × Bool :=
  if CanCreateConnection (acc.1.pin MoveToPin) (acc.1.pin NewLink) then
    (MakeLinkTo acc.1 MoveToPin (some NewLink), acc.2)
  else (acc.1, false)

/-- `UEdGraphSchema::MovePinLinks(MoveFromPin, MoveToPin)` for a pin that is not split: the
links of the source are copied, the source is unlinked, and each former link is made again
from the target when the schema allows the connection (`CanCreateConnection`, here the
answer of `CanSafeConnect()` for the two pin objects); then the default value is copied.
The flag returned says whether every connection was allowed. -/
def MovePinLinks (CanCreateConnection : UEdGraphPin → UEdGraphPin → Bool)
    (σ : PinStore) (MoveFromPin MoveToPin : Nat) : PinStore × Bool :=
  let CurrentLinks := (σ.pin MoveFromPin).LinkedTo
  let σ1 := BreakAllPinLinks σ MoveFromPin
  let r := CurrentLinks.foldl (makeNewLink CanCreateConnection MoveToPin) (σ1, true)
  let OldTo := r.1.pin MoveToPin
  (setPin r.1 MoveToPin { OldTo with DefaultValue := (r.1.pin MoveFromPin).DefaultValue }, r.2)

/-- `UK2Node_CallFunction::GetReturnValuePin()`: `FindPin(PN_ReturnValue)`, which may be
null (inner `none`), with `check(Pin == nullptr || Pin->Direction == EGPD_Output)` (outer
`none` when it fails). -/
def GetReturnValuePin (pin : Nat → UEdGraphPin) (n : UK2Node) : Option (Option Nat) :=
  match FindPin pin n PN_ReturnValue with
  | none => some none
  | some Pin =>
    if (pin Pin).Direction = EEdGraphPinDirection.EGPD_Output then some (some Pin) else none

/-- `UK2Node_CallFunction::GetThenPin()`: `FindPin(PN_Then)` with the same `check`. -/
def GetThenPin (pin : Nat → UEdGraphPin) (n : UK2Node) : Option (Option Nat) :=
  match FindPin pin n PN_Then with
  | none => some none
  | some Pin =>
    if (pin Pin).Direction = EEdGraphPinDirection.EGPD_Output then some (some Pin) else none

/-- What the engine contributes to `ExpandNode` and is not fixed by this file: the pin
tables of the called functions, the schema's answer to `CanCreateConnection`, and the
expansion of a plain function call node (`UK2Node_CallFunction::ExpandNode`). -/
structure Engine where
  FunctionPins : FunctionPins
  CanCreateConnection : UEdGraphPin → UEdGraphPin → Bool
  CallFunction_ExpandNode : State → State

/-- The part of the state that the expansion works on: pins and the message log. -/
structure Expansion where
  store : PinStore
  errors : Nat

/-- `FKismetCompilerContext::MovePinLinksToIntermediate(SourcePin, IntermediatePin)`: the
schema moves the links; a refused connection is reported to the message log. -/
def CompilerContext_MovePinLinksToIntermediate (E : Engine) (x : Expansion)
    (SourcePin IntermediatePin : Nat) : Expansion × Bool :=
  let r := MovePinLinks E.CanCreateConnection x.store SourcePin IntermediatePin
  ({ store := r.1
     errors := if r.2 then x.errors else x.errors + 1 }, r.2)

/-- `CompilerContext.SpawnIntermediateNode<T>(this, SourceGraph)`: a node of class `T` as its
constructor leaves it.  `UK2Node_MakeArray` starts with `NumInputs = 1`. -/
def SpawnIntermediateNode (T : NodeClass) : UK2Node :=
  { Class := T
    FunctionReference := { MemberName := NAME_None, MemberParent := "" }
    NumInputs := if T = NodeClass.K2Node_MakeArray then 1 else 0
    Pins := [] }

/-- Name of the output pin of a make-array node, `UK2Node_MakeArray::GetOutputPinName`. -/
def MakeArrayOutputPinName : String := "Array"

/-- The loop of `UK2Node_MakeContainer::AllocateDefaultPins` that creates the wildcard input
pins `GetPinName(i)`, named `"[i]"`. -/
def makeArrayLoop : Nat → Int → PinStore → UK2Node → PinStore × UK2Node
  | 0, _, σ, n => (σ, n)
  | remaining + 1, i, σ, n =>
    let r := CreatePin σ n EEdGraphPinDirection.EGPD_Input PC_Wildcard NAME_None none
      ("[" ++ toString i ++ "]") {}
    makeArrayLoop remaining (i + 1) r.1 r.2.1

/-- `UK2Node_MakeArray::AllocateDefaultPins`: the output pin, an array of wildcards, then
`NumInputs` input pins. -/
def MakeArray_AllocateDefaultPins (σ : PinStore) (n : UK2Node) : PinStore × UK2Node :=
  let r := CreatePin σ n EEdGraphPinDirection.EGPD_Output PC_Wildcard NAME_None none
    MakeArrayOutputPinName { ContainerType := EPinContainerType.Array }
  makeArrayLoop n.NumInputs.toNat 0 r.1 r.2.1

/-- `UK2Node_MakeArray::PinConnectionListChanged(Pin)`: when `Pin` is linked to a pin that is
not a wildcard, the element type of that pin becomes the type of every pin of the node.
Names and links stay as they are. -/
def MakeArray_PinConnectionListChanged (σ : PinStore) (n : UK2Node) (Pin : Nat) : PinStore :=
  match (σ.pin Pin).LinkedTo with
  | [] => σ
  | First :: _ =>
    let LinkedType := (σ.pin First).PinType
    if LinkedType.PinCategory = PC_Wildcard then σ
    else
      n.Pins.foldl
        (fun h p =>
          let Old := h.pin p
          let OldType := Old.PinType
          setPin h p
            { Old with
              PinType :=
                { OldType with
                  PinCategory := LinkedType.PinCategory
                  PinSubCategory := LinkedType.PinSubCategory
                  PinSubCategoryObject := LinkedType.PinSubCategoryObject } })
        σ

/-! ## K2Node_CreateBlueprintMessage.cpp -/

def REFERENCE_INPUT : Bool := false

/-- Constructor `UK2Node_CreateBlueprintMessage::UK2Node_CreateBlueprintMessage()`. -/
def UK2Node_CreateBlueprintMessage : UK2Node :=
  { Class := NodeClass.K2Node_CreateBlueprintMessage
    FunctionReference :=
      { MemberName := "CreateBlueprintMessage", MemberParent := "BlueprintMessage" }
    NumInputs := 1
    Pins := [] }

/-- `GetPinName(PinIndex)`: `FString::Printf(TEXT("[%d]"), PinIndex)`. -/
def GetPinName (PinIndex : Int) : String :=
  "[" ++ toString PinIndex ++ "]"

/-- `IsDynamicInputPin(Pin)`; `none` is the null pointer, `some p` the pointed-to object. -/
def IsDynamicInputPin : Option UEdGraphPin → Bool
  | none => false
  | some Pin =>
    Pin.Direction == EEdGraphPinDirection.EGPD_Input
      && Pin.ParentPin == none
      && Pin.PinType.PinCategory == PC_Struct
      && Pin.PinType.PinSubCategoryObject == some UObjectRef.FBlueprintMessageToken_StaticStruct

/-- The pin creation of the token slot number `Index`, shared by `AllocateDefaultPins` and
`AddInputPin`:
`CreatePin(EGPD_Input, PC_Struct, NAME_None, FBlueprintMessageToken::StaticStruct(),
GetPinName(Index), PinParams)` with `PinParams.bIsReference = REFERENCE_INPUT`. -/
def createTokenPin (σ : PinStore) (n : UK2Node) (Index : Int) : PinStore × UK2Node × Nat :=
  let PinParams : FCreatePinParams := { bIsReference := REFERENCE_INPUT }
  CreatePin σ n EEdGraphPinDirection.EGPD_Input PC_Struct NAME_None
    (some UObjectRef.FBlueprintMessageToken_StaticStruct) (GetPinName Index) PinParams

/-- The loop `for (int32 Index = 0; Index < NumInputs; ++Index)` of `AllocateDefaultPins`,
entered at `Index` with `remaining` iterations to go. -/
def allocateLoop : Nat → Int → PinStore → UK2Node → PinStore × UK2Node
  | 0, _, σ, n => (σ, n)
  | remaining + 1, Index, σ, n =>
    let r := createTokenPin σ n Index
    allocateLoop remaining (Index + 1) r.1 r.2.1

/-- `UK2Node_CreateBlueprintMessage::AllocateDefaultPins`. -/
def AllocateDefaultPins (F : FunctionPins) (s : State) : State :=
  let r := CallFunction_AllocateDefaultPins F s.store s.node
  let r2 := allocateLoop r.2.NumInputs.toNat 0 r.1 r.2
  { s with store := r2.1, node := r2.2 }

/-- Body of the inner loop of `SyncPinNames` for one sub-pin. -/
def renameSubPin (OldNameStr ElementNameStr OldFriendlyName ElementFriendlyName : String)
    (σ : PinStore) (SubPin : Nat) : PinStore :=
  let SubPinFriendlyName :=
    Replace (σ.pin SubPin).PinFriendlyName OldFriendlyName ElementFriendlyName
  let Old := σ.pin SubPin
  setPin σ SubPin
    { Old with
      PinName := Replace Old.PinName OldNameStr ElementNameStr
      PinFriendlyName := SubPinFriendlyName }

/-- The loop of `SyncPinNames` over the rest of `Pins`, with `CurrentNumParentPins` as the
running counter. -/
def syncLoop : List Nat → Nat → PinStore → PinStore
  | [], _, σ => σ
  | CurrentPin :: rest, CurrentNumParentPins, σ =>
    if IsDynamicInputPin (some (σ.pin CurrentPin)) then
      let OldName := (σ.pin CurrentPin).PinName
      let ElementName := GetPinName CurrentNumParentPins
      let Old := σ.pin CurrentPin
      let σ1 := setPin σ CurrentPin { Old with PinName := ElementName }
      let σ2 :=
        if (σ1.pin CurrentPin).SubPins.length > 0 then
          let OldFriendlyName := InsertAt OldName 1 " "
          let ElementFriendlyName := InsertAt ElementName 1 " "
          (σ1.pin CurrentPin).SubPins.foldl
            (renameSubPin OldName ElementName OldFriendlyName ElementFriendlyName) σ1
        else σ1
      syncLoop rest (CurrentNumParentPins + 1) σ2
    else syncLoop rest CurrentNumParentPins σ

/-- `UK2Node_CreateBlueprintMessage::SyncPinNames`. -/
def SyncPinNames (s : State) : State :=
  { s with store := syncLoop s.node.Pins 0 s.store }

/-- `UK2Node_CreateBlueprintMessage::AddInputPin`. -/
def AddInputPin (s : State) : State :=
  let n1 := { s.node with NumInputs := wrapInt32 (s.node.NumInputs + 1) }
  let r := createTokenPin s.store n1 (n1.NumInputs - 1)
  let σ := SetPinAutogeneratedDefaultValueBasedOnType r.1 r.2.2
  let bIsCompiling := s.bBeingCompiled
  { s with
    store := σ
    node := r.2.1
    structurallyModified :=
      if !bIsCompiling then s.structurallyModified + 1 else s.structurallyModified }

/-- `InteractiveAddInputPin`: `AddInputPin` inside an undo transaction. -/
def InteractiveAddInputPin (s : State) : State := AddInputPin s

/-- `TArray::Find`: index of the first occurrence. -/
def Find : List Nat → Nat → Option Nat
  | [], _ => none
  | q :: qs, p => if q = p then some 0 else (Find qs p).map (· + 1)

/-- The loop `for (SubPinIndex = SubPins.Num()-1; SubPinIndex >= 0; --SubPinIndex)` of
`RemovePinLambda` over the sub-pins in visiting order (last to first), with the recursive
call as `body`. -/
def removeSubPins (body : Nat → PinStore × List Nat → Option (PinStore × List Nat)) :
    List Nat → PinStore × List Nat → Option (PinStore × List Nat)
  | [], st => some st
  | q :: qs, st =>
    match body q st with
    | none => none
    | some st1 => removeSubPins body qs st1

/-- The recursive `RemovePinLambda(PinToRemove)` of `RemoveInputPin`, acting on the pin
contents and on `Pins`.  `fuel` bounds the recursion depth; `none` means it ran out. -/
def RemovePinLambda : Nat → Nat → PinStore × List Nat → Option (PinStore × List Nat)
  | 0, _, _ => none
  | fuel + 1, PinToRemove, st =>
    match removeSubPins (RemovePinLambda fuel) (st.1.pin PinToRemove).SubPins.reverse st with
    | none => none
    | some st1 =>
      match Find st1.2 PinToRemove with
      | some PinRemovalIndex =>
        some (MarkAsGarbage st1.1 PinToRemove, st1.2.eraseIdx PinRemovalIndex)
      | none => some st1

/-- `UK2Node_CreateBlueprintMessage::RemoveInputPin(Pin)`.  The two `check`s fail with
`none`; `checkSlow(Pins.Contains(Pin))` is compiled out of editor builds and is not
enforced.  `PinConnectionListChanged(Pin)` of the base class does not touch the modelled
state. -/
def RemoveInputPin (fuel : Nat) (s : State) (Pin : Nat) : Option State :=
  if (s.store.pin Pin).Direction ≠ EEdGraphPinDirection.EGPD_Input then none
  else if (s.store.pin Pin).ParentPin ≠ none then none
  else
    match RemovePinLambda fuel Pin (s.store, s.node.Pins) with
    | none => none
    | some st1 =>
      let s1 : State :=
        { s with
          store := st1.1
          node := { s.node with Pins := st1.2, NumInputs := wrapInt32 (s.node.NumInputs - 1) } }
      let s2 := SyncPinNames s1
      some { s2 with structurallyModified := s2.structurallyModified + 1 }

/-- The local lambda `MovePinLinksToIntermediate(From, PinName, To, ToPinName)` of
`ExpandNode`: both pins are looked up with `FindPinChecked`, the links are moved, and
`check(bSuccess)` must hold. -/
def MovePinLinksToIntermediate (E : Engine) (x : Expansion) (From : UK2Node)
    (PinName : String) (To : UK2Node) (ToPinName : String) : Option Expansion :=
  match FindPin x.store.pin From PinName with
  | none => none
  | some SourcePin =>
    match FindPin x.store.pin To ToPinName with
    | none => none
    | some DestPin =>
      let r := CompilerContext_MovePinLinksToIntermediate E x SourcePin DestPin
      let bSuccess := r.2
      if bSuccess then some r.1 else none

/-- The loop "Transfer dynamic pins to Make Array" of `ExpandNode` over the rest of
`DynamicPins`, entered at `Index` with the current `bIsErrorFree`. -/
def transferDynamicPins (E : Engine) (MakeArrayNode : UK2Node) :
    List Nat → Nat → Expansion × Bool → Option (Expansion × Bool)
  | [], _, acc => some acc
  | DynamicPin :: rest, Index, acc =>
    match FindPin acc.1.store.pin MakeArrayNode ("[" ++ toString (Index : Int) ++ "]") with
    | none => none
    | some ArrayIn =>
      let r := CompilerContext_MovePinLinksToIntermediate E acc.1 DynamicPin ArrayIn
      transferDynamicPins E MakeArrayNode rest (Index + 1) (r.1, acc.2 && r.2)

/-- The block `// Create a "Create Message" node` of `ExpandNode`: the node is spawned with the
function reference of `this`, its pins are allocated, and the links of the execute,
LogCategory and Severity pins of `this` are moved over. -/
def expandCreateNode (E : Engine) (This : UK2Node) (x0 : Expansion) :
    Option (Expansion × UK2Node) :=
  let CreateNode0 := SpawnIntermediateNode NodeClass.K2Node_CallFunction
  let CreateNode1 := { CreateNode0 with FunctionReference := This.FunctionReference }
  let a := CallFunction_AllocateDefaultPins E.FunctionPins x0.store CreateNode1
  let CreateNode := a.2
  let x1 : Expansion := { x0 with store := a.1 }
  match MovePinLinksToIntermediate E x1 This PN_Execute CreateNode PN_Execute with
  | none => none
  | some x2 =>
    match MovePinLinksToIntermediate E x2 This "LogCategory" CreateNode "LogCategory" with
    | none => none
    | some x3 =>
      match MovePinLinksToIntermediate E x3 This "Severity" CreateNode "Severity" with
      | none => none
      | some x4 => some (x4, CreateNode)

/-- The function reference `ExpandNode` gives to the add-tokens node:
`SetExternalMember(GET_FUNCTION_NAME_CHECKED(UBlueprintMessage, AddTokens),
UBlueprintMessage::StaticClass())`. -/
def AddTokensReference : FMemberReference :=
  { MemberName := "AddTokens", MemberParent := "BlueprintMessage" }

/-- The block `// Create a "Add Tokens" node` of `ExpandNode`: the node is spawned for
`AddTokens`, its pins are allocated, its target is linked to the result of the create node
and its execute pin to the then pin of the create node. -/
def expandAddTokensNode (E : Engine) (CreateNode : UK2Node) (σ : PinStore) :
    Option (PinStore × UK2Node) :=
  let AddTokensNode0 := SpawnIntermediateNode NodeClass.K2Node_CallFunction
  let AddTokensNode1 := { AddTokensNode0 with FunctionReference := AddTokensReference }
  let b := CallFunction_AllocateDefaultPins E.FunctionPins σ AddTokensNode1
  let AddTokensNode := b.2
  -- Connect Target to result of Create Message
  match FindPin b.1.pin AddTokensNode PN_Self with
  | none => none
  | some SelfPin =>
    match GetReturnValuePin b.1.pin CreateNode with
    | none => none
    | some ReturnValuePin =>
      let σ5 := MakeLinkTo b.1 SelfPin ReturnValuePin
      -- Connect Execute to Then of Create Message
      match GetThenPin σ5.pin CreateNode with
      | none => none
      | some none => none
      | some (some ThenPin) =>
        match FindPin σ5.pin AddTokensNode PN_Execute with
        | none => none
        | some ExecutePin =>
          some (MakeLinkTo σ5 ThenPin (some ExecutePin), AddTokensNode)

/-- The block `// Create a "Make Array" node` of `ExpandNode`: the node is spawned, gets
`NumInputs = DynamicPins.Num()` and its pins, and its output is linked to the `Tokens` pin of
the add-tokens node, which sets the type of the array. -/
def expandMakeArrayNode (AddTokensNode : UK2Node) (NumDynamicPins : Nat) (σ : PinStore) :
    Option (PinStore × UK2Node) :=
  let MakeArrayNode0 := SpawnIntermediateNode NodeClass.K2Node_MakeArray
  let MakeArrayNode1 := { MakeArrayNode0 with NumInputs := (NumDynamicPins : Int) }
  let c := MakeArray_AllocateDefaultPins σ MakeArrayNode1
  let MakeArrayNode := c.2
  -- Connect the output of the "Make Array" pin to "Tokens"
  match FindPin c.1.pin MakeArrayNode MakeArrayOutputPinName with
  | none => none
  | some ArrayOut =>
    match FindPin c.1.pin AddTokensNode "Tokens" with
    | none => none
    | some TokensPin =>
      let σ7 := MakeLinkTo c.1 ArrayOut (some TokensPin)
      let σ8 := MakeArray_PinConnectionListChanged σ7 MakeArrayNode ArrayOut
      some (σ8, MakeArrayNode)

/-- The rest of `ExpandNode` once the three nodes exist: the dynamic pins are transferred to
the array, the then and ReturnValue links are moved, an error is logged unless
`bIsErrorFree`, and the node is orphaned. -/
def expandFinish (E : Engine) (s : State) (DynamicPins : List Nat)
    (CreateNode AddTokensNode MakeArrayNode : UK2Node) (x8 : Expansion) (bIsErrorFree : Bool) :
    Option State :=
  -- Transfer dynamic pins to "Make Array"
  match transferDynamicPins E MakeArrayNode DynamicPins 0 (x8, bIsErrorFree) with
  | none => none
  | some y =>
    -- Connect Then
    match MovePinLinksToIntermediate E y.1 s.node PN_Then AddTokensNode PN_Then with
    | none => none
    | some x9 =>
      -- Connect Return Value
      match MovePinLinksToIntermediate E x9 s.node PN_ReturnValue CreateNode PN_ReturnValue with
      | none => none
      | some x10 =>
        some
          { s with
            store := BreakAllNodeLinks x10.store s.node
            errors := if !y.2 then x10.errors + 1 else x10.errors
            intermediate := s.intermediate ++ [CreateNode, AddTokensNode, MakeArrayNode] }

/-- `UK2Node_CreateBlueprintMessage::ExpandNode`.  `none` is a failed `check` or
`FindPinChecked`, or a call through a null pin pointer. -/
def ExpandNode (E : Engine) (s : State) : Option State :=
  let DynamicPins := s.node.Pins.filter (fun Pin => IsDynamicInputPin (some (s.store.pin Pin)))
  if DynamicPins.length = 0 then
    -- there are no dynamic pins present. just do regular function call
    some (E.CallFunction_ExpandNode s)
  else
    let bIsErrorFree := true
    match expandCreateNode E s.node { store := s.store, errors := s.errors } with
    | none => none
    | some (x4, CreateNode) =>
      match expandAddTokensNode E CreateNode x4.store with
      | none => none
      | some (σ6, AddTokensNode) =>
        match expandMakeArrayNode AddTokensNode DynamicPins.length σ6 with
        | none => none
        | some (σ8, MakeArrayNode) =>
          expandFinish E s DynamicPins CreateNode AddTokensNode MakeArrayNode
            { store := σ8, errors := x4.errors } bIsErrorFree

/-! ## The connections ExpandNode asks the schema for -/

/-- The pairs of pin objects that the loop "Try and make each new connection" of
`MovePinLinks` hands to `CanCreateConnection`, in the order of the calls: the target pin and
the former link, each as it is at the moment of the call. -/
def askedLoop (CanCreateConnection : UEdGraphPin → UEdGraphPin → Bool) (MoveToPin : Nat) :
    List Nat → PinStore × Bool → List (UEdGraphPin × UEdGraphPin)
  | [], _ => []
  | NewLink :: rest, acc =>
    (acc.1.pin MoveToPin, acc.1.pin NewLink)
      :: askedLoop CanCreateConnection MoveToPin rest
          (makeNewLink CanCreateConnection MoveToPin acc NewLink)

/-- The connections one call of `MovePinLinks` asks the schema for. -/
def MovePinLinks_asked (CanCreateConnection : UEdGraphPin → UEdGraphPin → Bool)
    (σ : PinStore) (MoveFromPin MoveToPin : Nat) : List (UEdGraphPin × UEdGraphPin) :=
  askedLoop CanCreateConnection MoveToPin (σ.pin MoveFromPin).LinkedTo
    (BreakAllPinLinks σ MoveFromPin, true)

/-- The connections one call of the local lambda `MovePinLinksToIntermediate` asks the schema
for. -/
def MovePinLinksToIntermediate_asked (E : Engine) (x : Expansion) (From : UK2Node)
    (PinName : String) (To : UK2Node) (ToPinName : String) :
    List (UEdGraphPin × UEdGraphPin) :=
  match FindPin x.store.pin From PinName with
  | none => []
  | some SourcePin =>
    match FindPin x.store.pin To ToPinName with
    | none => []
    | some DestPin => MovePinLinks_asked E.CanCreateConnection x.store SourcePin DestPin

/-- The connections the loop "Transfer dynamic pins to Make Array" asks the schema for. -/
def transferDynamicPins_asked (E : Engine) (MakeArrayNode : UK2Node) :
    List Nat → Nat → Expansion × Bool → List (UEdGraphPin × UEdGraphPin)
  | [], _, _ => []
  | DynamicPin :: rest, Index, acc =>
    match FindPin acc.1.store.pin MakeArrayNode ("[" ++ toString (Index : Int) ++ "]") with
    | none => []
    | some ArrayIn =>
      let r := CompilerContext_MovePinLinksToIntermediate E acc.1 DynamicPin ArrayIn
      MovePinLinks_asked E.CanCreateConnection acc.1.store DynamicPin ArrayIn
        ++ transferDynamicPins_asked E MakeArrayNode rest (Index + 1) (r.1, acc.2 && r.2)

/-- The connections the block `// Create a "Create Message" node` asks the schema for: those
of its three calls of `MovePinLinksToIntermediate`, as far as the block gets. -/
def expandCreateNode_asked (E : Engine) (This : UK2Node) (x0 : Expansion) :
    List (UEdGraphPin × UEdGraphPin) :=
  let CreateNode0 := SpawnIntermediateNode NodeClass.K2Node_CallFunction
  let CreateNode1 := { CreateNode0 with FunctionReference := This.FunctionReference }
  let a := CallFunction_AllocateDefaultPins E.FunctionPins x0.store CreateNode1
  let CreateNode := a.2
  let x1 : Expansion := { x0 with store := a.1 }
  MovePinLinksToIntermediate_asked E x1 This PN_Execute CreateNode PN_Execute ++
    match MovePinLinksToIntermediate E x1 This PN_Execute CreateNode PN_Execute with
    | none => []
    | some x2 =>
      MovePinLinksToIntermediate_asked E x2 This "LogCategory" CreateNode "LogCategory" ++
        match MovePinLinksToIntermediate E x2 This "LogCategory" CreateNode "LogCategory" with
        | none => []
        | some x3 =>
          MovePinLinksToIntermediate_asked E x3 This "Severity" CreateNode "Severity"

/-- The connections the rest of `ExpandNode` asks the schema for behind the transfer loop:
those of the moves of the then and ReturnValue links. -/
def expandFinish_askedOwn (E : Engine) (s : State) (DynamicPins : List Nat)
    (CreateNode AddTokensNode MakeArrayNode : UK2Node) (x8 : Expansion) (bIsErrorFree : Bool) :
    List (UEdGraphPin × UEdGraphPin) :=
  match transferDynamicPins E MakeArrayNode DynamicPins 0 (x8, bIsErrorFree) with
  | none => []
  | some y =>
    MovePinLinksToIntermediate_asked E y.1 s.node PN_Then AddTokensNode PN_Then ++
      match MovePinLinksToIntermediate E y.1 s.node PN_Then AddTokensNode PN_Then with
      | none => []
      | some x9 =>
        MovePinLinksToIntermediate_asked E x9 s.node PN_ReturnValue CreateNode
          PN_ReturnValue

/-- The three nodes `ExpandNode` spawns on the state `s` and the state of the expansion once
they exist, or `none` when it does not get that far. -/
def expandNodes (E : Engine) (s : State) :
    Option (UK2Node × UK2Node × UK2Node × Expansion) :=
  let DynamicPins := s.node.Pins.filter (fun Pin => IsDynamicInputPin (some (s.store.pin Pin)))
  match expandCreateNode E s.node { store := s.store, errors := s.errors } with
  | none => none
  | some (x4, CreateNode) =>
    match expandAddTokensNode E CreateNode x4.store with
    | none => none
    | some (σ6, AddTokensNode) =>
      match expandMakeArrayNode AddTokensNode DynamicPins.length σ6 with
      | none => none
      | some (σ8, MakeArrayNode) =>
        some (CreateNode, AddTokensNode, MakeArrayNode, { store := σ8, errors := x4.errors })

/-- Every pair of pin objects that `ExpandNode` hands to the schema's `CanCreateConnection`
on the state `s` for a link of the node's execute, LogCategory, Severity, then or ReturnValue
pin, in the order of the calls, each pin as it is at the moment of the call.  These are the
connections behind `check(bSuccess)`. -/
def ownConnectionsAsked (E : Engine) (s : State) : List (UEdGraphPin × UEdGraphPin) :=
  let DynamicPins := s.node.Pins.filter (fun Pin => IsDynamicInputPin (some (s.store.pin Pin)))
  if DynamicPins.length = 0 then []
  else
    expandCreateNode_asked E s.node { store := s.store, errors := s.errors } ++
      match expandNodes E s with
      | none => []
      | some (CreateNode, AddTokensNode, MakeArrayNode, x8) =>
        expandFinish_askedOwn E s DynamicPins CreateNode AddTokensNode MakeArrayNode x8 true

/-- Every pair of pin objects that `ExpandNode` hands to the schema's `CanCreateConnection`
on the state `s` for a link of a dynamic input pin, inside the loop "Transfer dynamic pins to
Make Array", in the order of the calls, each pin as it is at the moment of the call. -/
def slotConnectionsAsked (E : Engine) (s : State) : List (UEdGraphPin × UEdGraphPin) :=
  let DynamicPins := s.node.Pins.filter (fun Pin => IsDynamicInputPin (some (s.store.pin Pin)))
  if DynamicPins.length = 0 then []
  else
    match expandNodes E s with
    | none => []
    | some (_, _, MakeArrayNode, x8) =>
      transferDynamicPins_asked E MakeArrayNode DynamicPins 0 (x8, true)

/-- The engine `E` with a schema that allows every connection. -/
def permissive (E : Engine) : Engine :=
  { FunctionPins := E.FunctionPins
    CanCreateConnection := fun _ _ => true
    CallFunction_ExpandNode := E.CallFunction_ExpandNode }

/-! ## Specification vocabulary -/

/-- The record of a freshly created token pin. -/
def tokenPin (Index : Int) : UEdGraphPin :=
  { PinName := GetPinName Index
    PinFriendlyName := ""
    Direction := EEdGraphPinDirection.EGPD_Input
    PinType :=
      { PinCategory := PC_Struct
        PinSubCategory := NAME_None
        PinSubCategoryObject := some UObjectRef.FBlueprintMessageToken_StaticStruct
        ContainerType := EPinContainerType.None
        bIsReference := false }
    ParentPin := none
    SubPins := []
    LinkedTo := []
    DefaultValue := ""
    AutogeneratedDefaultValue := ""
    bWasTrashed := false }

/-- Is the pin at address `p` a dynamic input pin? -/
def isDynamic (pin : Nat → UEdGraphPin) (p : Nat) : Bool :=
  IsDynamicInputPin (some (pin p))

/-- The pins of the node that satisfy `IsDynamicInputPin`, in `Pins` order. -/
def dynamicPins (s : State) : List Nat :=
  s.node.Pins.filter (isDynamic s.store.pin)

/-- The outcome of the inner loop body of `SyncPinNames` on one sub-pin record, when the
parent is renamed from `Old` to `New`. -/
def renamedSubPin (Old New : String) (v : UEdGraphPin) : UEdGraphPin :=
  { v with
    PinName := Replace v.PinName Old New
    PinFriendlyName := Replace v.PinFriendlyName (InsertAt Old 1 " ") (InsertAt New 1 " ") }

/-- A pin record with the two name fields blanked: what `SyncPinNames` never changes. -/
def withoutNames (v : UEdGraphPin) : UEdGraphPin :=
  { v with PinName := "", PinFriendlyName := "" }

/-- Object-graph conditions the editor maintains for the pins of a node: no address occurs
twice in `Pins`; every entry of a pin's `SubPins` points back to it through `ParentPin`; and
no address occurs twice in a `SubPins` array. -/
def WellFormed (s : State) : Prop :=
  s.node.Pins.Nodup
  ∧ (∀ p ∈ s.node.Pins, ∀ q ∈ (s.store.pin p).SubPins, (s.store.pin q).ParentPin = some p)
  ∧ (∀ p ∈ s.node.Pins, (s.store.pin p).SubPins.Nodup)

/-- An occurrence of `Old` begins at the front of `text`: `Old` is not empty and `text`
starts with a stretch that equals `Old` up to the case of ASCII letters, which is how the
engine compares the characters of names. -/
def OccursAt (Old text : List Char) : Prop :=
  Old ≠ [] ∧ ∃ m rest : List Char, text = m ++ rest ∧ m.map ToUpper = Old.map ToUpper

/-- In the words of the claim on sub-pin names: `out` is `text` with each occurrence of `Old`,
met from left to right, replaced by `New`, and every character outside an occurrence
kept. -/
inductive EachOccurrenceReplaced (Old New : List Char) : List Char → List Char → Prop
  | done : EachOccurrenceReplaced Old New [] []
  | occurrence (m rest out : List Char) : Old ≠ [] → m.map ToUpper = Old.map ToUpper →
      EachOccurrenceReplaced Old New rest out →
      EachOccurrenceReplaced Old New (m ++ rest) (New ++ out)
  | other (c : Char) (rest out : List Char) : ¬ OccursAt Old (c :: rest) →
      EachOccurrenceReplaced Old New rest out →
      EachOccurrenceReplaced Old New (c :: rest) (c :: out)

/-- A character whose code is not an ASCII letter. -/
def caseless (c : Char) : Prop :=
  ¬ (65 ≤ c.toNat ∧ c.toNat ≤ 90) ∧ ¬ (97 ≤ c.toNat ∧ c.toNat ≤ 122)

/-- One iteration of the outer loop of `SyncPinNames` on a dynamic pin `d` that becomes the
slot number `k`: `d` is renamed and its sub-pins follow. -/
def syncStep (σ : PinStore) (d k : Nat) : PinStore :=
  let Old := σ.pin d
  (σ.pin d).SubPins.foldl
    (renameSubPin (σ.pin d).PinName (GetPinName k) (InsertAt (σ.pin d).PinName 1 " ")
      (InsertAt (GetPinName k) 1 " "))
    (setPin σ d { Old with PinName := GetPinName k })

/-- The sub-pin tree of a pin: `InSubPinTree sub P r` says that `r` is `P` itself, a sub-pin
of `P`, a sub-pin of a sub-pin, and so on, where `sub q` is the `SubPins` array of `q`. -/
inductive InSubPinTree (sub : Nat → List Nat) : Nat → Nat → Prop
  | self (P : Nat) : InSubPinTree sub P P
  | sub {P q r : Nat} : q ∈ sub P → InSubPinTree sub q r → InSubPinTree sub P r

/-- A pin record with the trash flag cleared: what `RemovePinLambda` never changes. -/
def withoutTrash (v : UEdGraphPin) : UEdGraphPin :=
  { v with bWasTrashed := false }

/-- The record `CreatePin` writes for a declared pin. -/
def declaredPin (d : PinDecl) : UEdGraphPin :=
  { PinName := d.PinName
    PinFriendlyName := ""
    Direction := d.Direction
    PinType :=
      { PinCategory := d.PinCategory
        PinSubCategory := d.PinSubCategory
        PinSubCategoryObject := d.PinSubCategoryObject
        ContainerType := d.PinParams.ContainerType
        bIsReference := d.PinParams.bIsReference }
    ParentPin := none
    SubPins := []
    LinkedTo := []
    DefaultValue := ""
    AutogeneratedDefaultValue := ""
    bWasTrashed := false }

/-- Reading a decimal numeral back: the value of a list of digit characters. -/
def decimalValue (l : List Char) : Nat :=
  l.foldl (fun a c => 10 * a + (c.toNat - 48)) 0

/-- The states the editor can reach from a newly constructed node: `AllocateDefaultPins`
first, then any finite sequence of `AddInputPin` (while the `int32` counter can still be
incremented) and `RemoveInputPin(P)` on a pin `P` of the current `Pins` that satisfies
`IsDynamicInputPin`, the only pins for which the context menu offers the removal. -/
inductive Reachable (F : FunctionPins) : State → Prop
  | start (s0 : State) : s0.node = UK2Node_CreateBlueprintMessage →
      Reachable F (AllocateDefaultPins F s0)
  | add (s : State) : Reachable F s → s.node.NumInputs < INT32_MAX →
      Reachable F (AddInputPin s)
  | remove (s s1 : State) (P fuel : Nat) : Reachable F s → P ∈ s.node.Pins →
      IsDynamicInputPin (some (s.store.pin P)) = true →
      RemoveInputPin fuel s P = some s1 → Reachable F s1

/-- The slot-count invariant together with the facts needed to carry it through a step. -/
def SlotInvariant (s : State) : Prop :=
  s.node.Pins.Nodup
  ∧ (∀ p ∈ s.node.Pins, p < s.store.nextPin)
  ∧ (∀ p ∈ s.node.Pins, (s.store.pin p).SubPins = [])
  ∧ s.node.NumInputs = ((dynamicPins s).length : Int)
  ∧ s.node.NumInputs ≤ INT32_MAX
  ∧ ∀ (k d : Nat), (dynamicPins s)[k]? = some d →
      (s.store.pin d).PinName = GetPinName (k : Int)

/-- Pin `a` lists pin `b` in its `LinkedTo`. -/
def Linked (σ : PinStore) (a b : Nat) : Prop :=
  b ∈ (σ.pin a).LinkedTo

/-- Links are kept on both ends, as `MakeLinkTo` and `BreakLinkTo` leave them. -/
def SymmetricLinks (σ : PinStore) : Prop :=
  ∀ a b, Linked σ a b → Linked σ b a

/-- Links exist between allocated pins only. -/
def ClosedLinks (σ : PinStore) : Prop :=
  ∀ a b, Linked σ a b → a < σ.nextPin ∧ b < σ.nextPin

/-- What lookups by name and direction checks can see of a pin. -/
def ident (v : UEdGraphPin) : String × EEdGraphPinDirection :=
  (v.PinName, v.Direction)

/-- The store `τ` is a later stage of `σ`: nothing was deallocated, and the pins allocated in
`σ` kept name and direction. -/
def NamesKept (σ τ : PinStore) : Prop :=
  σ.nextPin ≤ τ.nextPin ∧ ∀ q, q < σ.nextPin → ident (τ.pin q) = ident (σ.pin q)

/-- The pins of node `N` are the pins `lo`, `lo + 1`, ... allocated for the declarations `ds`,
and they carry the declared names and directions. -/
def NodePins (ds : List PinDecl) (σ : PinStore) (N : UK2Node) (lo : Nat) : Prop :=
  N.Pins = List.range' lo ds.length
  ∧ lo + ds.length ≤ σ.nextPin
  ∧ ∀ (i : Nat) (d : PinDecl), ds[i]? = some d →
      ident (σ.pin (lo + i)) = (d.PinName, d.Direction)

/-- The pins `UK2Node_MakeArray::AllocateDefaultPins` creates for `n` inputs, as a
declaration list: the output pin and the inputs `"[0]"` .. `"[n-1]"` counted from `i`. -/
def makeArrayInputDecls : Nat → Int → List PinDecl
  | 0, _ => []
  | remaining + 1, i =>
    { Direction := EEdGraphPinDirection.EGPD_Input, PinCategory := PC_Wildcard
      PinSubCategory := NAME_None, PinSubCategoryObject := none
      PinName := "[" ++ toString i ++ "]", PinParams := {} }
      :: makeArrayInputDecls remaining (i + 1)

/-- The declaration list of a make-array node with `n` inputs. -/
def makeArrayDecls (n : Nat) : List PinDecl :=
  { Direction := EEdGraphPinDirection.EGPD_Output, PinCategory := PC_Wildcard
    PinSubCategory := NAME_None, PinSubCategoryObject := none
    PinName := MakeArrayOutputPinName
    PinParams := { ContainerType := EPinContainerType.Array } }
    :: makeArrayInputDecls n 0

/-- What the compiler can rely on when it expands a node with pin list `Pins` in the store
`σ0`: links are kept on both ends and lie between allocated pins, the pins of the node are
allocated, and no link joins two pins of the node. -/
structure Background (σ0 : PinStore) (Pins : List Nat) : Prop where
  sym : SymmetricLinks σ0
  closed : ClosedLinks σ0
  alloc : ∀ p ∈ Pins, p < σ0.nextPin
  ext : ∀ p ∈ Pins, ∀ x, Linked σ0 p x → x ∉ Pins

/-- The link of the moved pin `S` to `x` was handed over to the pin that took the place of
`S`: it existed in `σ0` and is not among the dropped links `Dr`, those the schema refused to
make again. -/
def Handed (σ0 : PinStore) (Dr : List (Nat × Nat)) (S x : Nat) : Prop :=
  Linked σ0 S x ∧ (S, x) ∉ Dr

/-- The links of `σ` are those of `σ0` with the links of every moved pin `m.1` handed over to
`m.2` (for the pairs `m` of `M`) unless dropped (`Dr`), plus the links made between the pairs
of `I`. -/
def LinksAre (Dr : List (Nat × Nat)) (σ0 : PinStore) (M I : List (Nat × Nat))
    (σ : PinStore) : Prop :=
  ∀ q x, Linked σ q x ↔
    (Linked σ0 q x ∧ ∀ m ∈ M, q ≠ m.1 ∧ x ≠ m.1)
    ∨ (∃ m ∈ M, q = m.2 ∧ Handed σ0 Dr m.1 x)
    ∨ (∃ m ∈ M, x = m.2 ∧ Handed σ0 Dr m.1 q)
    ∨ (q, x) ∈ I ∨ (x, q) ∈ I

/-- State of an expansion in progress: `σ` is a later stage of `σ0`, the moved pins `M` are
pins of the node handed over to fresh pins, the dropped links `Dr` are links of moved pins,
and the internal links `I` join fresh pins. -/
structure ExpInv (Dr : List (Nat × Nat)) (σ0 : PinStore) (Pins : List Nat)
    (M I : List (Nat × Nat)) (σ : PinStore) : Prop where
  names : NamesKept σ0 σ
  links : LinksAre Dr σ0 M I σ
  moved : ∀ m ∈ M, m.1 ∈ Pins ∧ σ0.nextPin ≤ m.2 ∧ m.2 < σ.nextPin
  internal : ∀ i ∈ I, σ0.nextPin ≤ i.1 ∧ i.1 < σ.nextPin ∧ σ0.nextPin ≤ i.2 ∧ i.2 < σ.nextPin
  dropped : ∀ e ∈ Dr, ∃ m ∈ M, m.1 = e.1

/-- The five pins of the node itself that `ExpandNode` looks up by name. -/
def ownPinNames : List String :=
  [PN_Execute, "LogCategory", "Severity", PN_Then, PN_ReturnValue]

/-- The node and the graph around it at compile time: the store is a proper graph around
the node (`Background`) and `Pins` holds no address twice; the node has its execute,
LogCategory, Severity, then and ReturnValue pins, and the lookup of these names does not end
at a dynamic input pin; the function of the node declares pins of these five names, then and
ReturnValue being outputs; and `AddTokens` declares the pins self, execute, Tokens and
then. -/
structure NodeReady (E : Engine) (s : State) : Prop where
  bg : Background s.store s.node.Pins
  nodup : s.node.Pins.Nodup
  ownPins : ∀ nm ∈ ownPinNames, (FindPin s.store.pin s.node nm).isSome = true
  ownBase : ∀ nm ∈ ownPinNames, ∀ d ∈ dynamicPins s, FindPin s.store.pin s.node nm ≠ some d
  createPins : ∀ nm ∈ ownPinNames,
    ∃ d ∈ E.FunctionPins s.node.FunctionReference, d.PinName = nm
  createOutputs : ∀ d ∈ E.FunctionPins s.node.FunctionReference,
    d.PinName = PN_Then ∨ d.PinName = PN_ReturnValue →
      d.Direction = EEdGraphPinDirection.EGPD_Output
  addPins : ∀ nm ∈ [PN_Self, PN_Execute, "Tokens", PN_Then],
    ∃ d ∈ E.FunctionPins AddTokensReference, d.PinName = nm

/-- The situation in which the compiler calls `ExpandNode`: the node and the graph around it
are as `NodeReady` says, and the schema allows the connections that `ExpandNode` asks for on
this state for the links of the execute, LogCategory, Severity, then and ReturnValue pins
(`ownConnectionsAsked`), the ones behind `check(bSuccess)`.  What the schema answers for any
other pair of pins, those of the transfer loop included, does not matter. -/
structure CompileReady (E : Engine) (s : State) : Prop where
  node : NodeReady E s
  can : ∀ c ∈ ownConnectionsAsked E s, E.CanCreateConnection c.1 c.2 = true

/-- The schema allows the connections that the transfer loop of `ExpandNode` asks for on this
state (`slotConnectionsAsked`), so that no link of a dynamic pin is lost. -/
def SlotsAllowed (E : Engine) (s : State) : Prop :=
  ∀ c ∈ slotConnectionsAsked E s, E.CanCreateConnection c.1 c.2 = true

/-- The nodes and pins an expansion involves: the three spawned nodes, the five own pins
of the node that are looked up by name, the pins they are wired to, the pins of the three
internal links, the list `moved` of all pairs (pin of the node, pin that took its links),
and the list `dropped` of the links (dynamic pin, linked pin) that the schema refused to make
again. -/
structure Wiring where
  CreateNode : UK2Node
  AddTokensNode : UK2Node
  MakeArrayNode : UK2Node
  ownExecute : Nat
  ownLogCategory : Nat
  ownSeverity : Nat
  ownThen : Nat
  ownReturnValue : Nat
  createExecute : Nat
  createLogCategory : Nat
  createSeverity : Nat
  createThen : Nat
  createReturnValue : Nat
  addSelf : Nat
  addExecute : Nat
  addThen : Nat
  addTokens : Nat
  arrayOut : Nat
  moved : List (Nat × Nat)
  dropped : List (Nat × Nat)

/-- The three links `ExpandNode` makes between the spawned nodes. -/
def Wiring.internal (w : Wiring) : List (Nat × Nat) :=
  [(w.arrayOut, w.addTokens), (w.createThen, w.addExecute), (w.addSelf, w.createReturnValue)]

/-- The outcome of `ExpandNode` on `s` is `s1`, wired as `w` says. -/
structure ExpandsTo (s s1 : State) (w : Wiring) : Prop where
  spawned : s1.intermediate = s.intermediate ++ [w.CreateNode, w.AddTokensNode, w.MakeArrayNode]
  node : s1.node = s.node
  createClass : w.CreateNode.Class = NodeClass.K2Node_CallFunction
  createRef : w.CreateNode.FunctionReference = s.node.FunctionReference
  addClass : w.AddTokensNode.Class = NodeClass.K2Node_CallFunction
  addRef : w.AddTokensNode.FunctionReference = AddTokensReference
  arrayClass : w.MakeArrayNode.Class = NodeClass.K2Node_MakeArray
  arrayNum : w.MakeArrayNode.NumInputs = ((dynamicPins s).length : Int)
  fresh : ∀ p, p ∈ w.CreateNode.Pins ∨ p ∈ w.AddTokensNode.Pins ∨ p ∈ w.MakeArrayNode.Pins →
    s.store.nextPin ≤ p ∧ p < s1.store.nextPin
  ownExecute : FindPin s.store.pin s.node PN_Execute = some w.ownExecute
  ownLogCategory : FindPin s.store.pin s.node "LogCategory" = some w.ownLogCategory
  ownSeverity : FindPin s.store.pin s.node "Severity" = some w.ownSeverity
  ownThen : FindPin s.store.pin s.node PN_Then = some w.ownThen
  ownReturnValue : FindPin s.store.pin s.node PN_ReturnValue = some w.ownReturnValue
  createExecute : FindPin s1.store.pin w.CreateNode PN_Execute = some w.createExecute
  createLogCategory : FindPin s1.store.pin w.CreateNode "LogCategory" = some w.createLogCategory
  createSeverity : FindPin s1.store.pin w.CreateNode "Severity" = some w.createSeverity
  createThen : FindPin s1.store.pin w.CreateNode PN_Then = some w.createThen
  createReturnValue :
    FindPin s1.store.pin w.CreateNode PN_ReturnValue = some w.createReturnValue
  addSelf : FindPin s1.store.pin w.AddTokensNode PN_Self = some w.addSelf
  addExecute : FindPin s1.store.pin w.AddTokensNode PN_Execute = some w.addExecute
  addThen : FindPin s1.store.pin w.AddTokensNode PN_Then = some w.addThen
  addTokens : FindPin s1.store.pin w.AddTokensNode "Tokens" = some w.addTokens
  arrayOut : FindPin s1.store.pin w.MakeArrayNode MakeArrayOutputPinName = some w.arrayOut
  movedOwn : (w.ownExecute, w.createExecute) ∈ w.moved
    ∧ (w.ownLogCategory, w.createLogCategory) ∈ w.moved
    ∧ (w.ownSeverity, w.createSeverity) ∈ w.moved
    ∧ (w.ownThen, w.addThen) ∈ w.moved
    ∧ (w.ownReturnValue, w.createReturnValue) ∈ w.moved
  movedDynamic : ∀ (i d : Nat), (dynamicPins s)[i]? = some d →
    ∃ a, FindPin s1.store.pin w.MakeArrayNode (GetPinName (i : Int)) = some a
      ∧ (d, a) ∈ w.moved
  movedFresh : ∀ m ∈ w.moved, m.1 ∈ s.node.Pins ∧ s.store.nextPin ≤ m.2
  movedOnly : ∀ m ∈ w.moved,
    m ∈ [(w.ownExecute, w.createExecute), (w.ownLogCategory, w.createLogCategory),
      (w.ownSeverity, w.createSeverity), (w.ownThen, w.addThen),
      (w.ownReturnValue, w.createReturnValue)]
    ∨ ∃ (i d a : Nat), (dynamicPins s)[i]? = some d
        ∧ FindPin s1.store.pin w.MakeArrayNode (GetPinName (i : Int)) = some a ∧ m = (d, a)
  apart : ∀ p, (p ∈ w.CreateNode.Pins → p ∉ w.AddTokensNode.Pins ∧ p ∉ w.MakeArrayNode.Pins)
    ∧ (p ∈ w.AddTokensNode.Pins → p ∉ w.MakeArrayNode.Pins)
  links : ∀ q x, Linked s1.store q x ↔
    q ∉ s.node.Pins ∧ x ∉ s.node.Pins
    ∧ (Linked s.store q x
      ∨ (∃ m ∈ w.moved, q = m.2 ∧ Handed s.store w.dropped m.1 x)
      ∨ (∃ m ∈ w.moved, x = m.2 ∧ Handed s.store w.dropped m.1 q)
      ∨ (q, x) ∈ w.internal ∨ (x, q) ∈ w.internal)
  droppedDynamic : ∀ e ∈ w.dropped, e.1 ∈ dynamicPins s

/-! ## Sample states -/

/-- A pin record with the given name, direction, type, parent, sub-pins and links. -/
def mkPin (PinName : String) (Direction : EEdGraphPinDirection) (PinCategory : String)
    (PinSubCategoryObject : Option UObjectRef) (ParentPin : Option Nat)
    (SubPins LinkedTo : List Nat) : UEdGraphPin :=
  { PinName := PinName
    PinFriendlyName := ""
    Direction := Direction
    PinType :=
      { PinCategory := PinCategory
        PinSubCategory := NAME_None
        PinSubCategoryObject := PinSubCategoryObject
        ContainerType := EPinContainerType.None
        bIsReference := false }
    ParentPin := ParentPin
    SubPins := SubPins
    LinkedTo := LinkedTo
    DefaultValue := ""
    AutogeneratedDefaultValue := ""
    bWasTrashed := false }

/-- A node with an execute pin, a token pin `"[3]"` that has been split into one sub-pin
`"[3]_Text"`, and a second token pin `"[7]"`; `NumInputs` is 2. -/
def splitState : State :=
  { store :=
      { pin := fun p =>
          match p with
          | 0 => mkPin PN_Execute EEdGraphPinDirection.EGPD_Input PC_Exec none none [] []
          | 1 => mkPin "[3]" EEdGraphPinDirection.EGPD_Input PC_Struct
              (some UObjectRef.FBlueprintMessageToken_StaticStruct) none [2] []
          | 2 => mkPin "[3]_Text" EEdGraphPinDirection.EGPD_Input "text" none (some 1) [] []
          | 3 => mkPin "[7]" EEdGraphPinDirection.EGPD_Input PC_Struct
              (some UObjectRef.FBlueprintMessageToken_StaticStruct) none [] []
          | _ => mkPin NAME_None EEdGraphPinDirection.EGPD_Input PC_Wildcard none none [] []
        nextPin := 4 }
    node :=
      { Class := NodeClass.K2Node_CreateBlueprintMessage
        FunctionReference :=
          { MemberName := "CreateBlueprintMessage", MemberParent := "BlueprintMessage" }
        NumInputs := 2
        Pins := [0, 1, 2, 3] }
    bBeingCompiled := false
    structurallyModified := 0
    intermediate := []
    errors := 0 }

/-- A pin table in which `CreateBlueprintMessage(LogCategory, Severity)` is an impure static
function returning the message object and `AddTokens(Tokens)` an impure member function. -/
def sampleFunctionPins : FunctionPins := fun Ref =>
  if Ref.MemberName = "CreateBlueprintMessage" then
    [ { Direction := EEdGraphPinDirection.EGPD_Input, PinCategory := PC_Exec
        PinSubCategory := NAME_None, PinSubCategoryObject := none
        PinName := PN_Execute, PinParams := {} },
      { Direction := EEdGraphPinDirection.EGPD_Output, PinCategory := PC_Exec
        PinSubCategory := NAME_None, PinSubCategoryObject := none
        PinName := PN_Then, PinParams := {} },
      { Direction := EEdGraphPinDirection.EGPD_Input, PinCategory := "name"
        PinSubCategory := NAME_None, PinSubCategoryObject := none
        PinName := "LogCategory", PinParams := {} },
      { Direction := EEdGraphPinDirection.EGPD_Input, PinCategory := "byte"
        PinSubCategory := NAME_None, PinSubCategoryObject := some (UObjectRef.other 1)
        PinName := "Severity", PinParams := {} },
      { Direction := EEdGraphPinDirection.EGPD_Output, PinCategory := "object"
        PinSubCategory := NAME_None, PinSubCategoryObject := some (UObjectRef.other 0)
        PinName := PN_ReturnValue, PinParams := {} } ]
  else if Ref.MemberName = "AddTokens" then
    [ { Direction := EEdGraphPinDirection.EGPD_Input, PinCategory := PC_Exec
        PinSubCategory := NAME_None, PinSubCategoryObject := none
        PinName := PN_Execute, PinParams := {} },
      { Direction := EEdGraphPinDirection.EGPD_Output, PinCategory := PC_Exec
        PinSubCategory := NAME_None, PinSubCategoryObject := none
        PinName := PN_Then, PinParams := {} },
      { Direction := EEdGraphPinDirection.EGPD_Input, PinCategory := "object"
        PinSubCategory := NAME_None, PinSubCategoryObject := some (UObjectRef.other 0)
        PinName := PN_Self, PinParams := {} },
      { Direction := EEdGraphPinDirection.EGPD_Input, PinCategory := PC_Struct
        PinSubCategory := NAME_None
        PinSubCategoryObject := some UObjectRef.FBlueprintMessageToken_StaticStruct
        PinName := "Tokens"
        PinParams := { ContainerType := EPinContainerType.Array, bIsReference := true } } ]
  else []

/-- A newly constructed node in an editor that has not allocated any pin yet. -/
def freshState : State :=
  { store :=
      { pin := fun _ =>
          mkPin NAME_None EEdGraphPinDirection.EGPD_Input PC_Wildcard none none [] []
        nextPin := 0 }
    node := UK2Node_CreateBlueprintMessage
    bBeingCompiled := false
    structurallyModified := 0
    intermediate := []
    errors := 0 }

/-- An engine whose schema allows every connection and whose plain function-call expansion
leaves the state alone. -/
def sampleEngine : Engine :=
  { FunctionPins := sampleFunctionPins
    CanCreateConnection := fun _ _ => true
    CallFunction_ExpandNode := fun s => s }

/-- An engine whose schema refuses to connect two pins of the same direction or of different
categories, and whose plain function-call expansion leaves the state alone. -/
def strictEngine : Engine :=
  { FunctionPins := sampleFunctionPins
    CanCreateConnection := fun a b =>
      a.Direction != b.Direction && a.PinType.PinCategory == b.PinType.PinCategory
    CallFunction_ExpandNode := fun s => s }

/-- An engine like `strictEngine` whose schema, in addition, refuses every connection of a
struct pin, so that no link of a token pin can be made. -/
def pickyEngine : Engine :=
  { FunctionPins := sampleFunctionPins
    CanCreateConnection := fun a b =>
      a.Direction != b.Direction && a.PinType.PinCategory == b.PinType.PinCategory
        && a.PinType.PinCategory != PC_Struct
    CallFunction_ExpandNode := fun s => s }

/-- A node at compile time.  Pins 0 to 4 belong to other nodes; pins 5 to 11 are the node's
own: execute, then, LogCategory, Severity, ReturnValue and two token pins.  The execute,
then and ReturnValue pins and both token pins are linked to the outside. -/
def linkedState : State :=
  { store :=
      { pin := fun p =>
          match p with
          | 0 => mkPin PN_Then EEdGraphPinDirection.EGPD_Output PC_Exec none none [] [5]
          | 1 => mkPin "Token" EEdGraphPinDirection.EGPD_Output PC_Struct
              (some UObjectRef.FBlueprintMessageToken_StaticStruct) none [] [10]
          | 2 => mkPin "Token" EEdGraphPinDirection.EGPD_Output PC_Struct
              (some UObjectRef.FBlueprintMessageToken_StaticStruct) none [] [11]
          | 3 => mkPin PN_Execute EEdGraphPinDirection.EGPD_Input PC_Exec none none [] [6]
          | 4 => mkPin "Message" EEdGraphPinDirection.EGPD_Input "object"
              (some (UObjectRef.other 0)) none [] [9]
          | 5 => mkPin PN_Execute EEdGraphPinDirection.EGPD_Input PC_Exec none none [] [0]
          | 6 => mkPin PN_Then EEdGraphPinDirection.EGPD_Output PC_Exec none none [] [3]
          | 7 => mkPin "LogCategory" EEdGraphPinDirection.EGPD_Input "name" none none [] []
          | 8 => mkPin "Severity" EEdGraphPinDirection.EGPD_Input "byte"
              (some (UObjectRef.other 1)) none [] []
          | 9 => mkPin PN_ReturnValue EEdGraphPinDirection.EGPD_Output "object"
              (some (UObjectRef.other 0)) none [] [4]
          | 10 => mkPin "[0]" EEdGraphPinDirection.EGPD_Input PC_Struct
              (some UObjectRef.FBlueprintMessageToken_StaticStruct) none [] [1]
          | 11 => mkPin "[1]" EEdGraphPinDirection.EGPD_Input PC_Struct
              (some UObjectRef.FBlueprintMessageToken_StaticStruct) none [] [2]
          | _ => mkPin NAME_None EEdGraphPinDirection.EGPD_Input PC_Wildcard none none [] []
        nextPin := 12 }
    node :=
      { Class := NodeClass.K2Node_CreateBlueprintMessage
        FunctionReference :=
          { MemberName := "CreateBlueprintMessage", MemberParent := "BlueprintMessage" }
        NumInputs := 2
        Pins := [5, 6, 7, 8, 9, 10, 11] }
    bBeingCompiled := true
    structurallyModified := 0
    intermediate := []
    errors := 0 }

/-- The node of `linkedState` without its token pins: a plain call of
`CreateBlueprintMessage`. -/
def callOnlyState : State :=
  { linkedState with
    node :=
      { Class := NodeClass.K2Node_CreateBlueprintMessage
        FunctionReference :=
          { MemberName := "CreateBlueprintMessage", MemberParent := "BlueprintMessage" }
        NumInputs := 0
        Pins := [5, 6, 7, 8, 9] } }

/-! ## Basic facts about the engine primitives -/

theorem setPin_same (σ : PinStore) (p : Nat) (v : UEdGraphPin) :
    (setPin σ p v).pin p = v := by
  simp [setPin]

theorem setPin_other (σ : PinStore) (p q : Nat) (v : UEdGraphPin)
    (h : q ≠ p) : (setPin σ p v).pin q = σ.pin q := by
  simp [setPin, h]

theorem setPin_nextPin (σ : PinStore) (p : Nat) (v : UEdGraphPin) :
    (setPin σ p v).nextPin = σ.nextPin := rfl

theorem PinStore_ext (σ τ : PinStore) (h1 : ∀ q, σ.pin q = τ.pin q)
    (h2 : σ.nextPin = τ.nextPin) : σ = τ := by
  cases σ with
  | mk f a =>
    cases τ with
    | mk g b =>
      have : f = g := funext h1
      simp only at h2
      subst this
      subst h2
      rfl

theorem setPin_self_eq (σ : PinStore) (p : Nat) :
    setPin σ p (σ.pin p) = σ := by
  apply PinStore_ext
  · intro q
    by_cases h : q = p
    · subst h; simp [setPin]
    · simp [setPin, h]
  · rfl

theorem wrapInt32_of_range (x : Int) (h1 : INT32_MIN ≤ x) (h2 : x ≤ INT32_MAX) :
    wrapInt32 x = x := by
  unfold INT32_MIN at h1
  unfold INT32_MAX at h2
  unfold wrapInt32
  omega

theorem tokenPin_dynamic (Index : Int) : IsDynamicInputPin (some (tokenPin Index)) = true := by
  simp [IsDynamicInputPin, tokenPin]

theorem createTokenPin_eq (σ : PinStore) (n : UK2Node) (Index : Int) :
    createTokenPin σ n Index =
      ({ pin := (setPin σ σ.nextPin (tokenPin Index)).pin, nextPin := σ.nextPin + 1 },
       { n with Pins := n.Pins ++ [σ.nextPin] }, σ.nextPin) := by
  rfl

/-! ## AddInputPin -/

/-- C1. `AddInputPin` adds exactly one input slot.  For every node state whose pins are
allocated objects and whose counter can be incremented inside `int32`: the counter becomes
the old `NumInputs + 1`; `Pins` is the old list with one new pin appended at the end; the
new pin is a top-level input pin of struct type "message token", so `IsDynamicInputPin`
holds for it; it is named `GetPinName (old NumInputs)`, that is `"[<old NumInputs>]"`; and
every pin that was already in `Pins` is the same object as before (same name, same links)
at the same position. -/
theorem AddInputPin_adds_one_slot (s : State)
    (halloc : ∀ p ∈ s.node.Pins, p < s.store.nextPin)
    (hmin : INT32_MIN ≤ s.node.NumInputs) (hmax : s.node.NumInputs < INT32_MAX) :
    (AddInputPin s).node.NumInputs = s.node.NumInputs + 1
    ∧ ∃ NewPin : Nat,
        (AddInputPin s).node.Pins = s.node.Pins ++ [NewPin]
        ∧ NewPin ∉ s.node.Pins
        ∧ IsDynamicInputPin (some ((AddInputPin s).store.pin NewPin)) = true
        ∧ ((AddInputPin s).store.pin NewPin).Direction = EEdGraphPinDirection.EGPD_Input
        ∧ ((AddInputPin s).store.pin NewPin).ParentPin = none
        ∧ ((AddInputPin s).store.pin NewPin).PinType.PinCategory = PC_Struct
        ∧ ((AddInputPin s).store.pin NewPin).PinType.PinSubCategoryObject
            = some UObjectRef.FBlueprintMessageToken_StaticStruct
        ∧ ((AddInputPin s).store.pin NewPin).PinName = GetPinName s.node.NumInputs
        ∧ ((AddInputPin s).store.pin NewPin).PinName
            = "[" ++ toString s.node.NumInputs ++ "]"
        ∧ (∀ i, i < s.node.Pins.length → (AddInputPin s).node.Pins[i]? = s.node.Pins[i]?)
        ∧ ∀ p ∈ s.node.Pins,
            (AddInputPin s).store.pin p = s.store.pin p
            ∧ ((AddInputPin s).store.pin p).PinName = (s.store.pin p).PinName
            ∧ ((AddInputPin s).store.pin p).LinkedTo = (s.store.pin p).LinkedTo := by
  have hw : wrapInt32 (s.node.NumInputs + 1) = s.node.NumInputs + 1 := by
    apply wrapInt32_of_range
    · unfold INT32_MIN at *; omega
    · unfold INT32_MAX at *; omega
  have hfresh : s.store.nextPin ∉ s.node.Pins := fun hin => Nat.lt_irrefl _ (halloc _ hin)
  have hnew : (AddInputPin s).store.pin s.store.nextPin = tokenPin s.node.NumInputs := by
    simp [AddInputPin, createTokenPin_eq, SetPinAutogeneratedDefaultValueBasedOnType,
      setPin, hw, tokenPin]
  have hold : ∀ p ∈ s.node.Pins, (AddInputPin s).store.pin p = s.store.pin p := by
    intro p hp
    have hne : p ≠ s.store.nextPin := fun h => hfresh (h ▸ hp)
    simp [AddInputPin, createTokenPin_eq, SetPinAutogeneratedDefaultValueBasedOnType,
      setPin, hne]
  have hpins : (AddInputPin s).node.Pins = s.node.Pins ++ [s.store.nextPin] := by
    simp [AddInputPin, createTokenPin_eq]
  refine ⟨?_, s.store.nextPin, hpins, hfresh, ?_, ?_, ?_, ?_, ?_, ?_, ?_, ?_, ?_⟩
  · simp [AddInputPin, createTokenPin_eq, hw]
  · rw [hnew]; exact tokenPin_dynamic _
  · rw [hnew]; rfl
  · rw [hnew]; rfl
  · rw [hnew]; rfl
  · rw [hnew]; rfl
  · rw [hnew]; rfl
  · rw [hnew]; rfl
  · intro i hi
    rw [hpins, List.getElem?_append_left hi]
  · intro p hp
    have h := hold p hp
    exact ⟨h, by rw [h], by rw [h]⟩

/-- Witness for C1: `linkedState` has its pins below `nextPin` and two slots; the third slot
is the pin at the old `nextPin`, named `"[2]"`. -/
theorem AddInputPin_adds_one_slot_witness :
    (∀ p ∈ linkedState.node.Pins, p < linkedState.store.nextPin)
    ∧ (AddInputPin linkedState).node.NumInputs = linkedState.node.NumInputs + 1 :=
  ⟨by decide,
   (AddInputPin_adds_one_slot linkedState (by decide) (by decide) (by decide)).1⟩

/-! ## AllocateDefaultPins -/

theorem createDeclaredPins_spec (ds : List PinDecl) :
    ∀ (σ : PinStore) (n : UK2Node),
      (createDeclaredPins ds σ n).2.Pins = n.Pins ++ List.range' σ.nextPin ds.length
      ∧ (createDeclaredPins ds σ n).2.NumInputs = n.NumInputs
      ∧ (createDeclaredPins ds σ n).2.FunctionReference = n.FunctionReference
      ∧ (createDeclaredPins ds σ n).2.Class = n.Class
      ∧ (createDeclaredPins ds σ n).1.nextPin = σ.nextPin + ds.length
      ∧ ∀ p, p < σ.nextPin → (createDeclaredPins ds σ n).1.pin p = σ.pin p := by
  induction ds with
  | nil => intro σ n; simp [createDeclaredPins]
  | cons d ds ih =>
    intro σ n
    obtain ⟨h1, h2, h3, h4, h5, h6⟩ := ih
      (CreatePin σ n d.Direction d.PinCategory d.PinSubCategory d.PinSubCategoryObject
        d.PinName d.PinParams).1
      (CreatePin σ n d.Direction d.PinCategory d.PinSubCategory d.PinSubCategoryObject
        d.PinName d.PinParams).2.1
    simp only [createDeclaredPins]
    refine ⟨?_, ?_, ?_, ?_, ?_, ?_⟩
    · rw [h1]; simp [CreatePin, List.range'_succ]
    · rw [h2]; rfl
    · rw [h3]; rfl
    · rw [h4]; rfl
    · rw [h5]; simp [CreatePin]; omega
    · intro p hp
      rw [h6 p (by simp [CreatePin]; omega)]
      simp only [CreatePin]
      exact setPin_other _ _ _ _ (Nat.ne_of_lt hp)

theorem allocateLoop_spec (k : Nat) :
    ∀ (Index : Int) (σ : PinStore) (n : UK2Node),
      (allocateLoop k Index σ n).2.Pins = n.Pins ++ List.range' σ.nextPin k
      ∧ (allocateLoop k Index σ n).2.NumInputs = n.NumInputs
      ∧ (allocateLoop k Index σ n).1.nextPin = σ.nextPin + k
      ∧ (∀ p, p < σ.nextPin → (allocateLoop k Index σ n).1.pin p = σ.pin p)
      ∧ ∀ i : Nat, i < k →
          (allocateLoop k Index σ n).1.pin (σ.nextPin + i) = tokenPin (Index + i) := by
  induction k with
  | zero => intro Index σ n; simp [allocateLoop]
  | succ k ih =>
    intro Index σ n
    obtain ⟨h1, h2, h3, h4, h5⟩ := ih (Index + 1) (createTokenPin σ n Index).1
      (createTokenPin σ n Index).2.1
    simp only [allocateLoop]
    refine ⟨?_, ?_, ?_, ?_, ?_⟩
    · rw [h1]; simp [createTokenPin_eq, List.range'_succ]
    · rw [h2]; rfl
    · rw [h3]; simp [createTokenPin_eq]; omega
    · intro p hp
      rw [h4 p (by simp [createTokenPin_eq]; omega)]
      simp only [createTokenPin_eq]
      exact setPin_other _ _ _ _ (Nat.ne_of_lt hp)
    · intro i hi
      cases i with
      | zero =>
        rw [h4 _ (by simp [createTokenPin_eq])]
        simp [createTokenPin_eq, setPin_same]
      | succ j =>
        have := h5 j (by omega)
        simp only [createTokenPin_eq] at this
        have e1 : σ.nextPin + (j + 1) = σ.nextPin + 1 + j := by omega
        have e2 : Index + ((j + 1 : Nat) : Int) = Index + 1 + (j : Int) := by push_cast; ring
        rw [e1, e2]
        simpa [createTokenPin_eq] using this

/-- C6. A newly constructed node has `NumInputs = 1`.  For every state with
`NumInputs = n ≥ 0`, `AllocateDefaultPins` produces the pins of the base function call
followed by exactly `n` new pins; the `i`-th of them is an input pin of struct type
"message token" named `GetPinName i` (`"[0]"`, `"[1]"`, ... in that order) for which
`IsDynamicInputPin` holds; the base pins keep the contents the base call gave them; and
`NumInputs` is not changed. -/
theorem AllocateDefaultPins_creates_token_pins (F : FunctionPins) (s : State) (n : Nat)
    (hn : s.node.NumInputs = (n : Int)) :
    UK2Node_CreateBlueprintMessage.NumInputs = 1
    ∧ (AllocateDefaultPins F s).node.NumInputs = s.node.NumInputs
    ∧ ∃ inputs : List Nat,
        (AllocateDefaultPins F s).node.Pins
            = (CallFunction_AllocateDefaultPins F s.store s.node).2.Pins ++ inputs
        ∧ inputs.length = n
        ∧ (∀ p, p < (CallFunction_AllocateDefaultPins F s.store s.node).1.nextPin →
            (AllocateDefaultPins F s).store.pin p
              = (CallFunction_AllocateDefaultPins F s.store s.node).1.pin p)
        ∧ ∀ (i : Nat) (p : Nat), inputs[i]? = some p →
            ((AllocateDefaultPins F s).store.pin p).PinName = GetPinName i
            ∧ ((AllocateDefaultPins F s).store.pin p).PinName = "[" ++ toString i ++ "]"
            ∧ ((AllocateDefaultPins F s).store.pin p).Direction
                = EEdGraphPinDirection.EGPD_Input
            ∧ ((AllocateDefaultPins F s).store.pin p).PinType.PinCategory = PC_Struct
            ∧ ((AllocateDefaultPins F s).store.pin p).PinType.PinSubCategoryObject
                = some UObjectRef.FBlueprintMessageToken_StaticStruct
            ∧ IsDynamicInputPin (some ((AllocateDefaultPins F s).store.pin p)) = true := by
  have hb := createDeclaredPins_spec (F s.node.FunctionReference) s.store s.node
  have hk : (CallFunction_AllocateDefaultPins F s.store s.node).2.NumInputs.toNat = n := by
    simp only [CallFunction_AllocateDefaultPins]
    rw [hb.2.1, hn]; simp
  obtain ⟨h1, h2, h3, h4, h5⟩ := allocateLoop_spec n 0
    (CallFunction_AllocateDefaultPins F s.store s.node).1
    (CallFunction_AllocateDefaultPins F s.store s.node).2
  refine ⟨rfl, ?_, List.range' (CallFunction_AllocateDefaultPins F s.store s.node).1.nextPin n,
    ?_, ?_, ?_, ?_⟩
  · simp only [AllocateDefaultPins, hk]
    rw [h2]
    simp only [CallFunction_AllocateDefaultPins]
    exact hb.2.1
  · simp only [AllocateDefaultPins, hk]
    exact h1
  · simp
  · intro p hp
    simp only [AllocateDefaultPins, hk]
    exact h4 p hp
  · intro i p hip
    have hi : i < n := by
      have := (List.getElem?_eq_some.mp hip).1
      simpa using this
    have hp : p = (CallFunction_AllocateDefaultPins F s.store s.node).1.nextPin + i := by
      have := (List.getElem?_eq_some.mp hip).2
      simpa [List.getElem_range'] using this.symm
    have hrec : (AllocateDefaultPins F s).store.pin p = tokenPin i := by
      simp only [AllocateDefaultPins, hk]
      rw [hp, h5 i hi]; simp
    rw [hrec]
    exact ⟨rfl, rfl, rfl, rfl, rfl, tokenPin_dynamic _⟩

/-- Witness for C6: a newly constructed node has `NumInputs = 1`, and `AllocateDefaultPins`
leaves the counter alone. -/
theorem AllocateDefaultPins_creates_token_pins_witness :
    freshState.node.NumInputs = ((1 : Nat) : Int)
    ∧ (AllocateDefaultPins sampleFunctionPins freshState).node.NumInputs
        = freshState.node.NumInputs :=
  ⟨rfl, (AllocateDefaultPins_creates_token_pins sampleFunctionPins freshState 1 rfl).2.1⟩

/-! ## FString::Replace with a pattern free of letters -/

theorem ToUpper_caseless_eq (p c : Char) (hp : caseless p) (h : ToUpper p = ToUpper c) :
    c = p := by
  have hn : c.toNat = p.toNat := by
    unfold caseless at hp
    unfold ToUpper at h
    split_ifs at h <;> omega
  have := congrArg Char.ofNat hn
  simpa using this

theorem startsWithIgnoreCase_caseless (pat : List Char) :
    ∀ text : List Char, (∀ c ∈ pat, caseless c) → startsWithIgnoreCase pat text = true →
      ∃ t, text = pat ++ t := by
  induction pat with
  | nil => intro text _ _; exact ⟨text, rfl⟩
  | cons p ps ih =>
    intro text hc h
    cases text with
    | nil => simp [startsWithIgnoreCase] at h
    | cons c cs =>
      simp only [startsWithIgnoreCase, Bool.and_eq_true, beq_iff_eq] at h
      obtain ⟨t, ht⟩ := ih cs (fun x hx => hc x (List.mem_cons_of_mem _ hx)) h.2
      have hcp := ToUpper_caseless_eq p c (hc p (List.mem_cons_self _ _)) h.1
      exact ⟨t, by rw [hcp, ht]; rfl⟩

theorem replaceScan_same (pat : List Char) (hne : pat ≠ [])
    (hc : ∀ c ∈ pat, caseless c) :
    ∀ (text : List Char) (skip : Nat), replaceScan pat pat text skip = text.drop skip := by
  intro text
  induction text with
  | nil => intro skip; simp [replaceScan]
  | cons c cs ih =>
    intro skip
    cases skip with
    | succ k => simp [replaceScan, ih]
    | zero =>
      simp only [replaceScan, List.drop_zero]
      split_ifs with h
      · obtain ⟨t, ht⟩ := startsWithIgnoreCase_caseless pat (c :: cs) hc h
        cases pat with
        | nil => exact absurd rfl hne
        | cons p ps =>
          simp only [List.cons_append, List.cons.injEq] at ht
          rw [ih, ht.2]
          simp [ht.1]
      · rw [ih]; simp

theorem Replace_same (Text Pat : String) (hc : ∀ c ∈ Pat.data, caseless c) :
    Replace Text Pat Pat = Text := by
  unfold Replace
  split_ifs with h
  · rfl
  · rw [replaceScan_same Pat.data (fun h0 => h (Or.inr h0)) hc]; simp

theorem toDigitsCore_caseless (fuel : Nat) :
    ∀ (n : Nat) (ds : List Char), (∀ c ∈ ds, caseless c) →
      ∀ c ∈ Nat.toDigitsCore 10 fuel n ds, caseless c := by
  induction fuel with
  | zero => intro n ds hds c hc; simpa [Nat.toDigitsCore] using hds c (by simpa [Nat.toDigitsCore] using hc)
  | succ f ih =>
    intro n ds hds c hc
    have hd : caseless (Nat.digitChar (n % 10)) := by
      have key : ∀ d, d < 10 → caseless (Nat.digitChar d) := by
        unfold caseless
        decide
      exact key _ (Nat.mod_lt _ (by decide))
    have hds2 : ∀ c ∈ Nat.digitChar (n % 10) :: ds, caseless c := by
      intro x hx
      rcases List.mem_cons.mp hx with rfl | hx
      · exact hd
      · exact hds x hx
    simp only [Nat.toDigitsCore] at hc
    split_ifs at hc
    · exact hds2 c hc
    · exact ih _ _ hds2 c hc

theorem GetPinName_data (k : Nat) :
    (GetPinName (k : Int)).data = '[' :: (Nat.toDigits 10 k ++ [']']) := rfl

theorem GetPinName_caseless (k : Nat) : ∀ c ∈ (GetPinName (k : Int)).data, caseless c := by
  intro c hc
  rw [GetPinName_data] at hc
  simp only [List.mem_cons, List.mem_append, List.mem_singleton, List.not_mem_nil,
    or_false] at hc
  rcases hc with rfl | hc | rfl
  · unfold caseless; decide
  · exact toDigitsCore_caseless _ _ [] (by simp) c hc
  · unfold caseless; decide

theorem InsertAt_space_caseless (Text : String) (h : ∀ c ∈ Text.data, caseless c) :
    ∀ c ∈ (InsertAt Text 1 " ").data, caseless c := by
  intro c hc
  simp only [InsertAt, List.mem_append] at hc
  rcases hc with (hc | hc) | hc
  · exact h c (List.mem_of_mem_take hc)
  · have : c = ' ' := by simpa using hc
    subst this
    unfold caseless; decide
  · exact h c (List.mem_of_mem_drop hc)

/-! ## FString::Replace replaces each occurrence -/

theorem startsWithIgnoreCase_iff (pat : List Char) :
    ∀ text : List Char, startsWithIgnoreCase pat text = true ↔
      ∃ m rest : List Char, text = m ++ rest ∧ m.map ToUpper = pat.map ToUpper := by
  induction pat with
  | nil =>
    intro text
    simp only [startsWithIgnoreCase, List.map_nil, List.map_eq_nil_iff, true_iff]
    exact ⟨[], text, rfl, rfl⟩
  | cons p ps ih =>
    intro text
    cases text with
    | nil =>
      simp only [startsWithIgnoreCase, List.map_cons]
      constructor
      · intro h; exact absurd h (by decide)
      rintro ⟨m, rest, h1, h2⟩
      have hm : m = [] := (List.append_eq_nil.mp h1.symm).1
      rw [hm] at h2
      simp at h2
    | cons c cs =>
      simp only [startsWithIgnoreCase, Bool.and_eq_true, beq_iff_eq, List.map_cons]
      constructor
      · rintro ⟨h1, h2⟩
        obtain ⟨m, rest, e1, e2⟩ := (ih cs).mp h2
        exact ⟨c :: m, rest, by rw [e1]; rfl, by simp [e2, h1]⟩
      · rintro ⟨m, rest, e1, e2⟩
        cases m with
        | nil => simp at e2
        | cons a m1 =>
          simp only [List.cons_append, List.cons.injEq] at e1
          simp only [List.map_cons, List.cons.injEq] at e2
          refine ⟨?_, (ih cs).mpr ⟨m1, rest, e1.2, e2.2⟩⟩
          rw [e1.1]; exact e2.1.symm

theorem replaceScan_skip (From To : List Char) :
    ∀ (text : List Char) (skip : Nat),
      replaceScan From To text skip = replaceScan From To (text.drop skip) 0 := by
  intro text
  induction text with
  | nil => intro skip; simp [replaceScan]
  | cons c cs ih =>
    intro skip
    cases skip with
    | zero => rfl
    | succ k => simp only [replaceScan, List.drop_succ_cons]; exact ih k

theorem replaceScan_spec (From To : List Char) (hne : From ≠ []) :
    ∀ (n : Nat) (text : List Char), text.length ≤ n →
      EachOccurrenceReplaced From To text (replaceScan From To text 0) := by
  intro n
  induction n with
  | zero =>
    intro text h
    have : text = [] := List.length_eq_zero.mp (Nat.le_zero.mp h)
    rw [this]
    exact EachOccurrenceReplaced.done
  | succ n ih =>
    intro text h
    cases text with
    | nil => exact EachOccurrenceReplaced.done
    | cons c cs =>
      have hlen : cs.length ≤ n := by simp only [List.length_cons] at h; omega
      simp only [replaceScan]
      split_ifs with hs
      · obtain ⟨m, rest, e1, e2⟩ := (startsWithIgnoreCase_iff From (c :: cs)).mp hs
        have hml : m.length = From.length := by
          have := congrArg List.length e2
          simpa using this
        cases m with
        | nil =>
          have : From = [] := by simpa using e2.symm
          exact absurd this hne
        | cons a m1 =>
          simp only [List.cons_append, List.cons.injEq] at e1
          have hk : From.length - 1 = m1.length := by
            simp only [List.length_cons] at hml; omega
          have hdrop : cs.drop (From.length - 1) = rest := by
            rw [hk, e1.2, List.drop_left]
          rw [replaceScan_skip, hdrop]
          have hrest : rest.length ≤ n := by
            have := congrArg List.length e1.2
            simp only [List.length_append] at this
            omega
          have key := EachOccurrenceReplaced.occurrence (a :: m1) rest _ hne e2 (ih rest hrest)
          have etext : c :: cs = (a :: m1) ++ rest := by
            rw [e1.1, e1.2]; rfl
          rw [etext]
          exact key
      · refine EachOccurrenceReplaced.other c cs _ ?_ (ih cs hlen)
        rintro ⟨_, m, rest, e1, e2⟩
        exact hs ((startsWithIgnoreCase_iff From (c :: cs)).mpr ⟨m, rest, e1, e2⟩)

theorem EachOccurrenceReplaced_copy (Old New : List Char) (h : ∀ t, ¬ OccursAt Old t) :
    ∀ text : List Char, EachOccurrenceReplaced Old New text text := by
  intro text
  induction text with
  | nil => exact EachOccurrenceReplaced.done
  | cons c cs ih => exact EachOccurrenceReplaced.other c cs cs (h _) ih

theorem Replace_spec (Text From To : String) :
    EachOccurrenceReplaced From.data To.data Text.data (Replace Text From To).data := by
  unfold Replace
  split_ifs with h
  · rcases h with h | h
    · rw [h]; exact EachOccurrenceReplaced.done
    · exact EachOccurrenceReplaced_copy _ _ (fun t ht => ht.1 h) _
  · have hne : From.data ≠ [] := fun h0 => h (Or.inr h0)
    exact replaceScan_spec From.data To.data hne _ _ (Nat.le_refl _)

/-! ## SyncPinNames -/

theorem isDynamic_parent (pin : Nat → UEdGraphPin) (p : Nat) (h : isDynamic pin p = true) :
    (pin p).ParentPin = none := by
  simp only [isDynamic, IsDynamicInputPin, Bool.and_eq_true, beq_iff_eq] at h
  exact h.1.1.2

theorem isDynamic_congr (pin1 pin2 : Nat → UEdGraphPin) (q : Nat)
    (h : withoutNames (pin1 q) = withoutNames (pin2 q)) :
    isDynamic pin1 q = isDynamic pin2 q := by
  show IsDynamicInputPin (some (withoutNames (pin1 q)))
    = IsDynamicInputPin (some (withoutNames (pin2 q)))
  rw [h]

theorem subPins_congr (a b : UEdGraphPin) (h : withoutNames a = withoutNames b) :
    a.SubPins = b.SubPins := by
  have := congrArg UEdGraphPin.SubPins h
  exact this

theorem parentPin_congr (a b : UEdGraphPin) (h : withoutNames a = withoutNames b) :
    a.ParentPin = b.ParentPin := by
  have := congrArg UEdGraphPin.ParentPin h
  exact this

theorem filter_isDynamic_congr (pin1 pin2 : Nat → UEdGraphPin)
    (h : ∀ q, withoutNames (pin1 q) = withoutNames (pin2 q)) (l : List Nat) :
    l.filter (isDynamic pin1) = l.filter (isDynamic pin2) := by
  have : isDynamic pin1 = isDynamic pin2 := funext fun q => isDynamic_congr pin1 pin2 q (h q)
  rw [this]

theorem foldl_renameSubPin (Old New : String) (L : List Nat) :
    ∀ (σ : PinStore), L.Nodup → ∀ q,
      (L.foldl (renameSubPin Old New (InsertAt Old 1 " ") (InsertAt New 1 " ")) σ).pin q
        = if q ∈ L then renamedSubPin Old New (σ.pin q) else σ.pin q := by
  induction L with
  | nil => intro σ _ q; simp
  | cons x xs ih =>
    intro σ hnd q
    obtain ⟨hx, hxs⟩ := List.nodup_cons.mp hnd
    rw [List.foldl_cons, ih _ hxs q]
    by_cases hq : q ∈ xs
    · have hne : q ≠ x := fun e => hx (e ▸ hq)
      simp [hq, renameSubPin, setPin, hne]
    · by_cases hqx : q = x
      · subst hqx
        simp [hq, renameSubPin, setPin, renamedSubPin]
      · simp [hq, hqx, renameSubPin, setPin]

theorem syncLoop_cons_dynamic (σ : PinStore) (d k : Nat) (rest : List Nat)
    (h : isDynamic σ.pin d = true) :
    syncLoop (d :: rest) k σ = syncLoop rest (k + 1) (syncStep σ d k) := by
  have h2 : IsDynamicInputPin (some (σ.pin d)) = true := h
  simp only [syncLoop, h2, if_true, syncStep, setPin_same]
  split_ifs with hl
  · rfl
  · have : (σ.pin d).SubPins = [] := by
      cases hs : (σ.pin d).SubPins with
      | nil => rfl
      | cons a b => rw [hs] at hl; simp at hl
    rw [this]; rfl

theorem syncLoop_cons_static (σ : PinStore) (d k : Nat) (rest : List Nat)
    (h : isDynamic σ.pin d = false) :
    syncLoop (d :: rest) k σ = syncLoop rest k σ := by
  have h2 : IsDynamicInputPin (some (σ.pin d)) = false := h
  simp [syncLoop, h2]

theorem syncStep_spec (σ : PinStore) (d k : Nat)
    (hdyn : isDynamic σ.pin d = true)
    (hpar : ∀ q ∈ (σ.pin d).SubPins, (σ.pin q).ParentPin = some d)
    (hnd : (σ.pin d).SubPins.Nodup) :
    (∀ q, withoutNames ((syncStep σ d k).pin q) = withoutNames (σ.pin q))
    ∧ ((syncStep σ d k).pin d).PinName = GetPinName k
    ∧ (∀ q ∈ (σ.pin d).SubPins,
        (syncStep σ d k).pin q = renamedSubPin (σ.pin d).PinName (GetPinName k) (σ.pin q))
    ∧ (∀ q, q ≠ d → q ∉ (σ.pin d).SubPins → (syncStep σ d k).pin q = σ.pin q) := by
  have hself : d ∉ (σ.pin d).SubPins := by
    intro hin
    have h1 := hpar d hin
    rw [isDynamic_parent σ.pin d hdyn] at h1
    exact Option.noConfusion h1
  have hval : ∀ q, (syncStep σ d k).pin q
      = if q ∈ (σ.pin d).SubPins then
          renamedSubPin (σ.pin d).PinName (GetPinName k)
            ((setPin σ d { σ.pin d with PinName := GetPinName k }).pin q)
        else (setPin σ d { σ.pin d with PinName := GetPinName k }).pin q := by
    intro q
    exact foldl_renameSubPin _ _ _ _ hnd q
  refine ⟨?_, ?_, ?_, ?_⟩
  · intro q
    rw [hval q]
    by_cases hq : q ∈ (σ.pin d).SubPins
    · have hne : q ≠ d := fun e => hself (e ▸ hq)
      simp [hq, setPin, hne, renamedSubPin, withoutNames]
    · by_cases hqd : q = d
      · subst hqd; simp [hq, setPin, withoutNames]
      · simp [hq, setPin, hqd]
  · rw [hval d]; simp [hself, setPin]
  · intro q hq
    have hne : q ≠ d := fun e => hself (e ▸ hq)
    rw [hval q]; simp [hq, setPin, hne]
  · intro q hqd hq
    rw [hval q]; simp [hq, setPin, hqd]

theorem syncLoop_spec (l : List Nat) :
    ∀ (k : Nat) (σ : PinStore), l.Nodup →
      (∀ p ∈ l, ∀ q ∈ (σ.pin p).SubPins, (σ.pin q).ParentPin = some p) →
      (∀ p ∈ l, (σ.pin p).SubPins.Nodup) →
      (∀ q, withoutNames ((syncLoop l k σ).pin q) = withoutNames (σ.pin q))
      ∧ (∀ i d, (l.filter (isDynamic σ.pin))[i]? = some d →
          ((syncLoop l k σ).pin d).PinName = GetPinName ((k + i : Nat) : Int))
      ∧ (∀ q, q ∉ l.filter (isDynamic σ.pin) →
          (∀ d ∈ l.filter (isDynamic σ.pin), q ∉ (σ.pin d).SubPins) →
          (syncLoop l k σ).pin q = σ.pin q)
      ∧ (∀ i d q, (l.filter (isDynamic σ.pin))[i]? = some d → q ∈ (σ.pin d).SubPins →
          (syncLoop l k σ).pin q
            = renamedSubPin (σ.pin d).PinName (GetPinName ((k + i : Nat) : Int)) (σ.pin q)) := by
  induction l with
  | nil =>
    intro k σ _ _ _
    simp [syncLoop]
  | cons d rest ih =>
    intro k σ hnd hpar hsub
    obtain ⟨hd, hrest⟩ := List.nodup_cons.mp hnd
    have hpar_rest : ∀ p ∈ rest, ∀ q ∈ (σ.pin p).SubPins, (σ.pin q).ParentPin = some p :=
      fun p hp => hpar p (List.mem_cons_of_mem _ hp)
    have hsub_rest : ∀ p ∈ rest, (σ.pin p).SubPins.Nodup :=
      fun p hp => hsub p (List.mem_cons_of_mem _ hp)
    by_cases hdyn : isDynamic σ.pin d = true
    · -- the head is a dynamic pin and becomes slot `k`
      obtain ⟨s1, s2, s3, s4⟩ := syncStep_spec σ d k hdyn
        (hpar d (List.mem_cons_self _ _)) (hsub d (List.mem_cons_self _ _))
      have hfil : rest.filter (isDynamic (syncStep σ d k).pin) = rest.filter (isDynamic σ.pin) :=
        filter_isDynamic_congr _ _ s1 rest
      have hsp : ∀ q, ((syncStep σ d k).pin q).SubPins = (σ.pin q).SubPins :=
        fun q => subPins_congr _ _ (s1 q)
      have hpp : ∀ q, ((syncStep σ d k).pin q).ParentPin = (σ.pin q).ParentPin :=
        fun q => parentPin_congr _ _ (s1 q)
      obtain ⟨a1, a2, a3, a4⟩ := ih (k + 1) (syncStep σ d k) hrest
        (by
          intro p hp q hq
          rw [hpp]; rw [hsp] at hq
          exact hpar_rest p hp q hq)
        (by
          intro p hp
          rw [hsp]; exact hsub_rest p hp)
      rw [hfil] at a2 a3 a4
      rw [syncLoop_cons_dynamic σ d k rest hdyn]
      have hflt : (d :: rest).filter (isDynamic σ.pin) = d :: rest.filter (isDynamic σ.pin) := by
        simp [List.filter_cons, hdyn]
      rw [hflt]
      have hdpar : (σ.pin d).ParentPin = none := isDynamic_parent σ.pin d hdyn
      -- a dynamic pin is no sub-pin of a pin of the list
      have hnosub : ∀ x, isDynamic σ.pin x = true → ∀ p ∈ d :: rest, x ∉ (σ.pin p).SubPins := by
        intro x hx p hp hin
        have h1 := hpar p hp x hin
        rw [isDynamic_parent σ.pin x hx] at h1
        exact Option.noConfusion h1
      have hmemrest : ∀ x, x ∈ rest.filter (isDynamic σ.pin) → x ∈ rest ∧ isDynamic σ.pin x = true :=
        fun x hx => List.mem_filter.mp hx
      refine ⟨?_, ?_, ?_, ?_⟩
      · intro q
        rw [a1 q, s1 q]
      · intro i x hix
        cases i with
        | zero =>
          have hx : x = d := by simpa using hix.symm
          subst hx
          rw [a3 x (fun hin => hd (hmemrest x hin).1)
            (fun e he => by
              rw [hsp]
              exact hnosub x hdyn e (List.mem_cons_of_mem _ (hmemrest e he).1))]
          simpa using s2
        | succ j =>
          have hjx : (rest.filter (isDynamic σ.pin))[j]? = some x := by simpa using hix
          have := a2 j x hjx
          rw [this]
          congr 2
          omega
      · intro q hq hqsub
        have hqd : q ≠ d := fun e => hq (e ▸ List.mem_cons_self _ _)
        have hq1 : q ∉ (σ.pin d).SubPins := hqsub d (List.mem_cons_self _ _)
        rw [a3 q (fun hin => hq (List.mem_cons_of_mem _ hin))
          (fun e he => by rw [hsp]; exact hqsub e (List.mem_cons_of_mem _ he))]
        exact s4 q hqd hq1
      · intro i x q hix hqx
        cases i with
        | zero =>
          have hx : x = d := by simpa using hix.symm
          subst hx
          have hqpar : (σ.pin q).ParentPin = some x := hpar x (List.mem_cons_self _ _) q hqx
          rw [a3 q
            (fun hin => by
              have h1 := isDynamic_parent σ.pin q (hmemrest q hin).2
              rw [hqpar] at h1
              exact Option.noConfusion h1)
            (fun e he hin => by
              rw [hsp] at hin
              have h1 := hpar e (List.mem_cons_of_mem _ (hmemrest e he).1) q hin
              rw [hqpar] at h1
              have : x = e := Option.some.inj h1
              exact hd (this ▸ (hmemrest e he).1))]
          simpa using s3 q hqx
        | succ j =>
          have hjx : (rest.filter (isDynamic σ.pin))[j]? = some x := by simpa using hix
          have hxmem : x ∈ rest.filter (isDynamic σ.pin) := List.getElem?_mem hjx
          obtain ⟨hxrest, hxdyn⟩ := hmemrest x hxmem
          have hxd : x ≠ d := fun e => hd (e ▸ hxrest)
          have hqpar : (σ.pin q).ParentPin = some x := hpar_rest x hxrest q hqx
          have hx_eq : (syncStep σ d k).pin x = σ.pin x :=
            s4 x hxd (hnosub x hxdyn d (List.mem_cons_self _ _))
          have hqd : q ≠ d := by
            intro e
            rw [e, hdpar] at hqpar
            exact Option.noConfusion hqpar
          have hq_eq : (syncStep σ d k).pin q = σ.pin q := by
            apply s4 q hqd
            intro hin
            have h1 := hpar d (List.mem_cons_self _ _) q hin
            rw [hqpar] at h1
            exact hxd (Option.some.inj h1)
          have := a4 j x q hjx (by rw [hsp]; exact hqx)
          rw [this, hx_eq, hq_eq]
          congr 3
          omega
    · -- the head is not a dynamic pin and is skipped
      have hdyn2 : isDynamic σ.pin d = false := by simpa using hdyn
      obtain ⟨a1, a2, a3, a4⟩ := ih k σ hrest hpar_rest hsub_rest
      rw [syncLoop_cons_static σ d k rest hdyn2]
      have hflt : (d :: rest).filter (isDynamic σ.pin) = rest.filter (isDynamic σ.pin) := by
        simp [List.filter_cons, hdyn2]
      rw [hflt]
      exact ⟨a1, a2, a3, a4⟩

theorem syncLoop_fixed (l : List Nat) :
    ∀ (k : Nat) (σ : PinStore),
      (∀ i d, (l.filter (isDynamic σ.pin))[i]? = some d →
          (σ.pin d).PinName = GetPinName ((k + i : Nat) : Int)) →
      syncLoop l k σ = σ := by
  induction l with
  | nil => intro k σ _; simp [syncLoop]
  | cons d rest ih =>
    intro k σ h
    by_cases hdyn : isDynamic σ.pin d = true
    · have hflt : (d :: rest).filter (isDynamic σ.pin) = d :: rest.filter (isDynamic σ.pin) := by
        simp [List.filter_cons, hdyn]
      rw [hflt] at h
      have hname : (σ.pin d).PinName = GetPinName (k : Int) := by
        have := h 0 d (by simp)
        simpa using this
      have hstep : syncStep σ d k = σ := by
        have hset : setPin σ d { σ.pin d with PinName := GetPinName (k : Int) } = σ := by
          have : ({ σ.pin d with PinName := GetPinName (k : Int) } : UEdGraphPin) = σ.pin d := by
            rw [← hname]
          rw [this]; exact setPin_self_eq σ d
        have hid : ∀ (pn : PinStore) (q : Nat),
            renameSubPin (GetPinName (k : Int)) (GetPinName (k : Int))
              (InsertAt (GetPinName (k : Int)) 1 " ") (InsertAt (GetPinName (k : Int)) 1 " ")
              pn q = pn := by
          intro pn q
          simp only [renameSubPin]
          rw [Replace_same _ _ (GetPinName_caseless k),
            Replace_same _ _ (InsertAt_space_caseless _ (GetPinName_caseless k))]
          exact setPin_self_eq pn q
        have hfold : ∀ (L : List Nat) (pn : PinStore),
            L.foldl (renameSubPin (GetPinName (k : Int)) (GetPinName (k : Int))
              (InsertAt (GetPinName (k : Int)) 1 " ") (InsertAt (GetPinName (k : Int)) 1 " "))
              pn = pn := by
          intro L
          induction L with
          | nil => intro pn; rfl
          | cons x xs ihx => intro pn; rw [List.foldl_cons, hid, ihx]
        simp only [syncStep]
        rw [hname, hset]
        exact hfold _ _
      rw [syncLoop_cons_dynamic σ d k rest hdyn, hstep]
      apply ih (k + 1) σ
      intro i x hix
      have := h (i + 1) x (by simpa using hix)
      rw [this]
      congr 2
      omega
    · have hdyn2 : isDynamic σ.pin d = false := by simpa using hdyn
      have hflt : (d :: rest).filter (isDynamic σ.pin) = rest.filter (isDynamic σ.pin) := by
        simp [List.filter_cons, hdyn2]
      rw [hflt] at h
      rw [syncLoop_cons_static σ d k rest hdyn2]
      exact ih k σ h

theorem foldl_renameSubPin_nextPin (a b c d : String) (L : List Nat) :
    ∀ (σ : PinStore), (L.foldl (renameSubPin a b c d) σ).nextPin = σ.nextPin := by
  induction L with
  | nil => intro σ; rfl
  | cons x xs ih => intro σ; rw [List.foldl_cons, ih]; rfl

theorem syncLoop_nextPin (l : List Nat) :
    ∀ (k : Nat) (σ : PinStore), (syncLoop l k σ).nextPin = σ.nextPin := by
  induction l with
  | nil => intro k σ; rfl
  | cons d rest ih =>
    intro k σ
    simp only [syncLoop]
    split_ifs
    · rw [ih, foldl_renameSubPin_nextPin]; rfl
    · rw [ih]; rfl
    · exact ih _ _

/-- C9. `SyncPinNames` renumbers the slots and nothing else.  For every pin list that
satisfies the editor's object-graph conditions (`WellFormed`): the node, and with it the list
`Pins` (same length, same pins, same order), is unchanged; no pin changes anything but its
names, so the same pins satisfy `IsDynamicInputPin`; the `k`-th pin satisfying
`IsDynamicInputPin` (in `Pins` order, `k` from 0) is named `"[k]"`; every pin that is
neither a dynamic input pin nor a sub-pin of one is left as it was; every sub-pin of a
dynamic pin has each occurrence of the parent's old name in its own name replaced by the
parent's new name; and running `SyncPinNames` a second time changes nothing. -/
theorem SyncPinNames_renumbers (s : State) (hwf : WellFormed s) :
    (SyncPinNames s).node = s.node
    ∧ (SyncPinNames s).node.Pins = s.node.Pins
    ∧ (SyncPinNames s).node.Pins.length = s.node.Pins.length
    ∧ (∀ q, withoutNames ((SyncPinNames s).store.pin q) = withoutNames (s.store.pin q))
    ∧ dynamicPins (SyncPinNames s) = dynamicPins s
    ∧ (∀ (k d : Nat), (dynamicPins s)[k]? = some d →
        ((SyncPinNames s).store.pin d).PinName = GetPinName k
        ∧ ((SyncPinNames s).store.pin d).PinName = "[" ++ toString k ++ "]")
    ∧ (∀ q, q ∉ dynamicPins s → (∀ d ∈ dynamicPins s, q ∉ (s.store.pin d).SubPins) →
        (SyncPinNames s).store.pin q = s.store.pin q)
    ∧ (∀ (k d q : Nat), (dynamicPins s)[k]? = some d → q ∈ (s.store.pin d).SubPins →
        ((SyncPinNames s).store.pin q).PinName
          = Replace (s.store.pin q).PinName (s.store.pin d).PinName
              ((SyncPinNames s).store.pin d).PinName)
    ∧ (∀ (k d q : Nat), (dynamicPins s)[k]? = some d → q ∈ (s.store.pin d).SubPins →
        EachOccurrenceReplaced (s.store.pin d).PinName.data
          ((SyncPinNames s).store.pin d).PinName.data
          (s.store.pin q).PinName.data ((SyncPinNames s).store.pin q).PinName.data)
    ∧ SyncPinNames (SyncPinNames s) = SyncPinNames s := by
  obtain ⟨hnd, hpar, hsub⟩ := hwf
  obtain ⟨a1, a2, a3, a4⟩ := syncLoop_spec s.node.Pins 0 s.store hnd hpar hsub
  have hdyn : dynamicPins (SyncPinNames s) = dynamicPins s :=
    filter_isDynamic_congr _ _ a1 s.node.Pins
  have hname : ∀ (k d : Nat), (dynamicPins s)[k]? = some d →
      ((SyncPinNames s).store.pin d).PinName = GetPinName k := by
    intro k d hk
    have := a2 k d hk
    simpa [SyncPinNames] using this
  have hsub : ∀ (k d q : Nat), (dynamicPins s)[k]? = some d → q ∈ (s.store.pin d).SubPins →
      ((SyncPinNames s).store.pin q).PinName
        = Replace (s.store.pin q).PinName (s.store.pin d).PinName
            ((SyncPinNames s).store.pin d).PinName := by
    intro k d q hk hq
    rw [hname k d hk]
    have := a4 k d q hk hq
    have h2 : (SyncPinNames s).store.pin q
        = renamedSubPin (s.store.pin d).PinName (GetPinName k) (s.store.pin q) := by
      simpa [SyncPinNames] using this
    rw [h2]; rfl
  refine ⟨rfl, rfl, rfl, a1, hdyn, ?_, a3, hsub, ?_, ?_⟩
  · intro k d hk
    exact ⟨hname k d hk, by rw [hname k d hk]; rfl⟩
  · intro k d q hk hq
    rw [hsub k d q hk hq]
    exact Replace_spec _ _ _
  · have hfix : syncLoop (SyncPinNames s).node.Pins 0 (SyncPinNames s).store
        = (SyncPinNames s).store := by
      apply syncLoop_fixed
      intro i d hid
      have hid2 : (dynamicPins s)[i]? = some d := by
        rw [← hdyn]; exact hid
      rw [hname i d hid2]; simp
    show ({ SyncPinNames s with
        store := syncLoop (SyncPinNames s).node.Pins 0 (SyncPinNames s).store } : State)
      = SyncPinNames s
    rw [hfix]

/-- Witness for C9: on `splitState`, which is well formed, the split token pin `"[3]"`
becomes slot 0, its sub-pin `"[3]_Text"` is renamed to `"[0]_Text"`, the second token pin
`"[7]"` becomes `"[1]"`, and a second run changes nothing. -/
theorem SyncPinNames_renumbers_witness :
    WellFormed splitState
    ∧ (splitState.node.Pins.map (fun p => (splitState.store.pin p).PinName)
        = ["execute", "[3]", "[3]_Text", "[7]"]
      ∧ (SyncPinNames splitState).node.Pins.map
          (fun p => ((SyncPinNames splitState).store.pin p).PinName)
        = ["execute", "[0]", "[0]_Text", "[1]"])
    ∧ EachOccurrenceReplaced "[3]".data "[0]".data "[3]_Text".data "[0]_Text".data
    ∧ SyncPinNames (SyncPinNames splitState) = SyncPinNames splitState :=
  have hwf : WellFormed splitState := by unfold WellFormed; decide
  ⟨hwf, ⟨by decide, by decide⟩,
   (SyncPinNames_renumbers splitState hwf).2.2.2.2.2.2.2.2.1 0 1 2 (by decide) (by decide),
   (SyncPinNames_renumbers splitState hwf).2.2.2.2.2.2.2.2.2⟩

/-! ## RemoveInputPin -/

theorem Find_erase (l : List Nat) (p : Nat) :
    (match Find l p with
      | some i => l.eraseIdx i
      | none => l) = l.erase p := by
  induction l with
  | nil => simp [Find]
  | cons q qs ih =>
    by_cases h : q = p
    · subst h; simp [Find]
    · have hb : (q == p) = false := by simpa using h
      simp only [Find, h, if_false, List.erase_cons, hb]
      cases hf : Find qs p with
      | none => rw [hf] at ih; simp [← ih]
      | some i => rw [hf] at ih; simp [← ih]

theorem Find_mem (l : List Nat) (p : Nat) : (Find l p).isSome = true ↔ p ∈ l := by
  induction l with
  | nil => simp [Find]
  | cons q qs ih =>
    by_cases h : q = p
    · subst h; simp [Find]
    · have h2 : p ≠ q := fun e => h e.symm
      simp only [Find, h, if_false, List.mem_cons, h2, false_or]
      rw [← ih]
      cases Find qs p <;> simp

theorem InSubPinTree_iff (sub : Nat → List Nat) (P r : Nat) :
    InSubPinTree sub P r ↔ r = P ∨ ∃ q ∈ sub P, InSubPinTree sub q r := by
  constructor
  · intro h
    cases h with
    | self => exact Or.inl rfl
    | sub hq hr => exact Or.inr ⟨_, hq, hr⟩
  · rintro (rfl | ⟨q, hq, hr⟩)
    · exact InSubPinTree.self _
    · exact InSubPinTree.sub hq hr

theorem removeSubPins_spec (sub : Nat → List Nat)
    (body : Nat → PinStore × List Nat → Option (PinStore × List Nat))
    (L : List Nat) :
    (∀ q ∈ L, ∀ st : PinStore × List Nat,
        (∀ x, (st.1.pin x).SubPins = sub x) → st.2.Nodup →
        ∃ st1, body q st = some st1
          ∧ (∀ x, withoutTrash (st1.1.pin x) = withoutTrash (st.1.pin x))
          ∧ (∀ x, x ∈ st1.2 → st1.1.pin x = st.1.pin x)
          ∧ st1.2.Sublist st.2
          ∧ ∀ r, r ∈ st1.2 ↔ r ∈ st.2 ∧ ¬ InSubPinTree sub q r) →
    ∀ st : PinStore × List Nat,
      (∀ x, (st.1.pin x).SubPins = sub x) → st.2.Nodup →
      ∃ st1, removeSubPins body L st = some st1
        ∧ (∀ x, withoutTrash (st1.1.pin x) = withoutTrash (st.1.pin x))
        ∧ (∀ x, x ∈ st1.2 → st1.1.pin x = st.1.pin x)
        ∧ st1.2.Sublist st.2
        ∧ ∀ r, r ∈ st1.2 ↔ r ∈ st.2 ∧ ¬ ∃ q ∈ L, InSubPinTree sub q r := by
  induction L with
  | nil =>
    intro _ st _ _
    exact ⟨st, rfl, fun _ => rfl, fun _ _ => rfl, List.Sublist.refl _, by simp⟩
  | cons q qs ih =>
    intro hbody st hsub hnd
    obtain ⟨st1, e1, t1, k1, sl1, m1⟩ := hbody q (List.mem_cons_self _ _) st hsub hnd
    have hsub1 : ∀ x, (st1.1.pin x).SubPins = sub x := by
      intro x
      have := congrArg UEdGraphPin.SubPins (t1 x)
      have h2 : (st1.1.pin x).SubPins = (st.1.pin x).SubPins := this
      rw [h2, hsub x]
    obtain ⟨st2, e2, t2, k2, sl2, m2⟩ :=
      ih (fun x hx => hbody x (List.mem_cons_of_mem _ hx)) st1 hsub1 (hnd.sublist sl1)
    refine ⟨st2, ?_, ?_, ?_, sl2.trans sl1, ?_⟩
    · simp [removeSubPins, e1, e2]
    · intro x; rw [t2 x, t1 x]
    · intro x hx
      rw [k2 x hx, k1 x (sl2.subset hx)]
    · intro r
      rw [m2 r, m1 r]
      constructor
      · rintro ⟨⟨h1, h2⟩, h3⟩
        refine ⟨h1, ?_⟩
        rintro ⟨x, hx, hxr⟩
        rcases List.mem_cons.mp hx with rfl | hx
        · exact h2 hxr
        · exact h3 ⟨x, hx, hxr⟩
      · rintro ⟨h1, h2⟩
        exact ⟨⟨h1, fun h => h2 ⟨q, List.mem_cons_self _ _, h⟩⟩,
          fun ⟨x, hx, hxr⟩ => h2 ⟨x, List.mem_cons_of_mem _ hx, hxr⟩⟩

theorem RemovePinLambda_spec (sub : Nat → List Nat) (rank : Nat → Nat)
    (hrank : ∀ p, ∀ q ∈ sub p, rank q < rank p) (fuel : Nat) :
    ∀ (P : Nat) (st : PinStore × List Nat), rank P < fuel →
      (∀ x, (st.1.pin x).SubPins = sub x) → st.2.Nodup →
      ∃ st1, RemovePinLambda fuel P st = some st1
        ∧ (∀ x, withoutTrash (st1.1.pin x) = withoutTrash (st.1.pin x))
        ∧ (∀ x, x ∈ st1.2 → st1.1.pin x = st.1.pin x)
        ∧ st1.2.Sublist st.2
        ∧ ∀ r, r ∈ st1.2 ↔ r ∈ st.2 ∧ ¬ InSubPinTree sub P r := by
  induction fuel with
  | zero => intro P st h; exact absurd h (Nat.not_lt_zero _)
  | succ fuel ih =>
    intro P st hP hsub hnd
    have hbody : ∀ q ∈ (st.1.pin P).SubPins.reverse, ∀ st0 : PinStore × List Nat,
        (∀ x, (st0.1.pin x).SubPins = sub x) → st0.2.Nodup →
        ∃ st1, RemovePinLambda fuel q st0 = some st1
          ∧ (∀ x, withoutTrash (st1.1.pin x) = withoutTrash (st0.1.pin x))
          ∧ (∀ x, x ∈ st1.2 → st1.1.pin x = st0.1.pin x)
          ∧ st1.2.Sublist st0.2
          ∧ ∀ r, r ∈ st1.2 ↔ r ∈ st0.2 ∧ ¬ InSubPinTree sub q r := by
      intro q hq st0 h1 h2
      have hq2 : q ∈ sub P := by
        rw [← hsub P]; exact List.mem_reverse.mp hq
      exact ih q st0 (by have := hrank P q hq2; omega) h1 h2
    obtain ⟨st1, e1, t1, k1, sl1, m1⟩ :=
      removeSubPins_spec sub (RemovePinLambda fuel) _ hbody st hsub hnd
    have hnd1 : st1.2.Nodup := hnd.sublist sl1
    have hres : RemovePinLambda (fuel + 1) P st
        = some (match Find st1.2 P with
            | some _ => MarkAsGarbage st1.1 P
            | none => st1.1, st1.2.erase P) := by
      rw [← Find_erase]
      simp only [RemovePinLambda, e1]
      cases Find st1.2 P <;> rfl
    refine ⟨_, hres, ?_, ?_, ?_, ?_⟩
    · intro x
      rw [← t1 x]
      cases Find st1.2 P with
      | none => rfl
      | some i =>
        by_cases hx : x = P
        · subst hx; simp [MarkAsGarbage, setPin, withoutTrash]
        · simp [MarkAsGarbage, setPin, hx]
    · intro x hx
      have hx2 : x ∈ st1.2 := List.mem_of_mem_erase hx
      have hxP : x ≠ P := by
        intro e
        subst e
        exact (List.Nodup.mem_erase_iff hnd1).mp hx |>.1 rfl
      rw [← k1 x hx2]
      cases Find st1.2 P with
      | none => rfl
      | some i => simp [MarkAsGarbage, setPin, hxP]
    · exact (List.erase_sublist _ _).trans sl1
    · intro r
      show r ∈ st1.2.erase P ↔ _
      rw [List.Nodup.mem_erase_iff hnd1, m1 r, InSubPinTree_iff sub P r]
      have hrev : (∃ q ∈ (st.1.pin P).SubPins.reverse, InSubPinTree sub q r)
          ↔ ∃ q ∈ sub P, InSubPinTree sub q r := by
        rw [hsub P]
        simp only [List.mem_reverse]
      rw [hrev]
      constructor
      · rintro ⟨h1, h2, h3⟩
        exact ⟨h2, fun h => h.elim h1 h3⟩
      · rintro ⟨h2, h3⟩
        exact ⟨fun e => h3 (Or.inl e), h2, fun e => h3 (Or.inr e)⟩

/-- C2. `RemoveInputPin` removes exactly the chosen slot.  For every node state whose
`Pins` holds no address twice and whose sub-pin arrays form a finite tree (`rank` decreases
along `SubPins`), and every top-level input pin `P`: with enough fuel for the depth of the
tree the call returns; afterwards `Pins` is the old list with `P` and every pin of the
sub-pin tree of `P` deleted (a sublist of the old list, so the other pins keep their
relative order, whose members are exactly the old members outside the tree); and
`NumInputs` is the old `NumInputs` minus 1. -/
theorem RemoveInputPin_removes_slot (fuel : Nat) (s : State) (P : Nat) (rank : Nat → Nat)
    (hdir : (s.store.pin P).Direction = EEdGraphPinDirection.EGPD_Input)
    (htop : (s.store.pin P).ParentPin = none)
    (hnd : s.node.Pins.Nodup)
    (hrank : ∀ p, ∀ q ∈ (s.store.pin p).SubPins, rank q < rank p)
    (hfuel : rank P < fuel)
    (hmin : INT32_MIN < s.node.NumInputs) (hmax : s.node.NumInputs ≤ INT32_MAX) :
    ∃ s1 : State, RemoveInputPin fuel s P = some s1
      ∧ s1.node.Pins.Sublist s.node.Pins
      ∧ (∀ r, r ∈ s1.node.Pins ↔
          r ∈ s.node.Pins ∧ ¬ InSubPinTree (fun q => (s.store.pin q).SubPins) P r)
      ∧ P ∉ s1.node.Pins
      ∧ s1.node.NumInputs = s.node.NumInputs - 1 := by
  obtain ⟨st1, e1, _, _, sl1, m1⟩ :=
    RemovePinLambda_spec (fun q => (s.store.pin q).SubPins) rank hrank fuel P
      (s.store, s.node.Pins) hfuel (fun _ => rfl) hnd
  have hw : wrapInt32 (s.node.NumInputs - 1) = s.node.NumInputs - 1 := by
    apply wrapInt32_of_range
    · unfold INT32_MIN at *; omega
    · unfold INT32_MAX at *; omega
  have hres : RemoveInputPin fuel s P = some
      { SyncPinNames
          { s with
            store := st1.1
            node := { s.node with
              Pins := st1.2, NumInputs := wrapInt32 (s.node.NumInputs - 1) } } with
        structurallyModified := s.structurallyModified + 1 } := by
    simp only [RemoveInputPin, hdir, htop, e1]
    simp only [ne_eq, not_true_eq_false, if_false]
    rfl
  refine ⟨_, hres, ?_, ?_, ?_, ?_⟩
  · exact sl1
  · exact m1
  · intro h
    exact ((m1 P).mp h).2 (InSubPinTree.self P)
  · show wrapInt32 (s.node.NumInputs - 1) = s.node.NumInputs - 1
    exact hw

/-- Witness for C2: removing the split token pin 1 of `splitState` with fuel 2. -/
theorem RemoveInputPin_removes_slot_witness :
    ∃ s1 : State, RemoveInputPin 2 splitState 1 = some s1
      ∧ s1.node.Pins.Sublist splitState.node.Pins
      ∧ (∀ r, r ∈ s1.node.Pins ↔
          r ∈ splitState.node.Pins
            ∧ ¬ InSubPinTree (fun q => (splitState.store.pin q).SubPins) 1 r)
      ∧ 1 ∉ s1.node.Pins
      ∧ s1.node.NumInputs = splitState.node.NumInputs - 1 :=
  RemoveInputPin_removes_slot 2 splitState 1 (fun q => if q = 1 then 1 else 0)
    (by decide) (by decide) (by decide)
    (by
      intro p q hq
      rcases p with _ | _ | _ | _ | p <;> simp [splitState, mkPin] at hq
      subst hq
      decide)
    (by decide) (by decide) (by decide)

/-! ## GetPinName is injective -/

theorem decimalValue_toDigitsCore (fuel : Nat) :
    ∀ (n : Nat) (ds : List Char), n < fuel →
      (Nat.toDigitsCore 10 fuel n ds).foldl (fun a c => 10 * a + (c.toNat - 48)) 0
        = ds.foldl (fun a c => 10 * a + (c.toNat - 48)) n := by
  induction fuel with
  | zero => intro n ds h; exact absurd h (Nat.not_lt_zero _)
  | succ f ih =>
    intro n ds hn
    have hdig : ∀ d, d < 10 → (Nat.digitChar d).toNat - 48 = d := by decide
    have hd := hdig (n % 10) (Nat.mod_lt _ (by decide))
    simp only [Nat.toDigitsCore]
    split_ifs with h0
    · simp only [List.foldl_cons, hd]
      congr 1
      omega
    · rw [ih (n / 10) _ (by omega)]
      simp only [List.foldl_cons, hd]
      congr 1
      omega

theorem decimalValue_toDigits (n : Nat) : decimalValue (Nat.toDigits 10 n) = n := by
  unfold decimalValue Nat.toDigits
  rw [decimalValue_toDigitsCore (n + 1) n [] (Nat.lt_succ_self n)]
  rfl

theorem GetPinName_injective (a b : Nat) (h : GetPinName (a : Int) = GetPinName (b : Int)) :
    a = b := by
  have hd := congrArg String.data h
  rw [GetPinName_data, GetPinName_data] at hd
  have h2 : Nat.toDigits 10 a ++ [']'] = Nat.toDigits 10 b ++ [']'] := (List.cons.inj hd).2
  have h3 : Nat.toDigits 10 a = Nat.toDigits 10 b := List.append_cancel_right h2
  have := congrArg decimalValue h3
  rwa [decimalValue_toDigits, decimalValue_toDigits] at this

/-! ## The slot-count invariant -/

theorem createDeclaredPins_content (ds : List PinDecl) :
    ∀ (σ : PinStore) (n : UK2Node) (p : Nat), σ.nextPin ≤ p → p < σ.nextPin + ds.length →
      ∃ d ∈ ds, (createDeclaredPins ds σ n).1.pin p = declaredPin d := by
  induction ds with
  | nil => intro σ n p h1 h2; simp at h2; omega
  | cons d ds ih =>
    intro σ n p h1 h2
    simp only [createDeclaredPins]
    by_cases hp : p = σ.nextPin
    · refine ⟨d, List.mem_cons_self _ _, ?_⟩
      have hfr := (createDeclaredPins_spec ds
        (CreatePin σ n d.Direction d.PinCategory d.PinSubCategory d.PinSubCategoryObject
          d.PinName d.PinParams).1
        (CreatePin σ n d.Direction d.PinCategory d.PinSubCategory d.PinSubCategoryObject
          d.PinName d.PinParams).2.1).2.2.2.2.2 p (by simp [CreatePin]; omega)
      rw [hfr, hp]
      simp [CreatePin, setPin, declaredPin]
    · obtain ⟨e, he, hpe⟩ := ih
        (CreatePin σ n d.Direction d.PinCategory d.PinSubCategory d.PinSubCategoryObject
          d.PinName d.PinParams).1
        (CreatePin σ n d.Direction d.PinCategory d.PinSubCategory d.PinSubCategoryObject
          d.PinName d.PinParams).2.1 p
        (by simp [CreatePin]; omega)
        (by simp [CreatePin] at h2 ⊢; omega)
      exact ⟨e, List.mem_cons_of_mem _ he, hpe⟩

theorem AddInputPin_node (s : State) :
    (AddInputPin s).node
      = { s.node with
          NumInputs := wrapInt32 (s.node.NumInputs + 1)
          Pins := s.node.Pins ++ [s.store.nextPin] } := rfl

theorem AddInputPin_pin (s : State) :
    (AddInputPin s).store.pin
      = (setPin s.store s.store.nextPin
          (tokenPin (wrapInt32 (s.node.NumInputs + 1) - 1))).pin := by
  funext q
  by_cases h : q = s.store.nextPin
  · subst h
    simp [AddInputPin, createTokenPin_eq, SetPinAutogeneratedDefaultValueBasedOnType, setPin,
      tokenPin]
  · simp [AddInputPin, createTokenPin_eq, SetPinAutogeneratedDefaultValueBasedOnType, setPin, h]

theorem AddInputPin_nextPin (s : State) :
    (AddInputPin s).store.nextPin = s.store.nextPin + 1 := rfl

theorem filter_isDynamic_congr_mem (pin1 pin2 : Nat → UEdGraphPin) (l : List Nat)
    (h : ∀ q ∈ l, pin1 q = pin2 q) :
    l.filter (isDynamic pin1) = l.filter (isDynamic pin2) := by
  apply List.filter_congr
  intro q hq
  simp only [isDynamic, h q hq]

theorem isDynamic_MarkAsGarbage (σ : PinStore) (P q : Nat) :
    isDynamic (MarkAsGarbage σ P).pin q = isDynamic σ.pin q := by
  by_cases h : q = P
  · subst h; simp [isDynamic, MarkAsGarbage, setPin, IsDynamicInputPin]
  · simp [isDynamic, MarkAsGarbage, setPin, h]

theorem RemovePinLambda_leaf (fuel P : Nat) (st : PinStore × List Nat)
    (hsub : (st.1.pin P).SubPins = []) (hin : P ∈ st.2) :
    RemovePinLambda (fuel + 1) P st = some (MarkAsGarbage st.1 P, st.2.erase P) := by
  have hf := (Find_mem st.2 P).mpr hin
  have he := Find_erase st.2 P
  simp only [RemovePinLambda, hsub, List.reverse_nil, removeSubPins]
  cases hF : Find st.2 P with
  | none => rw [hF] at hf; simp at hf
  | some i => rw [hF] at he; simp only at he; simp [he]

theorem SlotInvariant_start (F : FunctionPins)
    (hbase : ∀ d ∈ F UK2Node_CreateBlueprintMessage.FunctionReference,
      IsDynamicInputPin (some (declaredPin d)) = false)
    (s0 : State) (h0 : s0.node = UK2Node_CreateBlueprintMessage) :
    SlotInvariant (AllocateDefaultPins F s0) := by
  have hb := createDeclaredPins_spec (F s0.node.FunctionReference) s0.store s0.node
  have hc := createDeclaredPins_content (F s0.node.FunctionReference) s0.store s0.node
  obtain ⟨b1, b2, _, _, b5, _⟩ := hb
  have hn1 : (CallFunction_AllocateDefaultPins F s0.store s0.node).2.NumInputs.toNat = 1 := by
    simp only [CallFunction_AllocateDefaultPins]
    rw [b2, h0]; rfl
  obtain ⟨c1, c2, c3, c4, c5⟩ := allocateLoop_spec 1 0
    (CallFunction_AllocateDefaultPins F s0.store s0.node).1
    (CallFunction_AllocateDefaultPins F s0.store s0.node).2
  simp only [CallFunction_AllocateDefaultPins] at hn1 c1 c2 c3 c4 c5
  rw [b1, b5] at c1
  rw [b2] at c2
  rw [b5] at c3 c4 c5
  have hpins : (AllocateDefaultPins F s0).node.Pins
      = List.range' s0.store.nextPin (F s0.node.FunctionReference).length
        ++ [s0.store.nextPin + (F s0.node.FunctionReference).length] := by
    simp only [AllocateDefaultPins, CallFunction_AllocateDefaultPins, hn1]
    rw [c1, h0]
    simp [UK2Node_CreateBlueprintMessage]
  have hpin : (AllocateDefaultPins F s0).store.pin
      = (allocateLoop 1 0 (createDeclaredPins (F s0.node.FunctionReference) s0.store s0.node).1
          (createDeclaredPins (F s0.node.FunctionReference) s0.store s0.node).2).1.pin := by
    simp only [AllocateDefaultPins, CallFunction_AllocateDefaultPins, hn1]
  have hnext : (AllocateDefaultPins F s0).store.nextPin
      = s0.store.nextPin + (F s0.node.FunctionReference).length + 1 := by
    simp only [AllocateDefaultPins, CallFunction_AllocateDefaultPins, hn1]
    exact c3
  have hnum : (AllocateDefaultPins F s0).node.NumInputs = 1 := by
    simp only [AllocateDefaultPins, CallFunction_AllocateDefaultPins, hn1]
    rw [c2, h0]; rfl
  have hbasepin : ∀ p ∈ List.range' s0.store.nextPin (F s0.node.FunctionReference).length,
      ∃ d ∈ F s0.node.FunctionReference,
        (AllocateDefaultPins F s0).store.pin p = declaredPin d := by
    intro p hp
    have hp2 := List.mem_range'_1.mp hp
    obtain ⟨d, hd, hpd⟩ := hc p hp2.1 hp2.2
    refine ⟨d, hd, ?_⟩
    rw [hpin, c4 p hp2.2, hpd]
  have htok : (AllocateDefaultPins F s0).store.pin
      (s0.store.nextPin + (F s0.node.FunctionReference).length) = tokenPin 0 := by
    rw [hpin]
    have := c5 0 (by decide)
    simpa using this
  have hdyn : dynamicPins (AllocateDefaultPins F s0)
      = [s0.store.nextPin + (F s0.node.FunctionReference).length] := by
    unfold dynamicPins
    rw [hpins, List.filter_append]
    have h1 : (List.range' s0.store.nextPin (F s0.node.FunctionReference).length).filter
        (isDynamic (AllocateDefaultPins F s0).store.pin) = [] := by
      rw [List.filter_eq_nil_iff]
      intro p hp
      obtain ⟨d, hd, hpd⟩ := hbasepin p hp
      simp only [isDynamic, hpd]
      rw [h0] at hd
      rw [hbase d hd]
      simp
    rw [h1]
    simp [List.filter_cons, isDynamic, htok, tokenPin_dynamic]
  refine ⟨?_, ?_, ?_, ?_, ?_, ?_⟩
  · rw [hpins]
    rw [List.nodup_append]
    refine ⟨List.nodup_range' _ _, List.nodup_singleton _, ?_⟩
    intro a ha hb
    have ha2 := List.mem_range'_1.mp ha
    have : a = s0.store.nextPin + (F s0.node.FunctionReference).length := by simpa using hb
    omega
  · intro p hp
    rw [hpins] at hp
    rw [hnext]
    rcases List.mem_append.mp hp with hp | hp
    · have := List.mem_range'_1.mp hp; omega
    · have : p = s0.store.nextPin + (F s0.node.FunctionReference).length := by simpa using hp
      omega
  · intro p hp
    rw [hpins] at hp
    rcases List.mem_append.mp hp with hp | hp
    · obtain ⟨d, _, hpd⟩ := hbasepin p hp
      rw [hpd]; rfl
    · have : p = s0.store.nextPin + (F s0.node.FunctionReference).length := by simpa using hp
      rw [this, htok]; rfl
  · rw [hnum, hdyn]; rfl
  · rw [hnum]; decide
  · intro k d hk
    rw [hdyn] at hk
    cases k with
    | zero =>
      have : d = s0.store.nextPin + (F s0.node.FunctionReference).length := by
        simpa using hk.symm
      rw [this, htok]; rfl
    | succ j => simp at hk

theorem SlotInvariant_add (s : State) (hinv : SlotInvariant s)
    (hmax : s.node.NumInputs < INT32_MAX) : SlotInvariant (AddInputPin s) := by
  obtain ⟨i1, i2, i3, i4, i5, i6⟩ := hinv
  have hw : wrapInt32 (s.node.NumInputs + 1) = s.node.NumInputs + 1 := by
    apply wrapInt32_of_range
    · unfold INT32_MIN; omega
    · unfold INT32_MAX at *; omega
  have hfresh : s.store.nextPin ∉ s.node.Pins := fun hin => Nat.lt_irrefl _ (i2 _ hin)
  have hold : ∀ q ∈ s.node.Pins, (AddInputPin s).store.pin q = s.store.pin q := by
    intro q hq
    rw [AddInputPin_pin]
    exact setPin_other _ _ _ _ (fun e => hfresh (e ▸ hq))
  have hnew : (AddInputPin s).store.pin s.store.nextPin = tokenPin s.node.NumInputs := by
    rw [AddInputPin_pin, setPin_same, hw]
    congr 1
    omega
  have hdyn : dynamicPins (AddInputPin s) = dynamicPins s ++ [s.store.nextPin] := by
    unfold dynamicPins
    rw [AddInputPin_node]
    simp only [List.filter_append]
    rw [filter_isDynamic_congr_mem _ _ _ hold]
    simp [List.filter_cons, isDynamic, hnew, tokenPin_dynamic]
  refine ⟨?_, ?_, ?_, ?_, ?_, ?_⟩
  · rw [AddInputPin_node]
    show (s.node.Pins ++ [s.store.nextPin]).Nodup
    rw [List.nodup_append]
    refine ⟨i1, List.nodup_singleton _, ?_⟩
    intro a ha hb
    have : a = s.store.nextPin := by simpa using hb
    exact hfresh (this ▸ ha)
  · intro p hp
    rw [AddInputPin_node] at hp
    rw [AddInputPin_nextPin]
    rcases List.mem_append.mp hp with hp | hp
    · have := i2 p hp; omega
    · have : p = s.store.nextPin := by simpa using hp
      omega
  · intro p hp
    rw [AddInputPin_node] at hp
    rcases List.mem_append.mp hp with hp | hp
    · rw [hold p hp]; exact i3 p hp
    · have : p = s.store.nextPin := by simpa using hp
      rw [this, hnew]; rfl
  · rw [hdyn, AddInputPin_node]
    show wrapInt32 (s.node.NumInputs + 1) = _
    rw [hw, i4]
    simp
  · rw [AddInputPin_node]
    show wrapInt32 (s.node.NumInputs + 1) ≤ INT32_MAX
    rw [hw]
    unfold INT32_MAX at *; omega
  · intro k d hk
    rw [hdyn] at hk
    by_cases hlt : k < (dynamicPins s).length
    · rw [List.getElem?_append_left hlt] at hk
      have hmem : d ∈ s.node.Pins := (List.mem_filter.mp (List.getElem?_mem hk)).1
      rw [hold d hmem]
      exact i6 k d hk
    · have hge : (dynamicPins s).length ≤ k := Nat.le_of_not_lt hlt
      rw [List.getElem?_append_right hge] at hk
      have hk0 : k - (dynamicPins s).length = 0 := by
        by_contra hne
        have hpos : 0 < k - (dynamicPins s).length := Nat.pos_of_ne_zero hne
        rw [List.getElem?_eq_none (by simp only [List.length_singleton]; omega)] at hk
        exact Option.noConfusion hk
      rw [hk0] at hk
      have hd : d = s.store.nextPin := by simpa using hk.symm
      have hkl : k = (dynamicPins s).length := by omega
      rw [hd, hnew, hkl, ← i4]
      rfl

theorem SlotInvariant_remove (s s1 : State) (P fuel : Nat) (hinv : SlotInvariant s)
    (hin : P ∈ s.node.Pins) (hdynP : IsDynamicInputPin (some (s.store.pin P)) = true)
    (hrem : RemoveInputPin fuel s P = some s1) : SlotInvariant s1 := by
  obtain ⟨i1, i2, i3, i4, i5, i6⟩ := hinv
  have hPdyn : P ∈ dynamicPins s := List.mem_filter.mpr ⟨hin, hdynP⟩
  have hlen : 1 ≤ (dynamicPins s).length := List.length_pos_of_mem hPdyn
  have hw : wrapInt32 (s.node.NumInputs - 1) = s.node.NumInputs - 1 := by
    apply wrapInt32_of_range
    · unfold INT32_MIN; omega
    · unfold INT32_MAX at *; omega
  have hdir : (s.store.pin P).Direction = EEdGraphPinDirection.EGPD_Input := by
    simp only [IsDynamicInputPin, Bool.and_eq_true, beq_iff_eq] at hdynP
    exact hdynP.1.1.1
  have htop : (s.store.pin P).ParentPin = none := isDynamic_parent s.store.pin P hdynP
  cases fuel with
  | zero => simp [RemoveInputPin, hdir, htop, RemovePinLambda] at hrem
  | succ f =>
    have hleaf := RemovePinLambda_leaf f P (s.store, s.node.Pins) (i3 P hin) hin
    have hs1 : s1 =
        { SyncPinNames
            { s with
              store := MarkAsGarbage s.store P
              node := { s.node with
                Pins := s.node.Pins.erase P
                NumInputs := wrapInt32 (s.node.NumInputs - 1) } } with
          structurallyModified := s.structurallyModified + 1 } := by
      simp only [RemoveInputPin, hdir, htop, hleaf] at hrem
      simp only [ne_eq, not_true_eq_false, if_false] at hrem
      exact (Option.some.inj hrem).symm
    have hnd : (s.node.Pins.erase P).Nodup := i1.erase P
    have hsubs : ∀ p ∈ s.node.Pins.erase P, ((MarkAsGarbage s.store P).pin p).SubPins = [] := by
      intro p hp
      have hp2 : p ∈ s.node.Pins := List.mem_of_mem_erase hp
      by_cases h : p = P
      · subst h; simpa [MarkAsGarbage, setPin] using i3 p hp2
      · simpa [MarkAsGarbage, setPin, h] using i3 p hp2
    obtain ⟨a1, a2, _, _⟩ := syncLoop_spec (s.node.Pins.erase P) 0
      (MarkAsGarbage s.store P) hnd
      (by intro p hp q hq; rw [hsubs p hp] at hq; simp at hq)
      (by intro p hp; rw [hsubs p hp]; exact List.nodup_nil)
    have hpins1 : s1.node.Pins = s.node.Pins.erase P := by rw [hs1]; rfl
    have hpin1 : s1.store.pin
        = (syncLoop (s.node.Pins.erase P) 0 (MarkAsGarbage s.store P)).pin := by rw [hs1]; rfl
    have hnum1 : s1.node.NumInputs = wrapInt32 (s.node.NumInputs - 1) := by rw [hs1]; rfl
    have hnext1 : s1.store.nextPin = s.store.nextPin := by
      rw [hs1]
      show (syncLoop (s.node.Pins.erase P) 0 (MarkAsGarbage s.store P)).nextPin = _
      rw [syncLoop_nextPin]; rfl
    have hdyn1 : dynamicPins s1
        = (s.node.Pins.erase P).filter (isDynamic (MarkAsGarbage s.store P).pin) := by
      unfold dynamicPins
      rw [hpins1, hpin1]
      exact filter_isDynamic_congr _ _ a1 _
    have hdyn2 : dynamicPins s1 = (dynamicPins s).erase P := by
      rw [hdyn1]
      have e1 : isDynamic (MarkAsGarbage s.store P).pin = isDynamic s.store.pin :=
        funext fun q => isDynamic_MarkAsGarbage _ _ _
      rw [e1]
      unfold dynamicPins
      rw [List.Nodup.erase_eq_filter i1, List.Nodup.erase_eq_filter (i1.filter _)]
      rw [List.filter_filter, List.filter_filter]
      apply List.filter_congr
      intro x _
      exact Bool.and_comm _ _
    refine ⟨?_, ?_, ?_, ?_, ?_, ?_⟩
    · rw [hpins1]; exact hnd
    · intro p hp
      rw [hpins1] at hp
      rw [hnext1]
      exact i2 p (List.mem_of_mem_erase hp)
    · intro p hp
      rw [hpins1] at hp
      rw [hpin1]
      have := congrArg UEdGraphPin.SubPins (a1 p)
      have h2 : ((syncLoop (s.node.Pins.erase P) 0 (MarkAsGarbage s.store P)).pin p).SubPins
          = ((MarkAsGarbage s.store P).pin p).SubPins := this
      rw [h2]
      exact hsubs p hp
    · rw [hnum1, hw, hdyn2, List.length_erase_of_mem hPdyn, i4]
      omega
    · rw [hnum1, hw]
      omega
    · intro k d hk
      rw [hdyn1] at hk
      rw [hpin1]
      have := a2 k d hk
      simpa using this

theorem SlotInvariant_of_reachable (F : FunctionPins)
    (hbase : ∀ d ∈ F UK2Node_CreateBlueprintMessage.FunctionReference,
      IsDynamicInputPin (some (declaredPin d)) = false)
    (s : State) (hr : Reachable F s) : SlotInvariant s := by
  induction hr with
  | start s0 h0 => exact SlotInvariant_start F hbase s0 h0
  | add s _ hmax ih => exact SlotInvariant_add s ih hmax
  | remove s s1 P fuel _ hin hdyn hrem ih => exact SlotInvariant_remove s s1 P fuel ih hin hdyn hrem

/-- C8. Slot-count invariant.  Let the base function-call pins contain no dynamic input
pin.  In every state reached from a newly constructed node by `AllocateDefaultPins`
followed by any finite sequence of `AddInputPin` and `RemoveInputPin(P)` steps, each `P`
being a pin of the current `Pins` that satisfies `IsDynamicInputPin`: `NumInputs` is
non-negative and equals the number of pins in `Pins` satisfying `IsDynamicInputPin`; the
`k`-th such pin in `Pins` order is named `"[k]"`; so the names of the dynamic pins are
pairwise distinct and are exactly `"[0]"` .. `"[NumInputs-1]"`.  Moreover the removal of any
dynamic pin of such a state returns. -/
theorem slot_count_invariant (F : FunctionPins)
    (hbase : ∀ d ∈ F UK2Node_CreateBlueprintMessage.FunctionReference,
      IsDynamicInputPin (some (declaredPin d)) = false)
    (s : State) (hr : Reachable F s) :
    0 ≤ s.node.NumInputs
    ∧ s.node.NumInputs = ((dynamicPins s).length : Int)
    ∧ (∀ (k d : Nat), (dynamicPins s)[k]? = some d →
        (s.store.pin d).PinName = GetPinName k
        ∧ (s.store.pin d).PinName = "[" ++ toString k ++ "]")
    ∧ ((dynamicPins s).map (fun d => (s.store.pin d).PinName)).Nodup
    ∧ (dynamicPins s).map (fun d => (s.store.pin d).PinName)
        = (List.range s.node.NumInputs.toNat).map (fun k : Nat => GetPinName (k : Int))
    ∧ ∀ P ∈ dynamicPins s, ∃ s1, RemoveInputPin 1 s P = some s1 := by
  obtain ⟨i1, i2, i3, i4, i5, i6⟩ := SlotInvariant_of_reachable F hbase s hr
  have hnames : (dynamicPins s).map (fun d => (s.store.pin d).PinName)
      = (List.range s.node.NumInputs.toNat).map (fun k : Nat => GetPinName (k : Int)) := by
    rw [i4, Int.toNat_ofNat]
    apply List.ext_getElem?
    intro k
    rw [List.getElem?_map, List.getElem?_map]
    by_cases hk : k < (dynamicPins s).length
    · have h1 : (dynamicPins s)[k]? = some ((dynamicPins s)[k]) :=
        List.getElem?_eq_getElem hk
      have h2 : (List.range (dynamicPins s).length)[k]? = some k := by
        rw [List.getElem?_range hk]
      rw [h1, h2]
      simp only [Option.map_some']
      rw [i6 k _ h1]
    · have h1 : (dynamicPins s)[k]? = none := List.getElem?_eq_none (Nat.le_of_not_lt hk)
      have h2 : (List.range (dynamicPins s).length)[k]? = none :=
        List.getElem?_eq_none (by simpa using Nat.le_of_not_lt hk)
      rw [h1, h2]; rfl
  refine ⟨?_, i4, ?_, ?_, hnames, ?_⟩
  · rw [i4]; exact Int.ofNat_nonneg _
  · intro k d hk
    exact ⟨i6 k d hk, by rw [i6 k d hk]; rfl⟩
  · rw [hnames]
    apply List.Nodup.map
    · intro a b hab
      exact GetPinName_injective a b hab
    · exact List.nodup_range _
  · intro P hP
    obtain ⟨hin, hdyn⟩ := List.mem_filter.mp hP
    have hdynP : IsDynamicInputPin (some (s.store.pin P)) = true := hdyn
    have hdir : (s.store.pin P).Direction = EEdGraphPinDirection.EGPD_Input := by
      simp only [IsDynamicInputPin, Bool.and_eq_true, beq_iff_eq] at hdynP
      exact hdynP.1.1.1
    have htop : (s.store.pin P).ParentPin = none := isDynamic_parent s.store.pin P hdynP
    have hleaf := RemovePinLambda_leaf 0 P (s.store, s.node.Pins) (i3 P hin) hin
    simp only [RemoveInputPin, hdir, htop, hleaf]
    simp

/-- Witness for C8: with `sampleFunctionPins` no base pin is dynamic, and the state after
`AllocateDefaultPins` and one `AddInputPin` is reachable; it has two slots. -/
theorem slot_count_invariant_witness :
    (∀ d ∈ sampleFunctionPins UK2Node_CreateBlueprintMessage.FunctionReference,
      IsDynamicInputPin (some (declaredPin d)) = false)
    ∧ (AddInputPin (AllocateDefaultPins sampleFunctionPins freshState)).node.NumInputs
        = ((dynamicPins
            (AddInputPin (AllocateDefaultPins sampleFunctionPins freshState))).length : Int) :=
  ⟨by decide,
   (slot_count_invariant sampleFunctionPins (by decide)
      (AddInputPin (AllocateDefaultPins sampleFunctionPins freshState))
      (Reachable.add _ (Reachable.start freshState rfl) (by decide))).2.1⟩

/-! ## Links: MakeLinkTo, BreakLinkTo, MovePinLinks -/

theorem MakeLinkTo_ident (σ : PinStore) (A : Nat) (ToPin : Option Nat) (q : Nat) :
    ident ((MakeLinkTo σ A ToPin).pin q) = ident (σ.pin q)
    ∧ (MakeLinkTo σ A ToPin).nextPin = σ.nextPin := by
  cases ToPin with
  | none => exact ⟨rfl, rfl⟩
  | some B =>
    simp only [MakeLinkTo]
    split_ifs with h
    · exact ⟨rfl, rfl⟩
    · refine ⟨?_, rfl⟩
      by_cases hB : q = B
      · by_cases hA : q = A
        · subst hB; subst hA; simp [setPin, ident]
        · subst hB; simp [setPin, ident, hA]
      · by_cases hA : q = A
        · subst hA; simp [setPin, ident, hB]
        · simp [setPin, hA, hB]

theorem MakeLinkTo_linked (σ : PinStore) (A B : Nat) (hsym : SymmetricLinks σ) (q x : Nat) :
    Linked (MakeLinkTo σ A (some B)) q x
      ↔ Linked σ q x ∨ (q = A ∧ x = B) ∨ (q = B ∧ x = A) := by
  simp only [MakeLinkTo]
  split_ifs with h
  · have hAB : Linked σ A B := by simpa [Linked] using h
    have hBA : Linked σ B A := hsym A B hAB
    constructor
    · intro h1; exact Or.inl h1
    · rintro (h1 | ⟨rfl, rfl⟩ | ⟨rfl, rfl⟩)
      · exact h1
      · exact hAB
      · exact hBA
  · by_cases hB : q = B
    · by_cases hA : q = A
      · subst hB; subst hA
        simp only [Linked, setPin, if_true, List.mem_append, List.mem_singleton]
        tauto
      · subst hB
        have hA2 : ¬ A = q := fun e => hA e.symm
        simp only [Linked, setPin, if_true, hA, if_false, List.mem_append, List.mem_singleton]
        tauto
    · by_cases hA : q = A
      · subst hA
        simp only [Linked, setPin, hB, if_false, if_true, List.mem_append, List.mem_singleton]
        tauto
      · simp only [Linked, setPin, hB, hA, if_false]
        tauto

theorem BreakLinkTo_ident (σ : PinStore) (A B q : Nat) :
    ident ((BreakLinkTo σ A B).pin q) = ident (σ.pin q)
    ∧ (BreakLinkTo σ A B).nextPin = σ.nextPin := by
  simp only [BreakLinkTo]
  split_ifs with h
  · refine ⟨?_, rfl⟩
    by_cases hB : q = B
    · by_cases hA : q = A
      · subst hB; subst hA; simp [setPin, ident]
      · subst hB; simp [setPin, ident, hA]
    · by_cases hA : q = A
      · subst hA; simp [setPin, ident, hB]
      · simp [setPin, hA, hB]
  · exact ⟨rfl, rfl⟩

theorem BreakLinkTo_linked (σ : PinStore) (A B : Nat) (hsym : SymmetricLinks σ) (q x : Nat) :
    Linked (BreakLinkTo σ A B) q x
      ↔ Linked σ q x ∧ ¬ (q = A ∧ x = B) ∧ ¬ (q = B ∧ x = A) := by
  simp only [BreakLinkTo]
  split_ifs with h
  · by_cases hB : q = B
    · by_cases hA : q = A
      · subst hB; subst hA
        simp only [Linked, setPin, if_true, List.mem_filter, bne_iff_ne, ne_eq]
        tauto
      · subst hB
        simp only [Linked, setPin, if_true, hA, if_false, List.mem_filter, bne_iff_ne, ne_eq]
        tauto
    · by_cases hA : q = A
      · subst hA
        simp only [Linked, setPin, hB, if_false, if_true, List.mem_filter, bne_iff_ne, ne_eq]
        tauto
      · simp only [Linked, setPin, hB, hA, if_false]
        tauto
  · have hAB : ¬ Linked σ A B := by simpa [Linked] using h
    constructor
    · intro h1
      refine ⟨h1, ?_, ?_⟩
      · rintro ⟨rfl, rfl⟩; exact hAB h1
      · rintro ⟨rfl, rfl⟩; exact hAB (hsym _ _ h1)
    · intro h1; exact h1.1

theorem SymmetricLinks_of_iff (τ : PinStore) (R : Nat → Nat → Prop)
    (h : ∀ q x, Linked τ q x ↔ R q x) (hR : ∀ q x, R q x → R x q) : SymmetricLinks τ := by
  intro a b hab
  exact (h b a).mpr (hR a b ((h a b).mp hab))

theorem BreakLinkTo_symmetric (σ : PinStore) (A B : Nat) (hsym : SymmetricLinks σ) :
    SymmetricLinks (BreakLinkTo σ A B) := by
  intro a b hab
  rw [BreakLinkTo_linked σ A B hsym] at hab ⊢
  obtain ⟨h1, h2, h3⟩ := hab
  exact ⟨hsym a b h1, fun ⟨e1, e2⟩ => h3 ⟨e2, e1⟩, fun ⟨e1, e2⟩ => h2 ⟨e2, e1⟩⟩

theorem MakeLinkTo_symmetric (σ : PinStore) (A B : Nat) (hsym : SymmetricLinks σ) :
    SymmetricLinks (MakeLinkTo σ A (some B)) := by
  intro a b hab
  rw [MakeLinkTo_linked σ A B hsym] at hab ⊢
  rcases hab with h1 | ⟨e1, e2⟩ | ⟨e1, e2⟩
  · exact Or.inl (hsym a b h1)
  · exact Or.inr (Or.inr ⟨e2, e1⟩)
  · exact Or.inr (Or.inl ⟨e2, e1⟩)

theorem foldl_BreakLinkTo (A : Nat) (M : List Nat) :
    ∀ σ : PinStore, SymmetricLinks σ →
      SymmetricLinks (M.foldl (fun h ToPin => BreakLinkTo h A ToPin) σ)
      ∧ (M.foldl (fun h ToPin => BreakLinkTo h A ToPin) σ).nextPin = σ.nextPin
      ∧ (∀ q, ident ((M.foldl (fun h ToPin => BreakLinkTo h A ToPin) σ).pin q)
          = ident (σ.pin q))
      ∧ ∀ q x, Linked (M.foldl (fun h ToPin => BreakLinkTo h A ToPin) σ) q x
          ↔ Linked σ q x ∧ ¬ (q = A ∧ x ∈ M) ∧ ¬ (x = A ∧ q ∈ M) := by
  induction M with
  | nil => intro σ hsym; simp [hsym]
  | cons B M ih =>
    intro σ hsym
    obtain ⟨i1, i2, i3, i4⟩ := ih (BreakLinkTo σ A B) (BreakLinkTo_symmetric σ A B hsym)
    simp only [List.foldl_cons]
    refine ⟨i1, ?_, ?_, ?_⟩
    · rw [i2]; exact (BreakLinkTo_ident σ A B 0).2
    · intro q; rw [i3 q]; exact (BreakLinkTo_ident σ A B q).1
    · intro q x
      rw [i4 q x, BreakLinkTo_linked σ A B hsym q x]
      simp only [List.mem_cons]
      tauto

theorem BreakAllPinLinks_spec (σ : PinStore) (A : Nat) (hsym : SymmetricLinks σ) :
    SymmetricLinks (BreakAllPinLinks σ A)
    ∧ (BreakAllPinLinks σ A).nextPin = σ.nextPin
    ∧ (∀ q, ident ((BreakAllPinLinks σ A).pin q) = ident (σ.pin q))
    ∧ ∀ q x, Linked (BreakAllPinLinks σ A) q x ↔ Linked σ q x ∧ q ≠ A ∧ x ≠ A := by
  obtain ⟨i1, i2, i3, i4⟩ := foldl_BreakLinkTo A (σ.pin A).LinkedTo σ hsym
  refine ⟨i1, i2, i3, ?_⟩
  intro q x
  show Linked ((σ.pin A).LinkedTo.foldl (fun h ToPin => BreakLinkTo h A ToPin) σ) q x ↔ _
  rw [i4 q x]
  constructor
  · rintro ⟨h1, h2, h3⟩
    refine ⟨h1, ?_, ?_⟩
    · intro e; subst e; exact h2 ⟨rfl, h1⟩
    · intro e; subst e; exact h3 ⟨rfl, hsym _ _ h1⟩
  · rintro ⟨h1, h2, h3⟩
    exact ⟨h1, fun h => h2 h.1, fun h => h3 h.1⟩

theorem foldl_MakeLinkTo (can : UEdGraphPin → UEdGraphPin → Bool) (D : Nat) (M : List Nat) :
    ∀ (σ : PinStore) (b : Bool), SymmetricLinks σ →
      ∃ K : List Nat,
        (∀ x ∈ K, x ∈ M)
        ∧ ((M.foldl (makeNewLink can D) (σ, b)).2 = true → b = true ∧ ∀ x ∈ M, x ∈ K)
        ∧ ((∀ u v, can u v = true) → (M.foldl (makeNewLink can D) (σ, b)).2 = b)
        ∧ SymmetricLinks (M.foldl (makeNewLink can D) (σ, b)).1
        ∧ (M.foldl (makeNewLink can D) (σ, b)).1.nextPin = σ.nextPin
        ∧ (∀ q, ident ((M.foldl (makeNewLink can D) (σ, b)).1.pin q) = ident (σ.pin q))
        ∧ ∀ q x, Linked (M.foldl (makeNewLink can D) (σ, b)).1 q x
            ↔ Linked σ q x ∨ (q = D ∧ x ∈ K) ∨ (x = D ∧ q ∈ K) := by
  induction M with
  | nil =>
    intro σ b hsym
    exact ⟨[], by simp, by simp, by simp, hsym, rfl, fun _ => rfl, by simp⟩
  | cons B M ih =>
    intro σ b hsym
    by_cases hc : can (σ.pin D) (σ.pin B) = true
    · obtain ⟨K, k1, k2, k3, i1, i2, i3, i4⟩ :=
        ih (MakeLinkTo σ D (some B)) b (MakeLinkTo_symmetric σ D B hsym)
      have hstep : makeNewLink can D (σ, b) B = (MakeLinkTo σ D (some B), b) := by
        simp [makeNewLink, hc]
      rw [List.foldl_cons, hstep]
      refine ⟨B :: K, ?_, ?_, k3, i1, ?_, ?_, ?_⟩
      · intro x hx
        rcases List.mem_cons.mp hx with rfl | hx
        · exact List.mem_cons_self _ _
        · exact List.mem_cons_of_mem _ (k1 x hx)
      · intro hf
        obtain ⟨f1, f2⟩ := k2 hf
        refine ⟨f1, ?_⟩
        intro x hx
        rcases List.mem_cons.mp hx with rfl | hx
        · exact List.mem_cons_self _ _
        · exact List.mem_cons_of_mem _ (f2 x hx)
      · rw [i2]; exact (MakeLinkTo_ident σ D (some B) 0).2
      · intro q; rw [i3 q]; exact (MakeLinkTo_ident σ D (some B) q).1
      · intro q x
        rw [i4 q x, MakeLinkTo_linked σ D B hsym q x]
        simp only [List.mem_cons]
        constructor
        · rintro ((h1 | ⟨e1, e2⟩ | ⟨e1, e2⟩) | ⟨e1, h1⟩ | ⟨e1, h1⟩)
          · exact Or.inl h1
          · exact Or.inr (Or.inl ⟨e1, Or.inl e2⟩)
          · exact Or.inr (Or.inr ⟨e2, Or.inl e1⟩)
          · exact Or.inr (Or.inl ⟨e1, Or.inr h1⟩)
          · exact Or.inr (Or.inr ⟨e1, Or.inr h1⟩)
        · rintro (h1 | ⟨e1, e2 | h1⟩ | ⟨e1, e2 | h1⟩)
          · exact Or.inl (Or.inl h1)
          · exact Or.inl (Or.inr (Or.inl ⟨e1, e2⟩))
          · exact Or.inr (Or.inl ⟨e1, h1⟩)
          · exact Or.inl (Or.inr (Or.inr ⟨e2, e1⟩))
          · exact Or.inr (Or.inr ⟨e1, h1⟩)
    · obtain ⟨K, k1, k2, k3, i1, i2, i3, i4⟩ := ih σ false hsym
      have hstep : makeNewLink can D (σ, b) B = (σ, false) := by
        simp [makeNewLink, hc]
      rw [List.foldl_cons, hstep]
      refine ⟨K, fun x hx => List.mem_cons_of_mem _ (k1 x hx), ?_, ?_, i1, i2, i3, i4⟩
      · intro hf
        exact absurd (k2 hf).1 (by decide)
      · intro hall
        exact absurd (hall _ _) hc

theorem MovePinLinks_spec (can : UEdGraphPin → UEdGraphPin → Bool) (σ : PinStore)
    (S D : Nat) (hsym : SymmetricLinks σ) :
    ∃ K : List Nat,
      (∀ x ∈ K, Linked σ S x)
      ∧ ((MovePinLinks can σ S D).2 = true → ∀ x, Linked σ S x → x ∈ K)
      ∧ ((∀ u v, can u v = true) → (MovePinLinks can σ S D).2 = true)
      ∧ SymmetricLinks (MovePinLinks can σ S D).1
      ∧ (MovePinLinks can σ S D).1.nextPin = σ.nextPin
      ∧ (∀ q, ident ((MovePinLinks can σ S D).1.pin q) = ident (σ.pin q))
      ∧ ∀ q x, Linked (MovePinLinks can σ S D).1 q x
          ↔ (Linked σ q x ∧ q ≠ S ∧ x ≠ S) ∨ (q = D ∧ x ∈ K) ∨ (x = D ∧ q ∈ K) := by
  obtain ⟨b1, b2, b3, b4⟩ := BreakAllPinLinks_spec σ S hsym
  obtain ⟨K, k1, k2, k3, _, m2, m3, m4⟩ :=
    foldl_MakeLinkTo can D (σ.pin S).LinkedTo (BreakAllPinLinks σ S) true b1
  have hlink : ∀ q x, Linked (MovePinLinks can σ S D).1 q x
      ↔ (Linked σ q x ∧ q ≠ S ∧ x ≠ S) ∨ (q = D ∧ x ∈ K) ∨ (x = D ∧ q ∈ K) := by
    intro q x
    have e : Linked (MovePinLinks can σ S D).1 q x
        ↔ Linked ((σ.pin S).LinkedTo.foldl (makeNewLink can D)
            (BreakAllPinLinks σ S, true)).1 q x := by
      simp only [MovePinLinks, Linked, setPin]
      by_cases hq : q = D
      · subst hq; simp
      · simp [hq]
    rw [e, m4 q x, b4 q x]
  refine ⟨K, k1, fun hf => (k2 hf).2, k3, ?_, ?_, ?_, hlink⟩
  · intro a b hab
    rw [hlink] at hab ⊢
    rcases hab with ⟨h1, h2, h3⟩ | ⟨h1, h2⟩ | ⟨h1, h2⟩
    · exact Or.inl ⟨hsym a b h1, h3, h2⟩
    · exact Or.inr (Or.inr ⟨h1, h2⟩)
    · exact Or.inr (Or.inl ⟨h1, h2⟩)
  · show (setPin _ D _).nextPin = _
    rw [setPin_nextPin, m2, b2]
  · intro q
    have e : ident ((MovePinLinks can σ S D).1.pin q)
        = ident (((σ.pin S).LinkedTo.foldl (makeNewLink can D)
            (BreakAllPinLinks σ S, true)).1.pin q) := by
      simp only [MovePinLinks, setPin, ident]
      by_cases hq : q = D
      · subst hq; simp
      · simp [hq]
    rw [e, m3 q, b3 q]

theorem BreakAllNodeLinks_spec (Pins : List Nat) :
    ∀ σ : PinStore, SymmetricLinks σ →
      SymmetricLinks (Pins.foldl (fun h Pin => BreakAllPinLinks h Pin) σ)
      ∧ (Pins.foldl (fun h Pin => BreakAllPinLinks h Pin) σ).nextPin = σ.nextPin
      ∧ (∀ q, ident ((Pins.foldl (fun h Pin => BreakAllPinLinks h Pin) σ).pin q)
          = ident (σ.pin q))
      ∧ ∀ q x, Linked (Pins.foldl (fun h Pin => BreakAllPinLinks h Pin) σ) q x
          ↔ Linked σ q x ∧ q ∉ Pins ∧ x ∉ Pins := by
  induction Pins with
  | nil => intro σ hsym; simp [hsym]
  | cons A Pins ih =>
    intro σ hsym
    obtain ⟨b1, b2, b3, b4⟩ := BreakAllPinLinks_spec σ A hsym
    obtain ⟨i1, i2, i3, i4⟩ := ih (BreakAllPinLinks σ A) b1
    simp only [List.foldl_cons]
    refine ⟨i1, by rw [i2, b2], fun q => by rw [i3 q, b3 q], ?_⟩
    intro q x
    rw [i4 q x, b4 q x]
    simp only [List.mem_cons]
    tauto

/-! ## Allocation and lookup by name -/

theorem CreatePin_decl (σ : PinStore) (n : UK2Node) (d : PinDecl) :
    CreatePin σ n d.Direction d.PinCategory d.PinSubCategory d.PinSubCategoryObject
        d.PinName d.PinParams
      = ({ pin := (setPin σ σ.nextPin (declaredPin d)).pin, nextPin := σ.nextPin + 1 },
         { n with Pins := n.Pins ++ [σ.nextPin] }, σ.nextPin) := rfl

theorem createDeclaredPins_indexed (ds : List PinDecl) :
    ∀ (σ : PinStore) (n : UK2Node) (i : Nat) (d : PinDecl), ds[i]? = some d →
      (createDeclaredPins ds σ n).1.pin (σ.nextPin + i) = declaredPin d := by
  induction ds with
  | nil => intro σ n i d h; simp at h
  | cons e ds ih =>
    intro σ n i d h
    simp only [createDeclaredPins, CreatePin_decl]
    cases i with
    | zero =>
      have hd : e = d := by simpa using h
      subst hd
      have hfr := (createDeclaredPins_spec ds
        { pin := (setPin σ σ.nextPin (declaredPin e)).pin, nextPin := σ.nextPin + 1 }
        { n with Pins := n.Pins ++ [σ.nextPin] }).2.2.2.2.2 σ.nextPin (Nat.lt_succ_self _)
      show (createDeclaredPins ds
        { pin := (setPin σ σ.nextPin (declaredPin e)).pin, nextPin := σ.nextPin + 1 }
        { n with Pins := n.Pins ++ [σ.nextPin] }).1.pin σ.nextPin = declaredPin e
      rw [hfr]
      exact setPin_same _ _ _
    | succ j =>
      have h2 : ds[j]? = some d := by simpa using h
      have := ih { pin := (setPin σ σ.nextPin (declaredPin e)).pin, nextPin := σ.nextPin + 1 }
        { n with Pins := n.Pins ++ [σ.nextPin] } j d h2
      have e1 : σ.nextPin + (j + 1) = σ.nextPin + 1 + j := by omega
      rw [e1]
      exact this

theorem createDeclaredPins_links (ds : List PinDecl) :
    ∀ (σ : PinStore) (n : UK2Node), ClosedLinks σ →
      ClosedLinks (createDeclaredPins ds σ n).1
      ∧ ∀ q x, Linked (createDeclaredPins ds σ n).1 q x ↔ Linked σ q x := by
  induction ds with
  | nil => intro σ n hc; exact ⟨hc, fun _ _ => Iff.rfl⟩
  | cons e ds ih =>
    intro σ n hc
    have hstep : ∀ q x,
        Linked { pin := (setPin σ σ.nextPin (declaredPin e)).pin, nextPin := σ.nextPin + 1 } q x
          ↔ Linked σ q x := by
      intro q x
      by_cases hq : q = σ.nextPin
      · subst hq
        simp only [Linked, setPin, if_true, declaredPin, List.not_mem_nil, false_iff]
        intro h
        exact Nat.lt_irrefl _ (hc _ _ h).1
      · simp [Linked, setPin, hq]
    have hc1 : ClosedLinks
        { pin := (setPin σ σ.nextPin (declaredPin e)).pin, nextPin := σ.nextPin + 1 } := by
      intro a b hab
      have := hc a b ((hstep a b).mp hab)
      exact ⟨Nat.lt_succ_of_lt this.1, Nat.lt_succ_of_lt this.2⟩
    obtain ⟨i1, i2⟩ := ih
      { pin := (setPin σ σ.nextPin (declaredPin e)).pin, nextPin := σ.nextPin + 1 }
      { n with Pins := n.Pins ++ [σ.nextPin] } hc1
    simp only [createDeclaredPins, CreatePin_decl]
    exact ⟨i1, fun q x => by rw [i2 q x, hstep q x]⟩

theorem createDeclaredPins_namesKept (ds : List PinDecl) (σ : PinStore) (n : UK2Node) :
    NamesKept σ (createDeclaredPins ds σ n).1 := by
  obtain ⟨_, _, _, _, h5, h6⟩ := createDeclaredPins_spec ds σ n
  exact ⟨by rw [h5]; omega, fun q hq => by rw [h6 q hq]⟩

theorem NamesKept_refl (σ : PinStore) : NamesKept σ σ :=
  ⟨Nat.le_refl _, fun _ _ => rfl⟩

theorem NamesKept_trans (σ τ υ : PinStore) (h1 : NamesKept σ τ) (h2 : NamesKept τ υ) :
    NamesKept σ υ :=
  ⟨Nat.le_trans h1.1 h2.1,
   fun q hq => by rw [h2.2 q (Nat.lt_of_lt_of_le hq h1.1), h1.2 q hq]⟩

theorem NamesKept_of_ident (σ τ : PinStore) (hn : τ.nextPin = σ.nextPin)
    (h : ∀ q, ident (τ.pin q) = ident (σ.pin q)) : NamesKept σ τ :=
  ⟨by rw [hn], fun q _ => h q⟩

theorem NodePins_create (ds : List PinDecl) (σ : PinStore) (n : UK2Node) (hn : n.Pins = []) :
    NodePins ds (createDeclaredPins ds σ n).1 (createDeclaredPins ds σ n).2 σ.nextPin := by
  obtain ⟨h1, _, _, _, h5, _⟩ := createDeclaredPins_spec ds σ n
  refine ⟨by rw [h1, hn]; rfl, by rw [h5], ?_⟩
  intro i d hd
  rw [createDeclaredPins_indexed ds σ n i d hd]
  rfl

theorem NodePins_kept (ds : List PinDecl) (σ τ : PinStore) (N : UK2Node) (lo : Nat)
    (h : NodePins ds σ N lo) (hk : NamesKept σ τ) : NodePins ds τ N lo := by
  obtain ⟨h1, h2, h3⟩ := h
  refine ⟨h1, Nat.le_trans h2 hk.1, ?_⟩
  intro i d hd
  have hi : i < ds.length := (List.getElem?_eq_some.mp hd).1
  rw [hk.2 (lo + i) (by omega)]
  exact h3 i d hd

theorem FindPin_some (pin : Nat → UEdGraphPin) (n : UK2Node) (PinName : String) (p : Nat)
    (h : FindPin pin n PinName = some p) : p ∈ n.Pins ∧ (pin p).PinName = PinName := by
  unfold FindPin at h
  have h1 := List.find?_some h
  have h2 := List.mem_of_find?_eq_some h
  exact ⟨h2, by simpa using h1⟩

theorem FindPin_exists (pin : Nat → UEdGraphPin) (n : UK2Node) (PinName : String) (p : Nat)
    (hp : p ∈ n.Pins) (hname : (pin p).PinName = PinName) :
    ∃ q, FindPin pin n PinName = some q := by
  unfold FindPin
  cases h : n.Pins.find? (fun p => (pin p).PinName == PinName) with
  | some q => exact ⟨q, rfl⟩
  | none =>
    rw [List.find?_eq_none] at h
    have := h p hp
    simp [hname] at this

theorem FindPin_congr (pin1 pin2 : Nat → UEdGraphPin) (n : UK2Node) (PinName : String)
    (h : ∀ p ∈ n.Pins, (pin1 p).PinName = (pin2 p).PinName) :
    FindPin pin1 n PinName = FindPin pin2 n PinName := by
  unfold FindPin
  generalize n.Pins = l at h
  induction l with
  | nil => rfl
  | cons a l ih =>
    have ha := h a (List.mem_cons_self _ _)
    simp only [List.find?_cons, ha]
    rw [ih (fun p hp => h p (List.mem_cons_of_mem _ hp))]

theorem ident_name (a b : UEdGraphPin) (h : ident a = ident b) : a.PinName = b.PinName :=
  congrArg Prod.fst h

theorem ident_direction (a b : UEdGraphPin) (h : ident a = ident b) :
    a.Direction = b.Direction :=
  congrArg Prod.snd h

theorem NodePins_mem (ds : List PinDecl) (σ : PinStore) (N : UK2Node) (lo p : Nat)
    (h : NodePins ds σ N lo) (hp : p ∈ N.Pins) :
    lo ≤ p ∧ p < lo + ds.length ∧ p < σ.nextPin
    ∧ ∃ d ∈ ds, ident (σ.pin p) = (d.PinName, d.Direction) := by
  obtain ⟨h1, h2, h3⟩ := h
  rw [h1] at hp
  have hr := List.mem_range'_1.mp hp
  refine ⟨hr.1, hr.2, by omega, ?_⟩
  have hi : p - lo < ds.length := by omega
  have hd : ds[p - lo]? = some (ds[p - lo]) := List.getElem?_eq_getElem hi
  refine ⟨ds[p - lo], List.getElem_mem _, ?_⟩
  have := h3 (p - lo) _ hd
  have e : lo + (p - lo) = p := by omega
  rw [e] at this
  exact this

theorem NodePins_find (ds : List PinDecl) (σ : PinStore) (N : UK2Node) (lo : Nat)
    (h : NodePins ds σ N lo) (PinName : String) (d : PinDecl) (hd : d ∈ ds)
    (hname : d.PinName = PinName) :
    ∃ p, FindPin σ.pin N PinName = some p := by
  obtain ⟨h1, h2, h3⟩ := h
  obtain ⟨i, hi⟩ := List.getElem?_of_mem hd
  have hlt : i < ds.length := (List.getElem?_eq_some.mp hi).1
  apply FindPin_exists σ.pin N PinName (lo + i)
  · rw [h1]; exact List.mem_range'_1.mpr ⟨by omega, by omega⟩
  · rw [ident_name _ _ (show ident (σ.pin (lo + i)) = ident (declaredPin d) from h3 i d hi)]
    exact hname

/-! ## The expansion invariant -/

theorem ExpInv_init (σ0 : PinStore) (Pins : List Nat) : ExpInv [] σ0 Pins [] [] σ0 := by
  refine ⟨NamesKept_refl σ0, ?_, ?_, ?_, ?_⟩
  · intro q x
    simp
  · intro m hm; simp at hm
  · intro i hi; simp at hi
  · intro e he; simp at he

theorem ExpInv_sym (σ0 σ : PinStore) (Pins : List Nat) (M I : List (Nat × Nat))
    {Dr : List (Nat × Nat)}
    (bg : Background σ0 Pins) (h : ExpInv Dr σ0 Pins M I σ) : SymmetricLinks σ := by
  intro a b hab
  rw [h.links] at hab ⊢
  rcases hab with ⟨h1, h2⟩ | ⟨m, hm, h1, h2⟩ | ⟨m, hm, h1, h2⟩ | h1 | h1
  · exact Or.inl ⟨bg.sym a b h1, fun m hm => ⟨(h2 m hm).2, (h2 m hm).1⟩⟩
  · exact Or.inr (Or.inr (Or.inl ⟨m, hm, h1, h2⟩))
  · exact Or.inr (Or.inl ⟨m, hm, h1, h2⟩)
  · exact Or.inr (Or.inr (Or.inr (Or.inr h1)))
  · exact Or.inr (Or.inr (Or.inr (Or.inl h1)))

theorem ExpInv_closed (σ0 σ : PinStore) (Pins : List Nat) (M I : List (Nat × Nat))
    {Dr : List (Nat × Nat)}
    (bg : Background σ0 Pins) (h : ExpInv Dr σ0 Pins M I σ) : ClosedLinks σ := by
  intro a b hab
  have hmono := h.names.1
  rw [h.links] at hab
  rcases hab with ⟨h1, _⟩ | ⟨m, hm, h1, h2⟩ | ⟨m, hm, h1, h2⟩ | h1 | h1
  · have := bg.closed a b h1
    exact ⟨by omega, by omega⟩
  · have := bg.closed _ _ h2.1
    have hm2 := h.moved m hm
    exact ⟨by rw [h1]; exact hm2.2.2, by omega⟩
  · have := bg.closed _ _ h2.1
    have hm2 := h.moved m hm
    exact ⟨by omega, by rw [h1]; exact hm2.2.2⟩
  · have := h.internal _ h1
    exact ⟨this.2.1, this.2.2.2⟩
  · have := h.internal _ h1
    exact ⟨this.2.2.2, this.2.1⟩

theorem ExpInv_later (σ0 σ τ : PinStore) (Pins : List Nat) (M I : List (Nat × Nat))
    {Dr : List (Nat × Nat)}
    (h : ExpInv Dr σ0 Pins M I σ) (hk : NamesKept σ τ)
    (hl : ∀ q x, Linked τ q x ↔ Linked σ q x) : ExpInv Dr σ0 Pins M I τ := by
  refine ⟨NamesKept_trans _ _ _ h.names hk, ?_, ?_, ?_, h.dropped⟩
  · intro q x
    rw [hl q x]; exact h.links q x
  · intro m hm
    have := h.moved m hm
    exact ⟨this.1, this.2.1, Nat.lt_of_lt_of_le this.2.2 hk.1⟩
  · intro i hi
    have := h.internal i hi
    exact ⟨this.1, Nat.lt_of_lt_of_le this.2.1 hk.1, this.2.2.1,
      Nat.lt_of_lt_of_le this.2.2.2 hk.1⟩

theorem ExpInv_link (σ0 σ : PinStore) (Pins : List Nat) (M I : List (Nat × Nat))
    {Dr : List (Nat × Nat)}
    (bg : Background σ0 Pins) (h : ExpInv Dr σ0 Pins M I σ) (A B : Nat)
    (hA : σ0.nextPin ≤ A ∧ A < σ.nextPin) (hB : σ0.nextPin ≤ B ∧ B < σ.nextPin) :
    ExpInv Dr σ0 Pins M ((A, B) :: I) (MakeLinkTo σ A (some B)) := by
  have hsym := ExpInv_sym σ0 σ Pins M I bg h
  have hid := MakeLinkTo_ident σ A (some B)
  refine ⟨NamesKept_trans _ _ _ h.names
      (NamesKept_of_ident _ _ (hid 0).2 (fun q => (hid q).1)), ?_, ?_, ?_, h.dropped⟩
  · intro q x
    rw [MakeLinkTo_linked σ A B hsym q x, h.links q x]
    constructor
    · rintro ((h1 | h1 | h1 | h1 | h1) | ⟨e1, e2⟩ | ⟨e1, e2⟩)
      · exact Or.inl h1
      · exact Or.inr (Or.inl h1)
      · exact Or.inr (Or.inr (Or.inl h1))
      · exact Or.inr (Or.inr (Or.inr (Or.inl (List.mem_cons_of_mem _ h1))))
      · exact Or.inr (Or.inr (Or.inr (Or.inr (List.mem_cons_of_mem _ h1))))
      · rw [e1, e2]
        exact Or.inr (Or.inr (Or.inr (Or.inl (List.mem_cons_self _ _))))
      · rw [e1, e2]
        exact Or.inr (Or.inr (Or.inr (Or.inr (List.mem_cons_self _ _))))
    · rintro (h1 | h1 | h1 | h1 | h1)
      · exact Or.inl (Or.inl h1)
      · exact Or.inl (Or.inr (Or.inl h1))
      · exact Or.inl (Or.inr (Or.inr (Or.inl h1)))
      · rcases List.mem_cons.mp h1 with e | h1
        · exact Or.inr (Or.inl ⟨(Prod.mk.inj e).1, (Prod.mk.inj e).2⟩)
        · exact Or.inl (Or.inr (Or.inr (Or.inr (Or.inl h1))))
      · rcases List.mem_cons.mp h1 with e | h1
        · exact Or.inr (Or.inr ⟨(Prod.mk.inj e).2, (Prod.mk.inj e).1⟩)
        · exact Or.inl (Or.inr (Or.inr (Or.inr (Or.inr h1))))
  · intro m hm
    have := h.moved m hm
    exact ⟨this.1, this.2.1, by rw [(hid 0).2]; exact this.2.2⟩
  · intro i hi
    rw [(hid 0).2]
    rcases List.mem_cons.mp hi with rfl | hi
    · exact ⟨hA.1, hA.2, hB.1, hB.2⟩
    · exact h.internal i hi

theorem ExpInv_source (σ0 σ : PinStore) (Pins : List Nat) (M I : List (Nat × Nat))
    {Dr : List (Nat × Nat)}
    (bg : Background σ0 Pins) (h : ExpInv Dr σ0 Pins M I σ) (S : Nat) (hS : S ∈ Pins)
    (hnew : ∀ m ∈ M, m.1 ≠ S) (x : Nat) : Linked σ S x ↔ Linked σ0 S x := by
  have hSlt := bg.alloc S hS
  rw [h.links S x]
  constructor
  · rintro (⟨h1, _⟩ | ⟨m, hm, h1, _⟩ | ⟨m, hm, _, h2⟩ | h1 | h1)
    · exact h1
    · have := (h.moved m hm).2.1
      omega
    · exact absurd hS (bg.ext _ (h.moved m hm).1 S h2.1)
    · have := (h.internal _ h1).1
      simp only at this
      omega
    · have := (h.internal _ h1).2.2.1
      simp only at this
      omega
  · intro h1
    refine Or.inl ⟨h1, fun m hm => ⟨fun e => hnew m hm e.symm, ?_⟩⟩
    intro e
    exact bg.ext S hS x h1 (e ▸ (h.moved m hm).1)

theorem Handed_old (σ0 : PinStore) (Dr New : List (Nat × Nat)) (S p x : Nat) (hp : p ≠ S)
    (hNew : ∀ e ∈ New, e.1 = S) : Handed σ0 (Dr ++ New) p x ↔ Handed σ0 Dr p x := by
  unfold Handed
  constructor
  · rintro ⟨h1, h2⟩
    exact ⟨h1, fun h => h2 (List.mem_append_left _ h)⟩
  · rintro ⟨h1, h2⟩
    refine ⟨h1, fun h => ?_⟩
    rcases List.mem_append.mp h with h | h
    · exact h2 h
    · exact hp (hNew _ h)

theorem ExpInv_move (σ0 σ : PinStore) (Pins : List Nat) (M I : List (Nat × Nat))
    {Dr : List (Nat × Nat)}
    (bg : Background σ0 Pins) (h : ExpInv Dr σ0 Pins M I σ)
    (can : UEdGraphPin → UEdGraphPin → Bool)
    (S D : Nat) (hS : S ∈ Pins) (hnew : ∀ m ∈ M, m.1 ≠ S)
    (hD : σ0.nextPin ≤ D ∧ D < σ.nextPin) :
    ∃ Dr1 : List (Nat × Nat),
      NamesKept σ (MovePinLinks can σ S D).1
      ∧ ExpInv Dr1 σ0 Pins ((S, D) :: M) I (MovePinLinks can σ S D).1
      ∧ ((MovePinLinks can σ S D).2 = true → Dr1 = Dr)
      ∧ (∀ e ∈ Dr1, e ∈ Dr ∨ e.1 = S)
      ∧ ((∀ u v, can u v = true) → (MovePinLinks can σ S D).2 = true) := by
  have hsym := ExpInv_sym σ0 σ Pins M I bg h
  obtain ⟨K, k1, k2, k3, _, m2, m3, m4⟩ := MovePinLinks_spec can σ S D hsym
  have hk : NamesKept σ (MovePinLinks can σ S D).1 := NamesKept_of_ident _ _ m2 m3
  have hsrc := ExpInv_source σ0 σ Pins M I bg h S hS hnew
  have hSlt := bg.alloc S hS
  have hNew : ∀ e ∈ ((σ.pin S).LinkedTo.filter (fun x => decide (x ∉ K))).map
      (fun x => (S, x)), e.1 = S := by
    intro e he
    obtain ⟨x, _, rfl⟩ := List.mem_map.mp he
    rfl
  have hSDr : ∀ x, (S, x) ∉ Dr := by
    intro x hx
    obtain ⟨m, hm, e⟩ := h.dropped _ hx
    exact hnew m hm e
  have hK : ∀ x, x ∈ K ↔ Handed σ0
      (Dr ++ ((σ.pin S).LinkedTo.filter (fun x => decide (x ∉ K))).map (fun x => (S, x)))
      S x := by
    intro x
    unfold Handed
    constructor
    · intro hx
      refine ⟨(hsrc x).mp (k1 x hx), fun hin => ?_⟩
      rcases List.mem_append.mp hin with hin | hin
      · exact hSDr x hin
      · obtain ⟨y, hy, e⟩ := List.mem_map.mp hin
        have e2 : y = x := (Prod.mk.inj e).2
        rw [e2] at hy
        have := (List.mem_filter.mp hy).2
        simp only [decide_eq_true_eq] at this
        exact this hx
    · rintro ⟨h1, h2⟩
      by_contra hx
      apply h2
      apply List.mem_append_right
      refine List.mem_map.mpr ⟨x, List.mem_filter.mpr ⟨(hsrc x).mpr h1, ?_⟩, rfl⟩
      simpa using hx
  have hOld : ∀ m ∈ M, ∀ x, Handed σ0
      (Dr ++ ((σ.pin S).LinkedTo.filter (fun x => decide (x ∉ K))).map (fun x => (S, x)))
      m.1 x ↔ Handed σ0 Dr m.1 x :=
    fun m hm x => Handed_old σ0 Dr _ S m.1 x (hnew m hm) hNew
  refine ⟨Dr ++ ((σ.pin S).LinkedTo.filter (fun x => decide (x ∉ K))).map (fun x => (S, x)),
    hk, ⟨NamesKept_trans _ _ _ h.names hk, ?_, ?_, ?_, ?_⟩, ?_, ?_, k3⟩
  · intro q x
    rw [m4 q x]
    constructor
    · rintro (⟨h1, hq, hx⟩ | ⟨hq, h1⟩ | ⟨hx, h1⟩)
      · rcases (h.links q x).mp h1 with ⟨a1, a2⟩ | ⟨m, hm, a1, a2⟩ | ⟨m, hm, a1, a2⟩ | a1 | a1
        · refine Or.inl ⟨a1, ?_⟩
          intro m hm
          rcases List.mem_cons.mp hm with rfl | hm
          · exact ⟨hq, hx⟩
          · exact a2 m hm
        · exact Or.inr (Or.inl ⟨m, List.mem_cons_of_mem _ hm, a1, (hOld m hm x).mpr a2⟩)
        · exact Or.inr (Or.inr (Or.inl
            ⟨m, List.mem_cons_of_mem _ hm, a1, (hOld m hm q).mpr a2⟩))
        · exact Or.inr (Or.inr (Or.inr (Or.inl a1)))
        · exact Or.inr (Or.inr (Or.inr (Or.inr a1)))
      · exact Or.inr (Or.inl ⟨(S, D), List.mem_cons_self _ _, hq, (hK x).mp h1⟩)
      · exact Or.inr (Or.inr (Or.inl ⟨(S, D), List.mem_cons_self _ _, hx, (hK q).mp h1⟩))
    · rintro (⟨a1, a2⟩ | ⟨m, hm, a1, a2⟩ | ⟨m, hm, a1, a2⟩ | a1 | a1)
      · have hS2 := a2 (S, D) (List.mem_cons_self _ _)
        refine Or.inl ⟨(h.links q x).mpr (Or.inl ⟨a1, fun m hm =>
          a2 m (List.mem_cons_of_mem _ hm)⟩), hS2.1, hS2.2⟩
      · rcases List.mem_cons.mp hm with rfl | hm
        · exact Or.inr (Or.inl ⟨a1, (hK x).mpr a2⟩)
        · have a3 := (hOld m hm x).mp a2
          refine Or.inl ⟨(h.links q x).mpr (Or.inr (Or.inl ⟨m, hm, a1, a3⟩)), ?_, ?_⟩
          · have := (h.moved m hm).2.1
            omega
          · intro e
            exact bg.ext _ (h.moved m hm).1 x a3.1 (e ▸ hS)
      · rcases List.mem_cons.mp hm with rfl | hm
        · exact Or.inr (Or.inr ⟨a1, (hK q).mpr a2⟩)
        · have a3 := (hOld m hm q).mp a2
          refine Or.inl ⟨(h.links q x).mpr (Or.inr (Or.inr (Or.inl ⟨m, hm, a1, a3⟩))), ?_, ?_⟩
          · intro e
            exact bg.ext _ (h.moved m hm).1 q a3.1 (e ▸ hS)
          · have := (h.moved m hm).2.1
            omega
      · have hi := h.internal _ a1
        simp only at hi
        exact Or.inl ⟨(h.links q x).mpr (Or.inr (Or.inr (Or.inr (Or.inl a1)))),
          by omega, by omega⟩
      · have hi := h.internal _ a1
        simp only at hi
        exact Or.inl ⟨(h.links q x).mpr (Or.inr (Or.inr (Or.inr (Or.inr a1)))),
          by omega, by omega⟩
  · intro m hm
    rw [m2]
    rcases List.mem_cons.mp hm with rfl | hm
    · exact ⟨hS, hD.1, hD.2⟩
    · exact h.moved m hm
  · intro i hi
    rw [m2]
    exact h.internal i hi
  · intro e he
    rcases List.mem_append.mp he with he | he
    · obtain ⟨m, hm, e1⟩ := h.dropped e he
      exact ⟨m, List.mem_cons_of_mem _ hm, e1⟩
    · exact ⟨(S, D), List.mem_cons_self _ _, (hNew e he).symm⟩
  · intro hf
    have hall := k2 hf
    have : (σ.pin S).LinkedTo.filter (fun x => decide (x ∉ K)) = [] := by
      rw [List.filter_eq_nil_iff]
      intro x hx
      simp only [decide_eq_true_eq, not_not]
      exact hall x hx
    rw [this]
    simp
  · intro e he
    rcases List.mem_append.mp he with he | he
    · exact Or.inl he
    · exact Or.inr (hNew e he)

/-! ## ExpandNode without dynamic pins -/

/-- C7. When no pin in `Pins` satisfies `IsDynamicInputPin`, `ExpandNode` is the regular
function call expansion: it returns, and the state it leaves is exactly the one the base
class's `ExpandNode` leaves, so no create, append or make-array node is spawned, no link is
moved or broken and no error is logged by the node itself. -/
theorem ExpandNode_without_dynamic_pins (E : Engine) (s : State)
    (h : ∀ p ∈ s.node.Pins, IsDynamicInputPin (some (s.store.pin p)) = false) :
    ExpandNode E s = some (E.CallFunction_ExpandNode s) := by
  have hnil : s.node.Pins.filter (fun Pin => IsDynamicInputPin (some (s.store.pin Pin))) = [] := by
    rw [List.filter_eq_nil_iff]
    intro p hp
    rw [h p hp]
    simp
  simp only [ExpandNode, hnil, List.length_nil, if_true]

/-- Witness for C7: `callOnlyState` has no dynamic pin, and with `sampleEngine`, whose base
expansion does nothing, `ExpandNode` leaves it as it is. -/
theorem ExpandNode_without_dynamic_pins_witness :
    (∀ p ∈ callOnlyState.node.Pins,
      IsDynamicInputPin (some (callOnlyState.store.pin p)) = false)
    ∧ ExpandNode sampleEngine callOnlyState = some callOnlyState :=
  ⟨by decide, ExpandNode_without_dynamic_pins sampleEngine callOnlyState (by decide)⟩

/-! ## The stages of ExpandNode -/

theorem FindPin_kept (σ τ : PinStore) (N : UK2Node) (PinName : String)
    (hk : NamesKept σ τ) (hN : ∀ p ∈ N.Pins, p < σ.nextPin) :
    FindPin τ.pin N PinName = FindPin σ.pin N PinName := by
  apply FindPin_congr
  intro p hp
  exact ident_name _ _ (hk.2 p (hN p hp))

theorem makeArrayLoop_decls (k : Nat) :
    ∀ (i : Int) (σ : PinStore) (n : UK2Node),
      makeArrayLoop k i σ n = createDeclaredPins (makeArrayInputDecls k i) σ n := by
  induction k with
  | zero => intro i σ n; rfl
  | succ k ih =>
    intro i σ n
    simp only [makeArrayLoop, makeArrayInputDecls, createDeclaredPins]
    exact ih _ _ _

theorem MakeArray_AllocateDefaultPins_decls (σ : PinStore) (n : UK2Node) :
    MakeArray_AllocateDefaultPins σ n
      = createDeclaredPins (makeArrayDecls n.NumInputs.toNat) σ n := by
  simp only [MakeArray_AllocateDefaultPins, makeArrayDecls, createDeclaredPins]
  exact makeArrayLoop_decls _ _ _ _

theorem makeArrayInputDecls_mem (k : Nat) :
    ∀ (i : Int) (j : Nat), j < k →
      ∃ d ∈ makeArrayInputDecls k i, d.PinName = "[" ++ toString (i + (j : Int)) ++ "]" := by
  induction k with
  | zero => intro i j h; exact absurd h (Nat.not_lt_zero _)
  | succ k ih =>
    intro i j hj
    cases j with
    | zero =>
      refine ⟨_, List.mem_cons_self _ _, ?_⟩
      simp
    | succ j =>
      obtain ⟨d, hd, hn⟩ := ih (i + 1) j (by omega)
      refine ⟨d, List.mem_cons_of_mem _ hd, ?_⟩
      rw [hn]
      have e : i + 1 + (j : Int) = i + ((j + 1 : Nat) : Int) := by push_cast; ring
      rw [e]

theorem makeArrayDecls_input (n j : Nat) (hj : j < n) :
    ∃ d ∈ makeArrayDecls n, d.PinName = GetPinName (j : Int) := by
  obtain ⟨d, hd, hn⟩ := makeArrayInputDecls_mem n 0 j hj
  refine ⟨d, List.mem_cons_of_mem _ hd, ?_⟩
  rw [hn]
  simp [GetPinName]

theorem makeArrayDecls_output (n : Nat) :
    ∃ d ∈ makeArrayDecls n, d.PinName = MakeArrayOutputPinName :=
  ⟨_, List.mem_cons_self _ _, rfl⟩

theorem foldl_setType (T : FEdGraphPinType) (l : List Nat) :
    ∀ σ : PinStore,
      (l.foldl
        (fun h p =>
          setPin h p
            { h.pin p with
              PinType :=
                { (h.pin p).PinType with
                  PinCategory := T.PinCategory
                  PinSubCategory := T.PinSubCategory
                  PinSubCategoryObject := T.PinSubCategoryObject } })
        σ).nextPin = σ.nextPin
      ∧ ∀ q, ident ((l.foldl
          (fun h p =>
            setPin h p
              { h.pin p with
                PinType :=
                  { (h.pin p).PinType with
                    PinCategory := T.PinCategory
                    PinSubCategory := T.PinSubCategory
                    PinSubCategoryObject := T.PinSubCategoryObject } })
          σ).pin q) = ident (σ.pin q)
        ∧ ((l.foldl
          (fun h p =>
            setPin h p
              { h.pin p with
                PinType :=
                  { (h.pin p).PinType with
                    PinCategory := T.PinCategory
                    PinSubCategory := T.PinSubCategory
                    PinSubCategoryObject := T.PinSubCategoryObject } })
          σ).pin q).LinkedTo = (σ.pin q).LinkedTo := by
  induction l with
  | nil => intro σ; exact ⟨rfl, fun _ => ⟨rfl, rfl⟩⟩
  | cons a l ih =>
    intro σ
    rw [List.foldl_cons]
    obtain ⟨i1, i2⟩ := ih (setPin σ a
      { σ.pin a with
        PinType :=
          { (σ.pin a).PinType with
            PinCategory := T.PinCategory
            PinSubCategory := T.PinSubCategory
            PinSubCategoryObject := T.PinSubCategoryObject } })
    refine ⟨by rw [i1]; rfl, ?_⟩
    intro q
    rw [(i2 q).1, (i2 q).2]
    by_cases hq : q = a
    · subst hq; simp [setPin, ident]
    · simp [setPin, hq]

theorem MakeArray_PinConnectionListChanged_spec (σ : PinStore) (n : UK2Node) (Pin : Nat) :
    (MakeArray_PinConnectionListChanged σ n Pin).nextPin = σ.nextPin
    ∧ (∀ q, ident ((MakeArray_PinConnectionListChanged σ n Pin).pin q) = ident (σ.pin q))
    ∧ ∀ q x, Linked (MakeArray_PinConnectionListChanged σ n Pin) q x ↔ Linked σ q x := by
  unfold MakeArray_PinConnectionListChanged
  cases h : (σ.pin Pin).LinkedTo with
  | nil => exact ⟨rfl, fun _ => rfl, fun _ _ => Iff.rfl⟩
  | cons First rest =>
    simp only
    split_ifs with hw
    · exact ⟨rfl, fun _ => rfl, fun _ _ => Iff.rfl⟩
    · obtain ⟨i1, i2⟩ := foldl_setType (σ.pin First).PinType n.Pins σ
      refine ⟨i1, fun q => (i2 q).1, ?_⟩
      intro q x
      unfold Linked
      rw [(i2 q).2]

theorem MovePinLinksToIntermediate_spec (E : Engine) (hcan : ∀ a b, E.CanCreateConnection a b = true)
    (σ0 : PinStore) (Pins : List Nat) (M I : List (Nat × Nat)) {Dr : List (Nat × Nat)}
    (bg : Background σ0 Pins) (x : Expansion) (h : ExpInv Dr σ0 Pins M I x.store)
    (From To : UK2Node) (PinName ToPinName : String) (S D : Nat)
    (hS : FindPin x.store.pin From PinName = some S)
    (hD : FindPin x.store.pin To ToPinName = some D)
    (hSin : S ∈ Pins) (hnew : ∀ m ∈ M, m.1 ≠ S)
    (hDf : σ0.nextPin ≤ D ∧ D < x.store.nextPin) :
    ∃ x1 : Expansion,
      MovePinLinksToIntermediate E x From PinName To ToPinName = some x1
      ∧ x1.errors = x.errors
      ∧ NamesKept x.store x1.store
      ∧ ExpInv Dr σ0 Pins ((S, D) :: M) I x1.store := by
  obtain ⟨Dr1, m1, m2, m3, _, m5⟩ :=
    ExpInv_move σ0 x.store Pins M I bg h E.CanCreateConnection S D hSin hnew hDf
  have m0 := m5 hcan
  have hDr := m3 m0
  subst hDr
  refine ⟨{ store := (MovePinLinks E.CanCreateConnection x.store S D).1, errors := x.errors },
    ?_, rfl, m1, m2⟩
  simp only [MovePinLinksToIntermediate, hS, hD, CompilerContext_MovePinLinksToIntermediate, m0,
    if_true]

theorem NodePins_lt (ds : List PinDecl) (σ : PinStore) (N : UK2Node) (lo : Nat)
    (h : NodePins ds σ N lo) : ∀ p ∈ N.Pins, p < σ.nextPin :=
  fun p hp => (NodePins_mem ds σ N lo p h hp).2.2.1

theorem moveOwnPin_spec (E : Engine) (hcan : ∀ a b, E.CanCreateConnection a b = true)
    (s : State) (bg : Background s.store s.node.Pins) (M I : List (Nat × Nat))
    {Dr : List (Nat × Nat)} (x : Expansion) (h : ExpInv Dr s.store s.node.Pins M I x.store)
    (ds : List PinDecl) (N : UK2Node) (lo : Nat) (hN : NodePins ds x.store N lo)
    (hlo : s.store.nextPin ≤ lo) (nm toName : String) (S : Nat)
    (hS : FindPin s.store.pin s.node nm = some S)
    (hd : ∃ d ∈ ds, d.PinName = toName) (hnew : ∀ m ∈ M, m.1 ≠ S) :
    ∃ (x1 : Expansion) (D : Nat),
      MovePinLinksToIntermediate E x s.node nm N toName = some x1
      ∧ x1.errors = x.errors
      ∧ NamesKept x.store x1.store
      ∧ ExpInv Dr s.store s.node.Pins ((S, D) :: M) I x1.store
      ∧ FindPin x.store.pin N toName = some D := by
  obtain ⟨d, hdm, hdn⟩ := hd
  obtain ⟨D, hD⟩ := NodePins_find ds x.store N lo hN toName d hdm hdn
  have hDm := NodePins_mem ds x.store N lo D hN (FindPin_some _ _ _ _ hD).1
  have hS2 : FindPin x.store.pin s.node nm = some S := by
    rw [FindPin_kept s.store x.store s.node nm h.names bg.alloc]; exact hS
  obtain ⟨x1, e1, e2, e3, e4⟩ := MovePinLinksToIntermediate_spec E hcan s.store s.node.Pins M I bg
    x h s.node N nm toName S D hS2 hD (FindPin_some _ _ _ _ hS).1 hnew
    ⟨by omega, hDm.2.2.1⟩
  exact ⟨x1, D, e1, e2, e3, e4, hD⟩

theorem ownPin_ne (s : State) (nm1 nm2 : String) (S1 S2 : Nat) (hne : nm1 ≠ nm2)
    (h1 : FindPin s.store.pin s.node nm1 = some S1)
    (h2 : FindPin s.store.pin s.node nm2 = some S2) : S1 ≠ S2 := by
  intro e
  have a1 := (FindPin_some _ _ _ _ h1).2
  have a2 := (FindPin_some _ _ _ _ h2).2
  rw [e, a2] at a1
  exact hne a1.symm

theorem expandCreateNode_spec (E : Engine) (s : State) (rdy : NodeReady E s)
    (hcan : ∀ a b, E.CanCreateConnection a b = true)
    (Xe Xl Xs : Nat)
    (hXe : FindPin s.store.pin s.node PN_Execute = some Xe)
    (hXl : FindPin s.store.pin s.node "LogCategory" = some Xl)
    (hXs : FindPin s.store.pin s.node "Severity" = some Xs) :
    ∃ (x4 : Expansion) (CN : UK2Node) (ce cl cs : Nat),
      expandCreateNode E s.node { store := s.store, errors := s.errors } = some (x4, CN)
      ∧ x4.errors = s.errors
      ∧ CN.Class = NodeClass.K2Node_CallFunction
      ∧ CN.FunctionReference = s.node.FunctionReference
      ∧ NodePins (E.FunctionPins s.node.FunctionReference) x4.store CN s.store.nextPin
      ∧ FindPin x4.store.pin CN PN_Execute = some ce
      ∧ FindPin x4.store.pin CN "LogCategory" = some cl
      ∧ FindPin x4.store.pin CN "Severity" = some cs
      ∧ ExpInv [] s.store s.node.Pins [(Xs, cs), (Xl, cl), (Xe, ce)] [] x4.store := by
  have hN0 := NodePins_create (E.FunctionPins s.node.FunctionReference) s.store
    { SpawnIntermediateNode NodeClass.K2Node_CallFunction with
      FunctionReference := s.node.FunctionReference } rfl
  have hsp := createDeclaredPins_spec (E.FunctionPins s.node.FunctionReference) s.store
    { SpawnIntermediateNode NodeClass.K2Node_CallFunction with
      FunctionReference := s.node.FunctionReference }
  have hk0 := createDeclaredPins_namesKept (E.FunctionPins s.node.FunctionReference) s.store
    { SpawnIntermediateNode NodeClass.K2Node_CallFunction with
      FunctionReference := s.node.FunctionReference }
  have hl0 := createDeclaredPins_links (E.FunctionPins s.node.FunctionReference) s.store
    { SpawnIntermediateNode NodeClass.K2Node_CallFunction with
      FunctionReference := s.node.FunctionReference } rdy.bg.closed
  have hI0 := ExpInv_later s.store s.store _ s.node.Pins [] [] (ExpInv_init s.store s.node.Pins)
    hk0 hl0.2
  generalize hCN : (createDeclaredPins (E.FunctionPins s.node.FunctionReference) s.store
    { SpawnIntermediateNode NodeClass.K2Node_CallFunction with
      FunctionReference := s.node.FunctionReference }) = a at hN0 hsp hk0 hI0
  obtain ⟨x2, ce, e2, r2, k2, i2, f2⟩ := moveOwnPin_spec E hcan s rdy.bg [] []
    { store := a.1, errors := s.errors } hI0 _ a.2 s.store.nextPin hN0 (Nat.le_refl _)
    PN_Execute PN_Execute Xe hXe (rdy.createPins PN_Execute (by simp [ownPinNames]))
    (by intro m hm; simp at hm)
  have hN2 := NodePins_kept _ _ x2.store a.2 _ hN0 k2
  obtain ⟨x3, cl, e3, r3, k3, i3, f3⟩ := moveOwnPin_spec E hcan s rdy.bg _ []
    x2 i2 _ a.2 s.store.nextPin hN2 (Nat.le_refl _)
    "LogCategory" "LogCategory" Xl hXl (rdy.createPins "LogCategory" (by simp [ownPinNames]))
    (by
      intro m hm
      have : m = (Xe, ce) := by simpa using hm
      rw [this]
      exact ownPin_ne s _ _ _ _ (by decide) hXe hXl)
  have hN3 := NodePins_kept _ _ x3.store a.2 _ hN2 k3
  obtain ⟨x4, cs, e4, r4, k4, i4, f4⟩ := moveOwnPin_spec E hcan s rdy.bg _ []
    x3 i3 _ a.2 s.store.nextPin hN3 (Nat.le_refl _)
    "Severity" "Severity" Xs hXs (rdy.createPins "Severity" (by simp [ownPinNames]))
    (by
      intro m hm
      rcases List.mem_cons.mp hm with rfl | hm
      · exact ownPin_ne s _ _ _ _ (by decide) hXl hXs
      · have : m = (Xe, ce) := by simpa using hm
        rw [this]
        exact ownPin_ne s _ _ _ _ (by decide) hXe hXs)
  have hN4 := NodePins_kept _ _ x4.store a.2 _ hN3 k4
  have hlt0 : ∀ p ∈ a.2.Pins, p < a.1.nextPin := NodePins_lt _ _ _ _ hN0
  have hlt2 : ∀ p ∈ a.2.Pins, p < x2.store.nextPin := NodePins_lt _ _ _ _ hN2
  have hlt3 : ∀ p ∈ a.2.Pins, p < x3.store.nextPin := NodePins_lt _ _ _ _ hN3
  refine ⟨x4, a.2, ce, cl, cs, ?_, ?_, ?_, ?_, hN4, ?_, ?_, ?_, i4⟩
  · simp only [expandCreateNode, CallFunction_AllocateDefaultPins, hCN, e2, e3, e4]
  · rw [r4, r3, r2]
  · rw [hsp.2.2.2.1]; rfl
  · rw [hsp.2.2.1]
  · rw [FindPin_kept x3.store x4.store a.2 _ k4 hlt3,
      FindPin_kept x2.store x3.store a.2 _ k3 hlt2,
      FindPin_kept a.1 x2.store a.2 _ k2 hlt0]
    exact f2
  · rw [FindPin_kept x3.store x4.store a.2 _ k4 hlt3,
      FindPin_kept x2.store x3.store a.2 _ k3 hlt2]
    exact f3
  · rw [FindPin_kept x3.store x4.store a.2 _ k4 hlt3]
    exact f4

theorem NodePins_found (ds : List PinDecl) (σ : PinStore) (N : UK2Node) (lo : Nat)
    (h : NodePins ds σ N lo) (nm : String) (p : Nat) (hp : FindPin σ.pin N nm = some p) :
    lo ≤ p ∧ p < σ.nextPin
    ∧ ∃ d ∈ ds, d.PinName = nm ∧ (σ.pin p).Direction = d.Direction := by
  obtain ⟨hm, hname⟩ := FindPin_some _ _ _ _ hp
  obtain ⟨h1, _, h3, d, hd, hid⟩ := NodePins_mem ds σ N lo p h hm
  refine ⟨h1, h3, d, hd, ?_, ?_⟩
  · have := congrArg Prod.fst hid
    simp only [ident] at this
    rw [← this, hname]
  · have := congrArg Prod.snd hid
    simpa [ident] using this

theorem MakeLinkTo_namesKept (σ : PinStore) (A : Nat) (ToPin : Option Nat) :
    NamesKept σ (MakeLinkTo σ A ToPin) :=
  NamesKept_of_ident _ _ (MakeLinkTo_ident σ A ToPin 0).2
    (fun q => (MakeLinkTo_ident σ A ToPin q).1)

theorem expandAddTokensNode_spec (E : Engine) (s : State) (rdy : NodeReady E s)
    (M : List (Nat × Nat)) {Dr : List (Nat × Nat)} (σ : PinStore)
    (h : ExpInv Dr s.store s.node.Pins M [] σ)
    (CN : UK2Node)
    (hCN : NodePins (E.FunctionPins s.node.FunctionReference) σ CN s.store.nextPin) :
    ∃ (σ6 : PinStore) (AN : UK2Node) (sf rv th ex : Nat),
      expandAddTokensNode E CN σ = some (σ6, AN)
      ∧ AN.Class = NodeClass.K2Node_CallFunction
      ∧ AN.FunctionReference = AddTokensReference
      ∧ NodePins (E.FunctionPins AddTokensReference) σ6 AN σ.nextPin
      ∧ NamesKept σ σ6
      ∧ FindPin σ6.pin AN PN_Self = some sf
      ∧ FindPin σ6.pin CN PN_ReturnValue = some rv
      ∧ FindPin σ6.pin CN PN_Then = some th
      ∧ FindPin σ6.pin AN PN_Execute = some ex
      ∧ ExpInv Dr s.store s.node.Pins M [(th, ex), (sf, rv)] σ6 := by
  have hmono := h.names.1
  have hN0 := NodePins_create (E.FunctionPins AddTokensReference) σ
    { SpawnIntermediateNode NodeClass.K2Node_CallFunction with
      FunctionReference := AddTokensReference } rfl
  have hsp := createDeclaredPins_spec (E.FunctionPins AddTokensReference) σ
    { SpawnIntermediateNode NodeClass.K2Node_CallFunction with
      FunctionReference := AddTokensReference }
  have hk0 := createDeclaredPins_namesKept (E.FunctionPins AddTokensReference) σ
    { SpawnIntermediateNode NodeClass.K2Node_CallFunction with
      FunctionReference := AddTokensReference }
  have hl0 := createDeclaredPins_links (E.FunctionPins AddTokensReference) σ
    { SpawnIntermediateNode NodeClass.K2Node_CallFunction with
      FunctionReference := AddTokensReference }
    (ExpInv_closed _ _ _ _ _ rdy.bg h)
  have hI0 := ExpInv_later s.store σ _ s.node.Pins M [] h hk0 hl0.2
  generalize hb : (createDeclaredPins (E.FunctionPins AddTokensReference) σ
    { SpawnIntermediateNode NodeClass.K2Node_CallFunction with
      FunctionReference := AddTokensReference }) = b at hN0 hsp hk0 hI0
  have hC0 := NodePins_kept _ σ b.1 CN _ hCN hk0
  -- the pins that get linked
  obtain ⟨sf, hsf⟩ : ∃ p, FindPin b.1.pin b.2 PN_Self = some p := by
    obtain ⟨d, hd, hn⟩ := rdy.addPins PN_Self (by simp)
    exact NodePins_find _ _ _ _ hN0 _ d hd hn
  obtain ⟨rv, hrv⟩ : ∃ p, FindPin b.1.pin CN PN_ReturnValue = some p := by
    obtain ⟨d, hd, hn⟩ := rdy.createPins PN_ReturnValue (by simp [ownPinNames])
    exact NodePins_find _ _ _ _ hC0 _ d hd hn
  have hsfb := NodePins_found _ _ _ _ hN0 _ _ hsf
  have hrvb := NodePins_found _ _ _ _ hC0 _ _ hrv
  have hrvdir : (b.1.pin rv).Direction = EEdGraphPinDirection.EGPD_Output := by
    obtain ⟨d, hd, hn, hdir⟩ := hrvb.2.2
    rw [hdir]
    exact rdy.createOutputs d hd (Or.inr hn)
  have hGR : GetReturnValuePin b.1.pin CN = some (some rv) := by
    simp [GetReturnValuePin, hrv, hrvdir]
  have hI5 := ExpInv_link s.store b.1 s.node.Pins M [] rdy.bg hI0 sf rv
    ⟨by omega, hsfb.2.1⟩ ⟨hrvb.1, hrvb.2.1⟩
  have hk5 := MakeLinkTo_namesKept b.1 sf (some rv)
  have hN5 := NodePins_kept _ _ _ b.2 _ hN0 hk5
  have hC5 := NodePins_kept _ _ _ CN _ hC0 hk5
  obtain ⟨th, hth⟩ : ∃ p, FindPin (MakeLinkTo b.1 sf (some rv)).pin CN PN_Then = some p := by
    obtain ⟨d, hd, hn⟩ := rdy.createPins PN_Then (by simp [ownPinNames])
    exact NodePins_find _ _ _ _ hC5 _ d hd hn
  obtain ⟨ex, hex⟩ : ∃ p, FindPin (MakeLinkTo b.1 sf (some rv)).pin b.2 PN_Execute = some p := by
    obtain ⟨d, hd, hn⟩ := rdy.addPins PN_Execute (by simp)
    exact NodePins_find _ _ _ _ hN5 _ d hd hn
  have hthb := NodePins_found _ _ _ _ hC5 _ _ hth
  have hexb := NodePins_found _ _ _ _ hN5 _ _ hex
  have hthdir : ((MakeLinkTo b.1 sf (some rv)).pin th).Direction
      = EEdGraphPinDirection.EGPD_Output := by
    obtain ⟨d, hd, hn, hdir⟩ := hthb.2.2
    rw [hdir]
    exact rdy.createOutputs d hd (Or.inl hn)
  have hGT : GetThenPin (MakeLinkTo b.1 sf (some rv)).pin CN = some (some th) := by
    simp [GetThenPin, hth, hthdir]
  have hnx5 : (MakeLinkTo b.1 sf (some rv)).nextPin = b.1.nextPin :=
    (MakeLinkTo_ident b.1 sf (some rv) 0).2
  have hI6 := ExpInv_link s.store _ s.node.Pins M _ rdy.bg hI5 th ex
    ⟨hthb.1, hthb.2.1⟩ ⟨by rw [hnx5] at hexb; omega, hexb.2.1⟩
  have hk6 := MakeLinkTo_namesKept (MakeLinkTo b.1 sf (some rv)) th (some ex)
  have hk56 := NamesKept_trans _ _ _ hk5 hk6
  have hltN : ∀ p ∈ b.2.Pins, p < b.1.nextPin := NodePins_lt _ _ _ _ hN0
  have hltC : ∀ p ∈ CN.Pins, p < b.1.nextPin := NodePins_lt _ _ _ _ hC0
  have hltN5 : ∀ p ∈ b.2.Pins, p < (MakeLinkTo b.1 sf (some rv)).nextPin :=
    NodePins_lt _ _ _ _ hN5
  have hltC5 : ∀ p ∈ CN.Pins, p < (MakeLinkTo b.1 sf (some rv)).nextPin :=
    NodePins_lt _ _ _ _ hC5
  refine ⟨MakeLinkTo (MakeLinkTo b.1 sf (some rv)) th (some ex), b.2, sf, rv, th, ex,
    ?_, ?_, ?_, NodePins_kept _ _ _ b.2 _ hN0 hk56, NamesKept_trans _ _ _ hk0 hk56,
    ?_, ?_, ?_, ?_, hI6⟩
  · simp only [expandAddTokensNode, CallFunction_AllocateDefaultPins, hb, hsf, hGR, hGT, hex]
  · rw [hsp.2.2.2.1]; rfl
  · rw [hsp.2.2.1]
  · rw [FindPin_kept _ _ b.2 _ hk56 hltN]; exact hsf
  · rw [FindPin_kept _ _ CN _ hk56 hltC]; exact hrv
  · rw [FindPin_kept _ _ CN _ hk6 hltC5]; exact hth
  · rw [FindPin_kept _ _ b.2 _ hk6 hltN5]; exact hex

theorem expandMakeArrayNode_spec (E : Engine) (s : State) (rdy : NodeReady E s)
    (M I : List (Nat × Nat)) {Dr : List (Nat × Nat)} (σ : PinStore)
    (h : ExpInv Dr s.store s.node.Pins M I σ)
    (AN : UK2Node) (lo2 : Nat)
    (hAN : NodePins (E.FunctionPins AddTokensReference) σ AN lo2)
    (hlo2 : s.store.nextPin ≤ lo2) (n : Nat) :
    ∃ (σ8 : PinStore) (MN : UK2Node) (ao tk : Nat),
      expandMakeArrayNode AN n σ = some (σ8, MN)
      ∧ MN.Class = NodeClass.K2Node_MakeArray
      ∧ MN.NumInputs = (n : Int)
      ∧ NodePins (makeArrayDecls n) σ8 MN σ.nextPin
      ∧ NamesKept σ σ8
      ∧ FindPin σ8.pin MN MakeArrayOutputPinName = some ao
      ∧ FindPin σ8.pin AN "Tokens" = some tk
      ∧ ExpInv Dr s.store s.node.Pins M ((ao, tk) :: I) σ8 := by
  have hmono := h.names.1
  have hdecl : MakeArray_AllocateDefaultPins σ
      { SpawnIntermediateNode NodeClass.K2Node_MakeArray with NumInputs := (n : Int) }
      = createDeclaredPins (makeArrayDecls n) σ
        { SpawnIntermediateNode NodeClass.K2Node_MakeArray with NumInputs := (n : Int) } := by
    rw [MakeArray_AllocateDefaultPins_decls]
    simp
  have hN0 := NodePins_create (makeArrayDecls n) σ
    { SpawnIntermediateNode NodeClass.K2Node_MakeArray with NumInputs := (n : Int) } rfl
  have hsp := createDeclaredPins_spec (makeArrayDecls n) σ
    { SpawnIntermediateNode NodeClass.K2Node_MakeArray with NumInputs := (n : Int) }
  have hk0 := createDeclaredPins_namesKept (makeArrayDecls n) σ
    { SpawnIntermediateNode NodeClass.K2Node_MakeArray with NumInputs := (n : Int) }
  have hl0 := createDeclaredPins_links (makeArrayDecls n) σ
    { SpawnIntermediateNode NodeClass.K2Node_MakeArray with NumInputs := (n : Int) }
    (ExpInv_closed _ _ _ _ _ rdy.bg h)
  have hI0 := ExpInv_later s.store σ _ s.node.Pins M I h hk0 hl0.2
  rw [← hdecl] at hN0 hsp hk0 hI0
  generalize hc : (MakeArray_AllocateDefaultPins σ
    { SpawnIntermediateNode NodeClass.K2Node_MakeArray with NumInputs := (n : Int) }) = c
    at hN0 hsp hk0 hI0
  have hA0 := NodePins_kept _ σ c.1 AN _ hAN hk0
  obtain ⟨ao, hao⟩ : ∃ p, FindPin c.1.pin c.2 MakeArrayOutputPinName = some p := by
    obtain ⟨d, hd, hn⟩ := makeArrayDecls_output n
    exact NodePins_find _ _ _ _ hN0 _ d hd hn
  obtain ⟨tk, htk⟩ : ∃ p, FindPin c.1.pin AN "Tokens" = some p := by
    obtain ⟨d, hd, hn⟩ := rdy.addPins "Tokens" (by simp)
    exact NodePins_find _ _ _ _ hA0 _ d hd hn
  have haob := NodePins_found _ _ _ _ hN0 _ _ hao
  have htkb := NodePins_found _ _ _ _ hA0 _ _ htk
  have hI7 := ExpInv_link s.store c.1 s.node.Pins M I rdy.bg hI0 ao tk
    ⟨by omega, haob.2.1⟩ ⟨by omega, htkb.2.1⟩
  have hk7 := MakeLinkTo_namesKept c.1 ao (some tk)
  obtain ⟨p1, p2, p3⟩ := MakeArray_PinConnectionListChanged_spec
    (MakeLinkTo c.1 ao (some tk)) c.2 ao
  have hk8 := NamesKept_of_ident _ _ p1 p2
  have hI8 := ExpInv_later s.store _ _ s.node.Pins M _ hI7 hk8 p3
  have hk78 := NamesKept_trans _ _ _ hk7 hk8
  have hltN : ∀ p ∈ c.2.Pins, p < c.1.nextPin := NodePins_lt _ _ _ _ hN0
  have hltA : ∀ p ∈ AN.Pins, p < c.1.nextPin := NodePins_lt _ _ _ _ hA0
  refine ⟨MakeArray_PinConnectionListChanged (MakeLinkTo c.1 ao (some tk)) c.2 ao, c.2, ao, tk,
    ?_, ?_, ?_, NodePins_kept _ _ _ c.2 _ hN0 hk78, NamesKept_trans _ _ _ hk0 hk78,
    ?_, ?_, hI8⟩
  · simp only [expandMakeArrayNode, hc, hao, htk]
  · rw [hsp.2.2.2.1]; rfl
  · rw [hsp.2.1]
  · rw [FindPin_kept _ _ c.2 _ hk78 hltN]; exact hao
  · rw [FindPin_kept _ _ AN _ hk78 hltA]; exact htk


/-! ## A schema that allows what is asked is as good as one that allows everything -/

theorem askedLoop_allowed (can : UEdGraphPin → UEdGraphPin → Bool) (To : Nat) (L : List Nat) :
    ∀ acc : PinStore × Bool, (∀ c ∈ askedLoop can To L acc, can c.1 c.2 = true) →
      L.foldl (makeNewLink can To) acc = L.foldl (makeNewLink (fun _ _ => true) To) acc := by
  induction L with
  | nil => intro acc _; rfl
  | cons x rest ih =>
    intro acc h
    have h0 : can (acc.1.pin To) (acc.1.pin x) = true :=
      h (acc.1.pin To, acc.1.pin x) (by simp [askedLoop])
    have hstep : makeNewLink can To acc x = makeNewLink (fun _ _ => true) To acc x := by
      simp [makeNewLink, h0]
    simp only [List.foldl_cons]
    rw [← hstep]
    apply ih
    intro c hc
    exact h c (by simp only [askedLoop, List.mem_cons]; exact Or.inr hc)

theorem MovePinLinks_allowed (can : UEdGraphPin → UEdGraphPin → Bool) (σ : PinStore)
    (S D : Nat) (h : ∀ c ∈ MovePinLinks_asked can σ S D, can c.1 c.2 = true) :
    MovePinLinks can σ S D = MovePinLinks (fun _ _ => true) σ S D := by
  have := askedLoop_allowed can D (σ.pin S).LinkedTo (BreakAllPinLinks σ S, true) h
  simp only [MovePinLinks, this]

theorem CompilerContext_allowed (E : Engine) (x : Expansion) (S D : Nat)
    (h : ∀ c ∈ MovePinLinks_asked E.CanCreateConnection x.store S D,
      E.CanCreateConnection c.1 c.2 = true) :
    CompilerContext_MovePinLinksToIntermediate E x S D
      = CompilerContext_MovePinLinksToIntermediate (permissive E) x S D := by
  have := MovePinLinks_allowed E.CanCreateConnection x.store S D h
  simp only [CompilerContext_MovePinLinksToIntermediate, permissive, this]

theorem MovePinLinksToIntermediate_allowed (E : Engine) (x : Expansion) (From To : UK2Node)
    (nm toName : String)
    (h : ∀ c ∈ MovePinLinksToIntermediate_asked E x From nm To toName,
      E.CanCreateConnection c.1 c.2 = true) :
    MovePinLinksToIntermediate E x From nm To toName
      = MovePinLinksToIntermediate (permissive E) x From nm To toName := by
  unfold MovePinLinksToIntermediate
  unfold MovePinLinksToIntermediate_asked at h
  cases hS : FindPin x.store.pin From nm with
  | none => rfl
  | some S =>
    cases hD : FindPin x.store.pin To toName with
    | none => rfl
    | some D =>
      simp only [hS, hD] at h
      simp only [CompilerContext_allowed E x S D h]

theorem MovePinLinks_flag (can : UEdGraphPin → UEdGraphPin → Bool) (σ : PinStore)
    (S D : Nat) (hsym : SymmetricLinks σ)
    (h : ∀ c ∈ MovePinLinks_asked can σ S D, can c.1 c.2 = true) :
    (MovePinLinks can σ S D).2 = true := by
  rw [MovePinLinks_allowed can σ S D h]
  obtain ⟨_, _, _, k3, _⟩ := MovePinLinks_spec (fun _ _ => true) σ S D hsym
  exact k3 (fun _ _ => rfl)

theorem expandCreateNode_allowed (E : Engine) (This : UK2Node) (x0 : Expansion)
    (h : ∀ c ∈ expandCreateNode_asked E This x0, E.CanCreateConnection c.1 c.2 = true) :
    expandCreateNode E This x0 = expandCreateNode (permissive E) This x0 := by
  simp only [expandCreateNode_asked] at h
  simp only [expandCreateNode]
  have hF : (permissive E).FunctionPins = E.FunctionPins := rfl
  rw [hF]
  rw [← MovePinLinksToIntermediate_allowed E _ _ _ _ _
    (fun c hc => h c (List.mem_append_left _ hc))]
  cases h2 : MovePinLinksToIntermediate E
      { x0 with store := (CallFunction_AllocateDefaultPins E.FunctionPins x0.store
        { SpawnIntermediateNode NodeClass.K2Node_CallFunction with
          FunctionReference := This.FunctionReference }).1 } This PN_Execute
      (CallFunction_AllocateDefaultPins E.FunctionPins x0.store
        { SpawnIntermediateNode NodeClass.K2Node_CallFunction with
          FunctionReference := This.FunctionReference }).2 PN_Execute with
  | none => rfl
  | some x2 =>
    simp only [h2] at h
    simp only
    rw [← MovePinLinksToIntermediate_allowed E _ _ _ _ _
      (fun c hc => h c (List.mem_append_right _ (List.mem_append_left _ hc)))]
    cases h3 : MovePinLinksToIntermediate E x2 This "LogCategory"
        (CallFunction_AllocateDefaultPins E.FunctionPins x0.store
          { SpawnIntermediateNode NodeClass.K2Node_CallFunction with
            FunctionReference := This.FunctionReference }).2 "LogCategory" with
    | none => rfl
    | some x3 =>
      simp only [h3] at h
      simp only
      rw [← MovePinLinksToIntermediate_allowed E _ _ _ _ _
        (fun c hc => h c (List.mem_append_right _ (List.mem_append_right _ hc)))]

theorem NodeReady_permissive (E : Engine) (s : State) (rdy : NodeReady E s) :
    NodeReady (permissive E) s :=
  { bg := rdy.bg
    nodup := rdy.nodup
    ownPins := rdy.ownPins
    ownBase := rdy.ownBase
    createPins := rdy.createPins
    createOutputs := rdy.createOutputs
    addPins := rdy.addPins }

/-! ## The transfer loop -/

theorem transferDynamicPins_spec (E : Engine)
    (s : State) (bg : Background s.store s.node.Pins) (I : List (Nat × Nat))
    (MN : UK2Node) (n lo3 : Nat) (hlo3 : s.store.nextPin ≤ lo3) (l : List Nat) :
    ∀ (Index : Nat) (x : Expansion) (b : Bool) (M Dr : List (Nat × Nat)),
      ExpInv Dr s.store s.node.Pins M I x.store →
      NodePins (makeArrayDecls n) x.store MN lo3 →
      l.Nodup → (∀ d ∈ l, d ∈ s.node.Pins) → (∀ d ∈ l, ∀ m ∈ M, m.1 ≠ d) →
      Index + l.length ≤ n →
      ∃ (y : Expansion × Bool) (M1 Dr1 : List (Nat × Nat)),
        transferDynamicPins E MN l Index (x, b) = some y
        ∧ NamesKept x.store y.1.store
        ∧ ExpInv Dr1 s.store s.node.Pins M1 I y.1.store
        ∧ (∀ m ∈ M, m ∈ M1)
        ∧ (∀ m ∈ M1, m ∈ M ∨ m.1 ∈ l)
        ∧ (∀ (i d : Nat), l[i]? = some d →
            ∃ a, FindPin x.store.pin MN (GetPinName ((Index + i : Nat) : Int)) = some a
              ∧ (d, a) ∈ M1)
        ∧ (∀ m ∈ M1, m ∈ M ∨ ∃ (i d a : Nat), l[i]? = some d
            ∧ FindPin x.store.pin MN (GetPinName ((Index + i : Nat) : Int)) = some a
            ∧ m = (d, a))
        ∧ (∀ e ∈ Dr1, e ∈ Dr ∨ e.1 ∈ l)
        ∧ ((∀ c ∈ transferDynamicPins_asked E MN l Index (x, b),
            E.CanCreateConnection c.1 c.2 = true) → Dr1 = Dr) := by
  induction l with
  | nil =>
    intro Index x b M Dr h _ _ _ _ _
    exact ⟨(x, b), M, Dr, rfl, NamesKept_refl _, h, fun _ hm => hm,
      fun _ hm => Or.inl hm, fun i d hd => by simp at hd, fun _ hm => Or.inl hm,
      fun _ he => Or.inl he, fun _ => rfl⟩
  | cons d rest ih =>
    intro Index x b M Dr h hN hnd hin hnew hlen
    obtain ⟨hd, hrest⟩ := List.nodup_cons.mp hnd
    have hIdx : Index < n := by simp only [List.length_cons] at hlen; omega
    obtain ⟨a, ha⟩ : ∃ p, FindPin x.store.pin MN (GetPinName (Index : Int)) = some p := by
      obtain ⟨dc, hdc, hn⟩ := makeArrayDecls_input n Index hIdx
      exact NodePins_find _ _ _ _ hN _ dc hdc hn
    have hab := NodePins_found _ _ _ _ hN _ _ ha
    obtain ⟨Dr0, m1, m2, m3, m4, _⟩ := ExpInv_move s.store x.store s.node.Pins M I bg h
      E.CanCreateConnection d a (hin d (List.mem_cons_self _ _))
      (hnew d (List.mem_cons_self _ _)) ⟨by omega, hab.2.1⟩
    have hsymx := ExpInv_sym s.store x.store s.node.Pins M I bg h
    have m1c : NamesKept x.store (CompilerContext_MovePinLinksToIntermediate E x d a).1.store :=
      m1
    have m2c : ExpInv Dr0 s.store s.node.Pins ((d, a) :: M) I
        (CompilerContext_MovePinLinksToIntermediate E x d a).1.store := m2
    obtain ⟨y, M1, Dr1, e1, e4, e5, e6, e7, e8, e9, e10, e11⟩ := ih (Index + 1)
      (CompilerContext_MovePinLinksToIntermediate E x d a).1
      (b && (CompilerContext_MovePinLinksToIntermediate E x d a).2)
      ((d, a) :: M) Dr0 m2c (NodePins_kept _ _ _ MN _ hN m1c) hrest
      (fun d1 hd1 => hin d1 (List.mem_cons_of_mem _ hd1))
      (by
        intro d1 hd1 m hm
        rcases List.mem_cons.mp hm with rfl | hm
        · intro e
          have e2 : d = d1 := e
          rw [← e2] at hd1
          exact hd hd1
        · exact hnew d1 (List.mem_cons_of_mem _ hd1) m hm)
      (by simp only [List.length_cons] at hlen; omega)
    have hlt : ∀ p ∈ MN.Pins, p < x.store.nextPin := NodePins_lt _ _ _ _ hN
    have hkeep : ∀ nm,
        FindPin (CompilerContext_MovePinLinksToIntermediate E x d a).1.store.pin MN nm
          = FindPin x.store.pin MN nm :=
      fun nm => FindPin_kept x.store (CompilerContext_MovePinLinksToIntermediate E x d a).1.store
        MN nm m1c hlt
    have ha2 : FindPin x.store.pin MN ("[" ++ toString (Index : Int) ++ "]") = some a := ha
    refine ⟨y, M1, Dr1, ?_, NamesKept_trans _ _ _ m1c e4, e5,
      fun m hm => e6 m (List.mem_cons_of_mem _ hm), ?_, ?_, ?_, ?_, ?_⟩
    · simp only [transferDynamicPins, ha2]
      exact e1
    · intro m hm
      rcases e7 m hm with h1 | h1
      · rcases List.mem_cons.mp h1 with rfl | h1
        · exact Or.inr (List.mem_cons_self _ _)
        · exact Or.inl h1
      · exact Or.inr (List.mem_cons_of_mem _ h1)
    · intro i d1 hi
      cases i with
      | zero =>
        have : d1 = d := by simpa using hi.symm
        subst this
        exact ⟨a, ha, e6 _ (List.mem_cons_self _ _)⟩
      | succ j =>
        have hj : rest[j]? = some d1 := by simpa using hi
        obtain ⟨a1, f1, f2⟩ := e8 j d1 hj
        refine ⟨a1, ?_, f2⟩
        have := hkeep (GetPinName ((Index + 1 + j : Nat) : Int))
        rw [this] at f1
        have e : Index + (j + 1) = Index + 1 + j := by omega
        rw [e]
        exact f1
    · intro m hm
      rcases e9 m hm with h1 | ⟨j, d1, a1, g1, g2, g3⟩
      · rcases List.mem_cons.mp h1 with h1 | h1
        · exact Or.inr ⟨0, d, a, by simp, ha, h1⟩
        · exact Or.inl h1
      · refine Or.inr ⟨j + 1, d1, a1, by simpa using g1, ?_, g3⟩
        have g4 : FindPin x.store.pin MN (GetPinName ((Index + 1 + j : Nat) : Int))
            = some a1 := by
          rw [← hkeep]; exact g2
        have e : Index + (j + 1) = Index + 1 + j := by omega
        rw [e]
        exact g4
    · intro e he
      rcases e10 e he with h1 | h1
      · rcases m4 e h1 with h2 | h2
        · exact Or.inl h2
        · exact Or.inr (by rw [h2]; exact List.mem_cons_self _ _)
      · exact Or.inr (List.mem_cons_of_mem _ h1)
    · intro hall
      simp only [transferDynamicPins_asked, ha2] at hall
      have hflag := MovePinLinks_flag E.CanCreateConnection x.store d a hsymx
        (fun c hc => hall c (List.mem_append_left _ hc))
      rw [e11 (fun c hc => hall c (List.mem_append_right _ hc))]
      exact m3 hflag

/-! ## ExpandNode with dynamic pins -/

theorem ownPin_not_dynamic (E : Engine) (s : State) (rdy : NodeReady E s) (nm : String)
    (hnm : nm ∈ ownPinNames) (S : Nat) (hS : FindPin s.store.pin s.node nm = some S) :
    S ∉ dynamicPins s := by
  intro hin
  exact rdy.ownBase nm hnm S hin hS

theorem ExpandNode_spec (E : Engine) (s : State) (rdy0 : CompileReady E s)
    (hdyn : dynamicPins s ≠ []) :
    ∃ (s1 : State) (w : Wiring), ExpandNode E s = some s1 ∧ ExpandsTo s s1 w
      ∧ (SlotsAllowed E s → w.dropped = []) := by
  have rdy := rdy0.node
  have hne : ¬ (s.node.Pins.filter
      (fun Pin => IsDynamicInputPin (some (s.store.pin Pin)))).length = 0 := by
    intro h0
    exact hdyn (List.length_eq_zero.mp h0)
  have hown := rdy0.can
  simp only [ownConnectionsAsked, hne, if_false] at hown
  have hP : ∀ u v, (permissive E).CanCreateConnection u v = true := fun _ _ => rfl
  -- the five own pins
  have hfind : ∀ nm ∈ ownPinNames, ∃ p, FindPin s.store.pin s.node nm = some p := by
    intro nm hnm
    have := rdy.ownPins nm hnm
    cases h : FindPin s.store.pin s.node nm with
    | none => rw [h] at this; simp at this
    | some p => exact ⟨p, rfl⟩
  obtain ⟨Xe, hXe⟩ := hfind PN_Execute (by simp [ownPinNames])
  obtain ⟨Xl, hXl⟩ := hfind "LogCategory" (by simp [ownPinNames])
  obtain ⟨Xs, hXs⟩ := hfind "Severity" (by simp [ownPinNames])
  obtain ⟨Xt, hXt⟩ := hfind PN_Then (by simp [ownPinNames])
  obtain ⟨Xr, hXr⟩ := hfind PN_ReturnValue (by simp [ownPinNames])
  have hXe_nd := ownPin_not_dynamic E s rdy PN_Execute (by simp [ownPinNames]) Xe hXe
  have hXl_nd := ownPin_not_dynamic E s rdy "LogCategory" (by simp [ownPinNames]) Xl hXl
  have hXs_nd := ownPin_not_dynamic E s rdy "Severity" (by simp [ownPinNames]) Xs hXs
  have hXt_nd := ownPin_not_dynamic E s rdy PN_Then (by simp [ownPinNames]) Xt hXt
  have hXr_nd := ownPin_not_dynamic E s rdy PN_ReturnValue (by simp [ownPinNames]) Xr hXr
  -- the create node
  obtain ⟨x4, CN, ce, cl, cs, eA0, rA, cA1, cA2, nA0, fAe, fAl, fAs, iA⟩ :=
    expandCreateNode_spec (permissive E) s (NodeReady_permissive E s rdy) hP Xe Xl Xs
      hXe hXl hXs
  have nA : NodePins (E.FunctionPins s.node.FunctionReference) x4.store CN s.store.nextPin :=
    nA0
  have eA : expandCreateNode E s.node { store := s.store, errors := s.errors }
      = some (x4, CN) := by
    rw [expandCreateNode_allowed E s.node _ (fun c hc => hown c (List.mem_append_left _ hc))]
    exact eA0
  -- the add-tokens node
  obtain ⟨σ6, AN, sf, rv, th, ex, eB, cB1, cB2, nB, kB, fBs, fBr, fBt, fBe, iB⟩ :=
    expandAddTokensNode_spec E s rdy _ x4.store iA CN nA
  have hlo2 : s.store.nextPin ≤ x4.store.nextPin := iA.names.1
  -- the make-array node
  obtain ⟨σ8, MN, ao, tk, eC, cC1, cC2, nC, kC, fCo, fCt, iC⟩ :=
    expandMakeArrayNode_spec E s rdy _ _ σ6 iB AN x4.store.nextPin nB hlo2
      (dynamicPins s).length
  have hlo3 : s.store.nextPin ≤ σ6.nextPin := iB.names.1
  -- the dynamic pins
  have hdynmem : ∀ d ∈ dynamicPins s, d ∈ s.node.Pins :=
    fun d hd => (List.mem_filter.mp hd).1
  obtain ⟨y, M1, Dr1, eD, kD, iD, mD1, mD2, mD3, mD4, mD5, mD6⟩ :=
    transferDynamicPins_spec E s rdy.bg _ MN (dynamicPins s).length σ6.nextPin hlo3
      (dynamicPins s) 0 { store := σ8, errors := x4.errors } true _ [] iC nC
      (rdy.nodup.filter _) hdynmem
      (by
        intro d hd m hm e
        rcases List.mem_cons.mp hm with h1 | hm
        · rw [h1] at e
          have e2 : Xs = d := e
          rw [← e2] at hd
          exact hXs_nd hd
        · rcases List.mem_cons.mp hm with h1 | hm
          · rw [h1] at e
            have e2 : Xl = d := e
            rw [← e2] at hd
            exact hXl_nd hd
          · have : m = (Xe, ce) := by simpa using hm
            rw [this] at e
            have e2 : Xe = d := e
            rw [← e2] at hd
            exact hXe_nd hd)
      (by omega)
  -- then and ReturnValue
  have nB8 := NodePins_kept _ _ _ AN _ nB kC
  have nA8 := NodePins_kept _ _ _ CN _ nA (NamesKept_trans _ _ _ kB kC)
  have kD2 : NamesKept σ8 y.1.store := kD
  have nBy := NodePins_kept _ _ _ AN _ nB8 kD2
  have nAy := NodePins_kept _ _ _ CN _ nA8 kD2
  have nCy := NodePins_kept _ _ _ MN _ nC kD2
  have hM1 : ∀ m ∈ M1, m.1 = Xs ∨ m.1 = Xl ∨ m.1 = Xe ∨ m.1 ∈ dynamicPins s := by
    intro m hm
    rcases mD2 m hm with h1 | h1
    · rcases List.mem_cons.mp h1 with rfl | h1
      · exact Or.inl rfl
      · rcases List.mem_cons.mp h1 with rfl | h1
        · exact Or.inr (Or.inl rfl)
        · have : m = (Xe, ce) := by simpa using h1
          rw [this]; exact Or.inr (Or.inr (Or.inl rfl))
    · exact Or.inr (Or.inr (Or.inr h1))
  have eD2 : transferDynamicPins E MN
      (s.node.Pins.filter (fun Pin => IsDynamicInputPin (some (s.store.pin Pin)))) 0
      ({ store := σ8, errors := x4.errors }, true) = some y := eD
  have eC2 : expandMakeArrayNode AN
      (s.node.Pins.filter (fun Pin => IsDynamicInputPin (some (s.store.pin Pin)))).length σ6
      = some (σ8, MN) := eC
  have hexp : expandNodes E s = some (CN, AN, MN, { store := σ8, errors := x4.errors }) := by
    simp only [expandNodes, eA, eB, eC2]
  simp only [hexp, expandFinish_askedOwn, eD2] at hown
  obtain ⟨x9, at1, e9p, r9, k9, i9, f9⟩ := moveOwnPin_spec (permissive E) hP s rdy.bg M1 _
    y.1 iD _ AN x4.store.nextPin nBy hlo2 PN_Then PN_Then Xt hXt
    (rdy.addPins PN_Then (by simp))
    (by
      intro m hm
      rcases hM1 m hm with h1 | h1 | h1 | h1
      · rw [h1]; exact ownPin_ne s _ _ _ _ (by decide) hXs hXt
      · rw [h1]; exact ownPin_ne s _ _ _ _ (by decide) hXl hXt
      · rw [h1]; exact ownPin_ne s _ _ _ _ (by decide) hXe hXt
      · intro e; exact hXt_nd (e ▸ h1))
  have e9 : MovePinLinksToIntermediate E y.1 s.node PN_Then AN PN_Then = some x9 := by
    rw [MovePinLinksToIntermediate_allowed E y.1 s.node AN PN_Then PN_Then
      (fun c hc => hown c (List.mem_append_right _ (List.mem_append_left _ hc)))]
    exact e9p
  simp only [e9] at hown
  have nA9 := NodePins_kept _ _ _ CN _ nAy k9
  obtain ⟨x10, cr, e10p, r10, k10, i10, f10⟩ := moveOwnPin_spec (permissive E) hP s rdy.bg _ _
    x9 i9 _ CN s.store.nextPin nA9 (Nat.le_refl _) PN_ReturnValue PN_ReturnValue Xr hXr
    (rdy.createPins PN_ReturnValue (by simp [ownPinNames]))
    (by
      intro m hm
      rcases List.mem_cons.mp hm with rfl | hm
      · exact ownPin_ne s _ _ _ _ (by decide) hXt hXr
      · rcases hM1 m hm with h1 | h1 | h1 | h1
        · rw [h1]; exact ownPin_ne s _ _ _ _ (by decide) hXs hXr
        · rw [h1]; exact ownPin_ne s _ _ _ _ (by decide) hXl hXr
        · rw [h1]; exact ownPin_ne s _ _ _ _ (by decide) hXe hXr
        · intro e; exact hXr_nd (e ▸ h1))
  have e10 : MovePinLinksToIntermediate E x9 s.node PN_ReturnValue CN PN_ReturnValue
      = some x10 := by
    rw [MovePinLinksToIntermediate_allowed E x9 s.node CN PN_ReturnValue PN_ReturnValue
      (fun c hc => hown c (List.mem_append_right _ (List.mem_append_right _ hc)))]
    exact e10p
  -- orphan the node
  have hsym10 := ExpInv_sym _ _ _ _ _ rdy.bg i10
  obtain ⟨_, b2, b3, b4⟩ := BreakAllNodeLinks_spec s.node.Pins x10.store hsym10
  have kF : NamesKept x10.store (BreakAllNodeLinks x10.store s.node) :=
    NamesKept_of_ident _ _ b2 b3
  -- names are kept from every stage to the end
  have k9F := NamesKept_trans _ _ _ k10 kF
  have kyF := NamesKept_trans _ _ _ k9 k9F
  have k8F := NamesKept_trans _ _ _ kD2 kyF
  have k6F := NamesKept_trans _ _ _ kC k8F
  have k4F := NamesKept_trans _ _ _ kB k6F
  have ltA4 : ∀ p ∈ CN.Pins, p < x4.store.nextPin := NodePins_lt _ _ _ _ nA
  have ltA6 : ∀ p ∈ CN.Pins, p < σ6.nextPin :=
    fun p hp => Nat.lt_of_lt_of_le (ltA4 p hp) kB.1
  have ltA9 : ∀ p ∈ CN.Pins, p < x9.store.nextPin := NodePins_lt _ _ _ _ nA9
  have ltB6 : ∀ p ∈ AN.Pins, p < σ6.nextPin := NodePins_lt _ _ _ _ nB
  have ltB8 : ∀ p ∈ AN.Pins, p < σ8.nextPin := NodePins_lt _ _ _ _ nB8
  have ltBy : ∀ p ∈ AN.Pins, p < y.1.store.nextPin := NodePins_lt _ _ _ _ nBy
  have ltC8 : ∀ p ∈ MN.Pins, p < σ8.nextPin := NodePins_lt _ _ _ _ nC
  have hres : ExpandNode E s = some
      { s with
        store := BreakAllNodeLinks x10.store s.node
        errors := if (!y.2) = true then x10.errors + 1 else x10.errors
        intermediate := s.intermediate ++ [CN, AN, MN] } := by
    simp only [ExpandNode, hne, if_false, eA, eB, eC2, expandFinish, eD2, e9, e10]
  refine ⟨_, { CreateNode := CN, AddTokensNode := AN, MakeArrayNode := MN
               ownExecute := Xe, ownLogCategory := Xl, ownSeverity := Xs, ownThen := Xt
               ownReturnValue := Xr, createExecute := ce, createLogCategory := cl
               createSeverity := cs, createThen := th, createReturnValue := rv
               addSelf := sf, addExecute := ex, addThen := at1, addTokens := tk
               arrayOut := ao, moved := (Xr, cr) :: (Xt, at1) :: M1, dropped := Dr1 },
    hres, ?_, ?_⟩
  swap
  · intro hs
    simp only [SlotsAllowed, slotConnectionsAsked, hne, if_false, hexp] at hs
    exact mD6 hs
  have hcr : cr = rv := by
    have h1 : FindPin x9.store.pin CN PN_ReturnValue = some cr := f10
    have h2 : FindPin x9.store.pin CN PN_ReturnValue = some rv := by
      rw [FindPin_kept σ6 x9.store CN _
        (NamesKept_trans _ _ _ kC (NamesKept_trans _ _ _ kD2 k9)) ltA6]
      exact fBr
    rw [h1] at h2
    exact Option.some.inj h2
  subst hcr
  refine
    { spawned := rfl
      node := rfl
      createClass := cA1
      createRef := cA2
      addClass := cB1
      addRef := cB2
      arrayClass := cC1
      arrayNum := cC2
      fresh := ?_
      ownExecute := hXe
      ownLogCategory := hXl
      ownSeverity := hXs
      ownThen := hXt
      ownReturnValue := hXr
      createExecute := by
        show FindPin (BreakAllNodeLinks x10.store s.node).pin CN PN_Execute = some ce
        rw [FindPin_kept _ _ CN _ k4F ltA4]; exact fAe
      createLogCategory := by
        show FindPin (BreakAllNodeLinks x10.store s.node).pin CN "LogCategory" = some cl
        rw [FindPin_kept _ _ CN _ k4F ltA4]; exact fAl
      createSeverity := by
        show FindPin (BreakAllNodeLinks x10.store s.node).pin CN "Severity" = some cs
        rw [FindPin_kept _ _ CN _ k4F ltA4]; exact fAs
      createThen := by
        show FindPin (BreakAllNodeLinks x10.store s.node).pin CN PN_Then = some th
        rw [FindPin_kept _ _ CN _ k6F ltA6]; exact fBt
      createReturnValue := by
        show FindPin (BreakAllNodeLinks x10.store s.node).pin CN PN_ReturnValue = some cr
        rw [FindPin_kept _ _ CN _ k6F ltA6]; exact fBr
      addSelf := by
        show FindPin (BreakAllNodeLinks x10.store s.node).pin AN PN_Self = some sf
        rw [FindPin_kept _ _ AN _ k6F ltB6]; exact fBs
      addExecute := by
        show FindPin (BreakAllNodeLinks x10.store s.node).pin AN PN_Execute = some ex
        rw [FindPin_kept _ _ AN _ k6F ltB6]; exact fBe
      addThen := by
        show FindPin (BreakAllNodeLinks x10.store s.node).pin AN PN_Then = some at1
        rw [FindPin_kept _ _ AN _ kyF ltBy]; exact f9
      addTokens := by
        show FindPin (BreakAllNodeLinks x10.store s.node).pin AN "Tokens" = some tk
        rw [FindPin_kept _ _ AN _ k8F ltB8]; exact fCt
      arrayOut := by
        show FindPin (BreakAllNodeLinks x10.store s.node).pin MN MakeArrayOutputPinName = some ao
        rw [FindPin_kept _ _ MN _ k8F ltC8]; exact fCo
      movedOwn := ?_
      movedDynamic := ?_
      movedFresh := ?_
      movedOnly := ?_
      apart := ?_
      links := ?_
      droppedDynamic := ?_ }
  · -- fresh
    intro p hp
    have hend : x4.store.nextPin ≤ (BreakAllNodeLinks x10.store s.node).nextPin := k4F.1
    rcases hp with hp | hp | hp
    · have := NodePins_mem _ _ _ _ p nA hp
      exact ⟨this.1, Nat.lt_of_lt_of_le this.2.2.1 hend⟩
    · have := NodePins_mem _ _ _ _ p nB hp
      exact ⟨by omega, Nat.lt_of_lt_of_le this.2.2.1 k6F.1⟩
    · have := NodePins_mem _ _ _ _ p nC hp
      exact ⟨by omega, Nat.lt_of_lt_of_le this.2.2.1 k8F.1⟩
  · -- movedOwn
    have h3 : ∀ m ∈ [(Xs, cs), (Xl, cl), (Xe, ce)], m ∈ (Xr, cr) :: (Xt, at1) :: M1 :=
      fun m hm => List.mem_cons_of_mem _ (List.mem_cons_of_mem _ (mD1 m hm))
    exact ⟨h3 _ (by simp), h3 _ (by simp), h3 _ (by simp),
      List.mem_cons_of_mem _ (List.mem_cons_self _ _), List.mem_cons_self _ _⟩
  · -- movedDynamic
    intro i d hd
    obtain ⟨a, fa, ha⟩ := mD3 i d hd
    refine ⟨a, ?_, List.mem_cons_of_mem _ (List.mem_cons_of_mem _ ha)⟩
    show FindPin (BreakAllNodeLinks x10.store s.node).pin MN (GetPinName (i : Int)) = some a
    rw [FindPin_kept _ _ MN _ k8F ltC8]
    simpa using fa
  · -- movedFresh
    intro m hm
    have := i10.moved m hm
    exact ⟨this.1, this.2.1⟩
  · -- movedOnly
    intro m hm
    rcases List.mem_cons.mp hm with h1 | hm
    · exact Or.inl (by rw [h1]; simp)
    · rcases List.mem_cons.mp hm with h1 | hm
      · exact Or.inl (by rw [h1]; simp)
      · rcases mD4 m hm with h1 | ⟨i, d, a, g1, g2, g3⟩
        · refine Or.inl ?_
          rcases List.mem_cons.mp h1 with h2 | h1
          · rw [h2]; simp
          · rcases List.mem_cons.mp h1 with h2 | h1
            · rw [h2]; simp
            · have : m = (Xe, ce) := by simpa using h1
              rw [this]; simp
        · refine Or.inr ⟨i, d, a, g1, ?_, g3⟩
          show FindPin (BreakAllNodeLinks x10.store s.node).pin MN (GetPinName (i : Int))
            = some a
          rw [FindPin_kept _ _ MN _ k8F ltC8]
          simpa using g2
  · -- apart
    intro p
    constructor
    · intro hp
      have hA := NodePins_mem _ _ _ _ p nA hp
      constructor
      · intro hq
        have hB := NodePins_mem _ _ _ _ p nB hq
        omega
      · intro hq
        have hC := NodePins_mem _ _ _ _ p nC hq
        have := kB.1
        omega
    · intro hp hq
      have hB := NodePins_mem _ _ _ _ p nB hp
      have hC := NodePins_mem _ _ _ _ p nC hq
      omega
  · -- links
    intro q x
    show Linked (BreakAllNodeLinks x10.store s.node) q x ↔ _
    have hb : Linked (BreakAllNodeLinks x10.store s.node) q x
        ↔ Linked x10.store q x ∧ q ∉ s.node.Pins ∧ x ∉ s.node.Pins := b4 q x
    rw [hb, i10.links q x]
    constructor
    · rintro ⟨h1, hq, hx⟩
      refine ⟨hq, hx, ?_⟩
      rcases h1 with ⟨a1, _⟩ | a1 | a1 | a1 | a1
      · exact Or.inl a1
      · exact Or.inr (Or.inl a1)
      · exact Or.inr (Or.inr (Or.inl a1))
      · exact Or.inr (Or.inr (Or.inr (Or.inl a1)))
      · exact Or.inr (Or.inr (Or.inr (Or.inr a1)))
    · rintro ⟨hq, hx, h1⟩
      refine ⟨?_, hq, hx⟩
      rcases h1 with a1 | a1 | a1 | a1 | a1
      · refine Or.inl ⟨a1, fun m hm => ⟨?_, ?_⟩⟩
        · intro e; exact hq (e ▸ (i10.moved m hm).1)
        · intro e; exact hx (e ▸ (i10.moved m hm).1)
      · exact Or.inr (Or.inl a1)
      · exact Or.inr (Or.inr (Or.inl a1))
      · exact Or.inr (Or.inr (Or.inr (Or.inl a1)))
      · exact Or.inr (Or.inr (Or.inr (Or.inr a1)))
  · -- droppedDynamic
    intro e he
    rcases mD5 e he with h1 | h1
    · simp at h1
    · exact h1

theorem ExpandsTo_moved (E : Engine) (s s1 : State) (w : Wiring) (rdy : NodeReady E s)
    (h : ExpandsTo s s1 w) (S D : Nat) (hm : (S, D) ∈ w.moved) (x : Nat)
    (hx : Linked s.store S x) (hkept : (S, x) ∉ w.dropped) :
    Linked s1.store D x ∧ Linked s1.store x D := by
  obtain ⟨hS, hD⟩ := h.movedFresh (S, D) hm
  have hDn : D ∉ s.node.Pins := by
    intro hin
    have := rdy.bg.alloc D hin
    simp only at hD
    omega
  have hxn : x ∉ s.node.Pins := rdy.bg.ext S hS x hx
  constructor
  · rw [h.links D x]
    exact ⟨hDn, hxn, Or.inr (Or.inl ⟨(S, D), hm, rfl, hx, hkept⟩)⟩
  · rw [h.links x D]
    exact ⟨hxn, hDn, Or.inr (Or.inr (Or.inl ⟨(S, D), hm, rfl, hx, hkept⟩))⟩

theorem ExpandsTo_movedOwn (E : Engine) (s s1 : State) (w : Wiring) (rdy : NodeReady E s)
    (h : ExpandsTo s s1 w) (nm : String) (hnm : nm ∈ ownPinNames) (S D : Nat)
    (hS : FindPin s.store.pin s.node nm = some S) (hm : (S, D) ∈ w.moved) (x : Nat)
    (hx : Linked s.store S x) : Linked s1.store D x ∧ Linked s1.store x D := by
  apply ExpandsTo_moved E s s1 w rdy h S D hm x hx
  intro hd
  exact ownPin_not_dynamic E s rdy nm hnm S hS (h.droppedDynamic _ hd)

theorem ExpandsTo_orphan (s s1 : State) (w : Wiring) (h : ExpandsTo s s1 w)
    (p : Nat) (hp : p ∈ s.node.Pins) : (s1.store.pin p).LinkedTo = [] := by
  rw [List.eq_nil_iff_forall_not_mem]
  intro x hx
  have : Linked s1.store p x := hx
  rw [h.links p x] at this
  exact this.1 hp

theorem ExpandsTo_internal (E : Engine) (s s1 : State) (w : Wiring) (rdy : NodeReady E s)
    (h : ExpandsTo s s1 w) (q x : Nat)
    (hq : s.store.nextPin ≤ q) (hx : s.store.nextPin ≤ x) :
    Linked s1.store q x ↔ (q, x) ∈ w.internal ∨ (x, q) ∈ w.internal := by
  have hqn : q ∉ s.node.Pins := fun hin => by have := rdy.bg.alloc q hin; omega
  have hxn : x ∉ s.node.Pins := fun hin => by have := rdy.bg.alloc x hin; omega
  rw [h.links q x]
  constructor
  · rintro ⟨_, _, h1 | ⟨m, _, _, h2⟩ | ⟨m, _, _, h2⟩ | h1 | h1⟩
    · have := (rdy.bg.closed q x h1).1
      omega
    · have := (rdy.bg.closed _ _ h2.1).2
      omega
    · have := (rdy.bg.closed _ _ h2.1).2
      omega
    · exact Or.inl h1
    · exact Or.inr h1
  · rintro (h1 | h1)
    · exact ⟨hqn, hxn, Or.inr (Or.inr (Or.inr (Or.inl h1)))⟩
    · exact ⟨hqn, hxn, Or.inr (Or.inr (Or.inr (Or.inr h1)))⟩


theorem linkedState_node (E : Engine) (hF : E.FunctionPins = sampleFunctionPins) :
    NodeReady E linkedState := by
  have hempty : ∀ a, 12 ≤ a → (linkedState.store.pin a).LinkedTo = [] := by
    intro a ha
    rcases a with _ | _ | _ | _ | _ | _ | _ | _ | _ | _ | _ | _ | a
    all_goals first | omega | rfl
  have hsymb : ∀ a, a < 12 → ∀ b ∈ (linkedState.store.pin a).LinkedTo,
      a ∈ (linkedState.store.pin b).LinkedTo ∧ b < 12 := by decide
  have hext : ∀ p ∈ linkedState.node.Pins, ∀ x ∈ (linkedState.store.pin p).LinkedTo,
      x ∉ linkedState.node.Pins := by decide
  have hlt : ∀ a b, Linked linkedState.store a b → a < 12 := by
    intro a b hab
    by_contra hge
    have := hempty a (by omega)
    unfold Linked at hab
    rw [this] at hab
    simp at hab
  refine
    { bg :=
        { sym := fun a b hab => (hsymb a (hlt a b hab) b hab).1
          closed := fun a b hab => ⟨hlt a b hab, (hsymb a (hlt a b hab) b hab).2⟩
          alloc := by decide
          ext := fun p hp x hx => hext p hp x hx }
      nodup := by decide
      ownPins := by decide
      ownBase := by decide
      createPins := by rw [hF]; decide
      createOutputs := by rw [hF]; decide
      addPins := by rw [hF]; decide }

theorem linkedState_strict : CompileReady strictEngine linkedState :=
  { node := linkedState_node strictEngine rfl
    can := by decide }

theorem linkedState_slots : SlotsAllowed strictEngine linkedState := by
  unfold SlotsAllowed
  decide

theorem linkedState_picky : CompileReady pickyEngine linkedState :=
  { node := linkedState_node pickyEngine rfl
    can := by decide }

theorem dynamicPins_ne_nil (s : State) (n : Nat) (hn : (dynamicPins s).length = n)
    (hpos : 1 ≤ n) : dynamicPins s ≠ [] := by
  intro h
  rw [h] at hn
  simp at hn
  omega

theorem GetPinName_ne_output (i : Nat) : GetPinName (i : Int) ≠ MakeArrayOutputPinName := by
  intro e
  have := congrArg String.data e
  rw [GetPinName_data] at this
  simp [MakeArrayOutputPinName] at this

theorem ExpandsTo_arrayInput (E : Engine) (s s1 : State) (w : Wiring) (rdy : NodeReady E s)
    (h : ExpandsTo s s1 w) (i d a : Nat) (hd : (dynamicPins s)[i]? = some d)
    (ha : FindPin s1.store.pin w.MakeArrayNode (GetPinName (i : Int)) = some a)
    (hdr : w.dropped = []) (x : Nat) :
    (Linked s1.store a x ↔ Linked s.store d x) ∧ (Linked s1.store x a ↔ Linked s.store d x) := by
  obtain ⟨ham, han⟩ := FindPin_some _ _ _ _ ha
  have hfresh : s.store.nextPin ≤ a := (h.fresh a (Or.inr (Or.inr ham))).1
  have hmoved : (d, a) ∈ w.moved := by
    obtain ⟨a1, f1, f2⟩ := h.movedDynamic i d hd
    rw [ha] at f1
    rw [Option.some.inj f1]
    exact f2
  -- pins of the other two nodes are not the array input
  have hCN : ∀ (nm : String) (p : Nat), FindPin s1.store.pin w.CreateNode nm = some p → a ≠ p := by
    intro nm p hp e
    have hm := (FindPin_some _ _ _ _ hp).1
    rw [← e] at hm
    exact ((h.apart a).1 hm).2 ham
  have hAN : ∀ (nm : String) (p : Nat), FindPin s1.store.pin w.AddTokensNode nm = some p →
      a ≠ p := by
    intro nm p hp e
    have hm := (FindPin_some _ _ _ _ hp).1
    rw [← e] at hm
    exact (h.apart a).2 hm ham
  have hout : a ≠ w.arrayOut := by
    intro e
    have h2 := (FindPin_some _ _ _ _ h.arrayOut).2
    rw [← e, han] at h2
    exact GetPinName_ne_output i h2
  -- the only pin moved to the array input is `d`
  have honly : ∀ m ∈ w.moved, a = m.2 → m.1 = d := by
    intro m hm e
    rcases h.movedOnly m hm with h1 | ⟨j, d1, a1, g1, g2, g3⟩
    · simp only [List.mem_cons, List.mem_singleton, List.not_mem_nil, or_false] at h1
      rcases h1 with rfl | rfl | rfl | rfl | rfl
      · exact absurd e (hCN _ _ h.createExecute)
      · exact absurd e (hCN _ _ h.createLogCategory)
      · exact absurd e (hCN _ _ h.createSeverity)
      · exact absurd e (hAN _ _ h.addThen)
      · exact absurd e (hCN _ _ h.createReturnValue)
    · rw [g3] at e ⊢
      have e2 : a = a1 := e
      have hn1 := (FindPin_some _ _ _ _ g2).2
      rw [← e2, han] at hn1
      have hij := GetPinName_injective i j hn1
      rw [← hij, hd] at g1
      exact (Option.some.inj g1).symm
  have hint1 : ∀ y, (a, y) ∉ w.internal := by
    intro y hy
    simp only [Wiring.internal, List.mem_cons, Prod.mk.injEq, List.mem_singleton,
      List.not_mem_nil, or_false] at hy
    rcases hy with ⟨e, _⟩ | ⟨e, _⟩ | ⟨e, _⟩
    · exact hout e
    · exact hCN _ _ h.createThen e
    · exact hAN _ _ h.addSelf e
  have hint2 : ∀ y, (y, a) ∉ w.internal := by
    intro y hy
    simp only [Wiring.internal, List.mem_cons, Prod.mk.injEq, List.mem_singleton,
      List.not_mem_nil, or_false] at hy
    rcases hy with ⟨_, e⟩ | ⟨_, e⟩ | ⟨_, e⟩
    · exact hAN _ _ h.addTokens e
    · exact hAN _ _ h.addExecute e
    · exact hCN _ _ h.createReturnValue e
  have hold1 : ∀ y, ¬ Linked s.store a y := by
    intro y hy
    have := (rdy.bg.closed a y hy).1
    omega
  have hold2 : ∀ y, ¬ Linked s.store y a := by
    intro y hy
    have := (rdy.bg.closed y a hy).2
    omega
  constructor
  · constructor
    · intro hl
      rw [h.links a x] at hl
      rcases hl with ⟨_, _, h1 | ⟨m, hm, e, h2⟩ | ⟨m, _, _, h2⟩ | h1 | h1⟩
      · exact absurd h1 (hold1 x)
      · rw [honly m hm e] at h2; exact h2.1
      · exact absurd h2.1 (hold2 _)
      · exact absurd h1 (hint1 x)
      · exact absurd h1 (hint2 x)
    · intro hl
      exact (ExpandsTo_moved E s s1 w rdy h d a hmoved x hl (by rw [hdr]; simp)).1
  · constructor
    · intro hl
      rw [h.links x a] at hl
      rcases hl with ⟨_, _, h1 | ⟨m, _, _, h2⟩ | ⟨m, hm, e, h2⟩ | h1 | h1⟩
      · exact absurd h1 (hold2 x)
      · exact absurd h2.1 (hold2 _)
      · rw [honly m hm e] at h2; exact h2.1
      · exact absurd h1 (hint2 x)
      · exact absurd h1 (hint1 x)
    · intro hl
      exact (ExpandsTo_moved E s s1 w rdy h d a hmoved x hl (by rw [hdr]; simp)).2

/-- C3. For every node with `n ≥ 1` dynamic input pins, compiled in a situation as
`CompileReady` describes (the schema allows the connections `ExpandNode` asks for the links
of its execute, LogCategory, Severity, then and ReturnValue pins, whatever it answers else),
`ExpandNode` returns and has spawned exactly three intermediate nodes: a call node carrying
the node's own `FunctionReference`, a call node for `AddTokens`, and a make-array node with
`NumInputs = n`.  They are wired to each other by the create node's return value and the
append node's self pin, the create node's then pin and the append node's execute pin, and
the make-array node's output pin and the append node's `Tokens` pin; and no other link joins
two pins of the three nodes. -/
theorem ExpandNode_spawns_three_nodes (E : Engine) (s : State) (rdy : CompileReady E s)
    (n : Nat) (hn : (dynamicPins s).length = n) (hpos : 1 ≤ n) :
    ∃ (s1 : State) (CreateNode AddTokensNode MakeArrayNode : UK2Node)
      (ret self_ then_ exec out tokens : Nat),
      ExpandNode E s = some s1
      ∧ s1.intermediate = s.intermediate ++ [CreateNode, AddTokensNode, MakeArrayNode]
      ∧ CreateNode.Class = NodeClass.K2Node_CallFunction
      ∧ CreateNode.FunctionReference = s.node.FunctionReference
      ∧ AddTokensNode.Class = NodeClass.K2Node_CallFunction
      ∧ AddTokensNode.FunctionReference = AddTokensReference
      ∧ MakeArrayNode.Class = NodeClass.K2Node_MakeArray
      ∧ MakeArrayNode.NumInputs = (n : Int)
      ∧ FindPin s1.store.pin CreateNode PN_ReturnValue = some ret
      ∧ FindPin s1.store.pin AddTokensNode PN_Self = some self_
      ∧ FindPin s1.store.pin CreateNode PN_Then = some then_
      ∧ FindPin s1.store.pin AddTokensNode PN_Execute = some exec
      ∧ FindPin s1.store.pin MakeArrayNode MakeArrayOutputPinName = some out
      ∧ FindPin s1.store.pin AddTokensNode "Tokens" = some tokens
      ∧ (Linked s1.store self_ ret ∧ Linked s1.store ret self_)
      ∧ (Linked s1.store then_ exec ∧ Linked s1.store exec then_)
      ∧ (Linked s1.store out tokens ∧ Linked s1.store tokens out)
      ∧ ∀ q x,
          q ∈ CreateNode.Pins ∨ q ∈ AddTokensNode.Pins ∨ q ∈ MakeArrayNode.Pins →
          x ∈ CreateNode.Pins ∨ x ∈ AddTokensNode.Pins ∨ x ∈ MakeArrayNode.Pins →
          Linked s1.store q x →
          (q, x) ∈ [(self_, ret), (ret, self_), (then_, exec), (exec, then_),
            (out, tokens), (tokens, out)] := by
  obtain ⟨s1, w, hres, h, _⟩ := ExpandNode_spec E s rdy (dynamicPins_ne_nil s n hn hpos)
  have hfr : ∀ (N : UK2Node) (nm : String) (p : Nat),
      N = w.CreateNode ∨ N = w.AddTokensNode ∨ N = w.MakeArrayNode →
      FindPin s1.store.pin N nm = some p → s.store.nextPin ≤ p := by
    intro N nm p hN hp
    have hm := (FindPin_some _ _ _ _ hp).1
    rcases hN with rfl | rfl | rfl
    · exact (h.fresh p (Or.inl hm)).1
    · exact (h.fresh p (Or.inr (Or.inl hm))).1
    · exact (h.fresh p (Or.inr (Or.inr hm))).1
  have hret := hfr _ _ _ (Or.inl rfl) h.createReturnValue
  have hself := hfr _ _ _ (Or.inr (Or.inl rfl)) h.addSelf
  have hthen := hfr _ _ _ (Or.inl rfl) h.createThen
  have hexec := hfr _ _ _ (Or.inr (Or.inl rfl)) h.addExecute
  have hout := hfr _ _ _ (Or.inr (Or.inr rfl)) h.arrayOut
  have htok := hfr _ _ _ (Or.inr (Or.inl rfl)) h.addTokens
  refine ⟨s1, w.CreateNode, w.AddTokensNode, w.MakeArrayNode, w.createReturnValue, w.addSelf,
    w.createThen, w.addExecute, w.arrayOut, w.addTokens, hres, h.spawned, h.createClass,
    h.createRef, h.addClass, h.addRef, h.arrayClass, ?_, h.createReturnValue, h.addSelf,
    h.createThen, h.addExecute, h.arrayOut, h.addTokens, ?_, ?_, ?_, ?_⟩
  · rw [h.arrayNum, hn]
  · exact ⟨(ExpandsTo_internal E s s1 w rdy.node h _ _ hself hret).mpr
        (Or.inl (by simp [Wiring.internal])),
      (ExpandsTo_internal E s s1 w rdy.node h _ _ hret hself).mpr
        (Or.inr (by simp [Wiring.internal]))⟩
  · exact ⟨(ExpandsTo_internal E s s1 w rdy.node h _ _ hthen hexec).mpr
        (Or.inl (by simp [Wiring.internal])),
      (ExpandsTo_internal E s s1 w rdy.node h _ _ hexec hthen).mpr
        (Or.inr (by simp [Wiring.internal]))⟩
  · exact ⟨(ExpandsTo_internal E s s1 w rdy.node h _ _ hout htok).mpr
        (Or.inl (by simp [Wiring.internal])),
      (ExpandsTo_internal E s s1 w rdy.node h _ _ htok hout).mpr
        (Or.inr (by simp [Wiring.internal]))⟩
  · intro q x hq hx hl
    have h1 := (ExpandsTo_internal E s s1 w rdy.node h q x (h.fresh q hq).1
      (h.fresh x hx).1).mp hl
    simp only [Wiring.internal, List.mem_cons, Prod.mk.injEq, List.mem_singleton,
      List.not_mem_nil, or_false] at h1 ⊢
    rcases h1 with (⟨e1, e2⟩ | ⟨e1, e2⟩ | ⟨e1, e2⟩) | (⟨e1, e2⟩ | ⟨e1, e2⟩ | ⟨e1, e2⟩)
    · exact Or.inr (Or.inr (Or.inr (Or.inr (Or.inl ⟨e1, e2⟩))))
    · exact Or.inr (Or.inr (Or.inl ⟨e1, e2⟩))
    · exact Or.inl ⟨e1, e2⟩
    · exact Or.inr (Or.inr (Or.inr (Or.inr (Or.inr ⟨e2, e1⟩))))
    · exact Or.inr (Or.inr (Or.inr (Or.inl ⟨e2, e1⟩)))
    · exact Or.inr (Or.inl ⟨e2, e1⟩)

/-- Witness for C3: `linkedState` has two dynamic pins and is ready for compilation with
`pickyEngine`, whose schema refuses connections between pins of the same direction or of
different categories and every connection of a token pin; its expansion returns a state
with three more intermediate nodes, the last of them a make-array node with two inputs. -/
theorem ExpandNode_spawns_three_nodes_witness :
    (dynamicPins linkedState).length = 2
    ∧ pickyEngine.CanCreateConnection (linkedState.store.pin 5) (linkedState.store.pin 3)
        = false
    ∧ ∃ (s1 : State) (CreateNode AddTokensNode MakeArrayNode : UK2Node),
        ExpandNode pickyEngine linkedState = some s1
        ∧ s1.intermediate = [CreateNode, AddTokensNode, MakeArrayNode]
        ∧ MakeArrayNode.NumInputs = 2 := by
  refine ⟨by decide, by decide, ?_⟩
  obtain ⟨s1, CN, AN, MN, _, _, _, _, _, _, h1, h2, _, _, _, _, _, h3, _⟩ :=
    ExpandNode_spawns_three_nodes pickyEngine linkedState linkedState_picky 2
      (by decide) (by decide)
  exact ⟨s1, CN, AN, MN, h1, h2, h3⟩

/-- C4. `ExpandNode` transfers the slots to the array in order.  For every node with
`n ≥ 1` dynamic input pins, compiled in a situation as `CompileReady` describes and with a
schema that allows the connections the transfer loop asks for (`SlotsAllowed`), the
make-array node is allocated with
`NumInputs = n` and there are `n` pairwise different pins `inputs` of it such that for every
`i < n`: the lookup of `"[i]"` on the make-array node does not fail and gives `inputs[i]`;
after `ExpandNode` the links of `inputs[i]`, on both ends, are exactly the links that the
`i`-th dynamic input pin had, counted in `Pins` order among the pins satisfying
`IsDynamicInputPin` whatever their names; and that dynamic pin keeps none.  So no two
dynamic pins are moved to the same array input. -/
theorem ExpandNode_transfers_slots (E : Engine) (s : State) (rdy : CompileReady E s)
    (hslots : SlotsAllowed E s) (n : Nat) (hn : (dynamicPins s).length = n) (hpos : 1 ≤ n) :
    ∃ (s1 : State) (CreateNode AddTokensNode MakeArrayNode : UK2Node) (inputs : List Nat),
      ExpandNode E s = some s1
      ∧ s1.intermediate = s.intermediate ++ [CreateNode, AddTokensNode, MakeArrayNode]
      ∧ MakeArrayNode.NumInputs = (n : Int)
      ∧ inputs.length = n
      ∧ inputs.Nodup
      ∧ (∀ a ∈ inputs, a ∈ MakeArrayNode.Pins)
      ∧ (∀ i, i < n → ∃ d ArrayIn,
          (dynamicPins s)[i]? = some d
          ∧ inputs[i]? = some ArrayIn
          ∧ FindPin s1.store.pin MakeArrayNode (GetPinName (i : Int)) = some ArrayIn
          ∧ (s1.store.pin ArrayIn).PinName = "[" ++ toString i ++ "]"
          ∧ (∀ x, Linked s1.store ArrayIn x ↔ Linked s.store d x)
          ∧ (∀ x, Linked s1.store x ArrayIn ↔ Linked s.store d x)
          ∧ (s1.store.pin d).LinkedTo = [])
      ∧ ∀ (i j : Nat) (a : Nat),
          FindPin s1.store.pin MakeArrayNode (GetPinName (i : Int)) = some a →
          FindPin s1.store.pin MakeArrayNode (GetPinName (j : Int)) = some a → i = j := by
  obtain ⟨s1, w, hres, h, hdr0⟩ := ExpandNode_spec E s rdy (dynamicPins_ne_nil s n hn hpos)
  have hdr := hdr0 hslots
  have hfind : ∀ i, i < n → ∃ d a, (dynamicPins s)[i]? = some d
      ∧ FindPin s1.store.pin w.MakeArrayNode (GetPinName (i : Int)) = some a := by
    intro i hi
    have hd : (dynamicPins s)[i]? = some ((dynamicPins s)[i]) :=
      List.getElem?_eq_getElem (by omega)
    obtain ⟨a, fa, _⟩ := h.movedDynamic i _ hd
    exact ⟨_, a, hd, fa⟩
  have hinj : ∀ (i j : Nat) (a : Nat),
      FindPin s1.store.pin w.MakeArrayNode (GetPinName (i : Int)) = some a →
      FindPin s1.store.pin w.MakeArrayNode (GetPinName (j : Int)) = some a → i = j := by
    intro i j a hi hj
    have e1 := (FindPin_some _ _ _ _ hi).2
    have e2 := (FindPin_some _ _ _ _ hj).2
    rw [e1] at e2
    exact GetPinName_injective i j e2
  refine ⟨s1, w.CreateNode, w.AddTokensNode, w.MakeArrayNode,
    (List.range n).map
      (fun i : Nat => (FindPin s1.store.pin w.MakeArrayNode (GetPinName (i : Int))).getD 0),
    hres, h.spawned, ?_, by simp, ?_, ?_, ?_, hinj⟩
  · rw [h.arrayNum, hn]
  · apply List.Nodup.map_on _ (List.nodup_range n)
    intro i hi j hj e
    obtain ⟨_, a, _, fa⟩ := hfind i (List.mem_range.mp hi)
    obtain ⟨_, b, _, fb⟩ := hfind j (List.mem_range.mp hj)
    rw [fa, fb] at e
    simp only [Option.getD_some] at e
    rw [← e] at fb
    exact hinj i j a fa fb
  · intro a ha
    obtain ⟨i, hi, e⟩ := List.mem_map.mp ha
    obtain ⟨_, b, _, fb⟩ := hfind i (List.mem_range.mp hi)
    rw [fb] at e
    simp only [Option.getD_some] at e
    rw [← e]
    exact (FindPin_some _ _ _ _ fb).1
  · intro i hi
    obtain ⟨d, a, hd, fa⟩ := hfind i hi
    have hmv : (d, a) ∈ w.moved := by
      obtain ⟨a1, f1, f2⟩ := h.movedDynamic i d hd
      rw [fa] at f1
      rw [Option.some.inj f1]
      exact f2
    refine ⟨d, a, hd, ?_, fa, ?_, ?_, ?_, ?_⟩
    · rw [List.getElem?_map, List.getElem?_range hi]
      simp [fa]
    · rw [(FindPin_some _ _ _ _ fa).2]; rfl
    · intro x
      exact (ExpandsTo_arrayInput E s s1 w rdy.node h i d a hd fa hdr x).1
    · intro x
      exact (ExpandsTo_arrayInput E s s1 w rdy.node h i d a hd fa hdr x).2
    · exact ExpandsTo_orphan s s1 w h _ (h.movedFresh _ hmv).1

/-- Witness for C4: in the expansion of `linkedState` with `strictEngine` the input `"[0]"` of
the make-array node is linked to pin 1, which the first token pin (pin 10) was linked to, and
the input `"[1]"` to pin 2, which the second token pin (pin 11) was linked to. -/
theorem ExpandNode_transfers_slots_witness :
    (dynamicPins linkedState).length = 2
    ∧ ∃ (s1 : State) (MakeArrayNode : UK2Node) (a0 a1 : Nat),
        ExpandNode strictEngine linkedState = some s1
        ∧ MakeArrayNode.NumInputs = 2
        ∧ FindPin s1.store.pin MakeArrayNode "[0]" = some a0
        ∧ FindPin s1.store.pin MakeArrayNode "[1]" = some a1
        ∧ a0 ≠ a1
        ∧ Linked s1.store a0 1 ∧ Linked s1.store a1 2 := by
  refine ⟨by decide, ?_⟩
  obtain ⟨s1, _, _, MN, inputs, h1, _, h3, _, hnd, _, h7, _⟩ :=
    ExpandNode_transfers_slots strictEngine linkedState linkedState_strict linkedState_slots 2
      (by decide) (by decide)
  obtain ⟨d0, a0, hd0, hi0, f0, _, l0, _, _⟩ := h7 0 (by decide)
  obtain ⟨d1, a1, hd1, hi1, f1, _, l1, _, _⟩ := h7 1 (by decide)
  have e0 : d0 = 10 := by
    have : (dynamicPins linkedState)[0]? = some 10 := by decide
    rw [this] at hd0
    exact (Option.some.inj hd0).symm
  have e1 : d1 = 11 := by
    have : (dynamicPins linkedState)[1]? = some 11 := by decide
    rw [this] at hd1
    exact (Option.some.inj hd1).symm
  subst e0
  subst e1
  refine ⟨s1, MN, a0, a1, h1, h3, f0, f1, ?_, (l0 1).mpr (by unfold Linked; decide),
    (l1 2).mpr (by unfold Linked; decide)⟩
  intro e
  rw [e] at hi0
  have hne : (0 : Nat) ≠ 1 := by decide
  exact hne ((List.getElem?_inj (by
    have := (List.getElem?_eq_some_iff.mp hi0).1
    exact this) hnd (hi0.trans hi1.symm)))

/-- C5. `ExpandNode` substitutes the node in the surrounding graph.  For every node with at
least one dynamic input pin, compiled in a situation as `CompileReady` describes (the schema
allows the connections `ExpandNode` asks for the links of these five pins, whatever it
answers else), after `ExpandNode` the links that were on the
node's execute, LogCategory and Severity pins are on the pins of the same names of the
create node, the links that were on its then pin are on the then pin of the append
(`AddTokens`) node, the links that were on its ReturnValue pin are on the ReturnValue pin
of the create node, each on both ends of the link; and no pin of the original node has a
link left. -/
theorem ExpandNode_substitutes_node (E : Engine) (s : State) (rdy : CompileReady E s)
    (hdyn : 1 ≤ (dynamicPins s).length) :
    ∃ (s1 : State) (CreateNode AddTokensNode MakeArrayNode : UK2Node)
      (ownExecute ownLogCategory ownSeverity ownThen ownReturnValue : Nat)
      (createExecute createLogCategory createSeverity addThen createReturnValue : Nat),
      ExpandNode E s = some s1
      ∧ s1.intermediate = s.intermediate ++ [CreateNode, AddTokensNode, MakeArrayNode]
      ∧ s1.node = s.node
      ∧ FindPin s.store.pin s.node PN_Execute = some ownExecute
      ∧ FindPin s.store.pin s.node "LogCategory" = some ownLogCategory
      ∧ FindPin s.store.pin s.node "Severity" = some ownSeverity
      ∧ FindPin s.store.pin s.node PN_Then = some ownThen
      ∧ FindPin s.store.pin s.node PN_ReturnValue = some ownReturnValue
      ∧ FindPin s1.store.pin CreateNode PN_Execute = some createExecute
      ∧ FindPin s1.store.pin CreateNode "LogCategory" = some createLogCategory
      ∧ FindPin s1.store.pin CreateNode "Severity" = some createSeverity
      ∧ FindPin s1.store.pin AddTokensNode PN_Then = some addThen
      ∧ FindPin s1.store.pin CreateNode PN_ReturnValue = some createReturnValue
      ∧ (∀ x, Linked s.store ownExecute x →
          Linked s1.store createExecute x ∧ Linked s1.store x createExecute)
      ∧ (∀ x, Linked s.store ownLogCategory x →
          Linked s1.store createLogCategory x ∧ Linked s1.store x createLogCategory)
      ∧ (∀ x, Linked s.store ownSeverity x →
          Linked s1.store createSeverity x ∧ Linked s1.store x createSeverity)
      ∧ (∀ x, Linked s.store ownThen x →
          Linked s1.store addThen x ∧ Linked s1.store x addThen)
      ∧ (∀ x, Linked s.store ownReturnValue x →
          Linked s1.store createReturnValue x ∧ Linked s1.store x createReturnValue)
      ∧ ∀ p ∈ s.node.Pins, (s1.store.pin p).LinkedTo = [] := by
  obtain ⟨s1, w, hres, h, _⟩ := ExpandNode_spec E s rdy
    (dynamicPins_ne_nil s _ rfl hdyn)
  obtain ⟨m1, m2, m3, m4, m5⟩ := h.movedOwn
  exact ⟨s1, w.CreateNode, w.AddTokensNode, w.MakeArrayNode, w.ownExecute, w.ownLogCategory,
    w.ownSeverity, w.ownThen, w.ownReturnValue, w.createExecute, w.createLogCategory,
    w.createSeverity, w.addThen, w.createReturnValue, hres, h.spawned, h.node,
    h.ownExecute, h.ownLogCategory, h.ownSeverity, h.ownThen, h.ownReturnValue,
    h.createExecute, h.createLogCategory, h.createSeverity, h.addThen, h.createReturnValue,
    fun x hx => ExpandsTo_movedOwn E s s1 w rdy.node h PN_Execute (by simp [ownPinNames])
      _ _ h.ownExecute m1 x hx,
    fun x hx => ExpandsTo_movedOwn E s s1 w rdy.node h "LogCategory" (by simp [ownPinNames])
      _ _ h.ownLogCategory m2 x hx,
    fun x hx => ExpandsTo_movedOwn E s s1 w rdy.node h "Severity" (by simp [ownPinNames])
      _ _ h.ownSeverity m3 x hx,
    fun x hx => ExpandsTo_movedOwn E s s1 w rdy.node h PN_Then (by simp [ownPinNames])
      _ _ h.ownThen m4 x hx,
    fun x hx => ExpandsTo_movedOwn E s s1 w rdy.node h PN_ReturnValue (by simp [ownPinNames])
      _ _ h.ownReturnValue m5 x hx,
    fun p hp => ExpandsTo_orphan s s1 w h p hp⟩

/-- Witness for C5: `linkedState` is ready for compilation with `pickyEngine`, whose schema
refuses the links of the token pins; after its expansion the execute pin of the create node
is linked to pin 0, which the node's execute pin (pin 5) was linked to, and none of the
node's seven pins has a link left. -/
theorem ExpandNode_substitutes_node_witness :
    1 ≤ (dynamicPins linkedState).length
    ∧ ∃ (s1 : State) (CreateNode : UK2Node) (createExecute : Nat),
        ExpandNode pickyEngine linkedState = some s1
        ∧ FindPin s1.store.pin CreateNode PN_Execute = some createExecute
        ∧ Linked s1.store createExecute 0
        ∧ ∀ p ∈ linkedState.node.Pins, (s1.store.pin p).LinkedTo = [] := by
  refine ⟨by decide, ?_⟩
  obtain ⟨s1, CN, _, _, oe, _, _, _, _, ce, _, _, _, _, h1, _, _, f1, _, _, _, _, f2, _, _, _,
      _, l1, _, _, _, _, h2⟩ :=
    ExpandNode_substitutes_node pickyEngine linkedState linkedState_picky (by decide)
  have e : oe = 5 := by
    have : FindPin linkedState.store.pin linkedState.node PN_Execute = some 5 := by decide
    rw [this] at f1
    exact (Option.some.inj f1).symm
  subst e
  exact ⟨s1, CN, ce, h1, f2, (l1 0 (by unfold Linked; decide)).1, h2⟩

end BlueprintMessage
